import Mathlib

/-!
# Block deque (`src/deque.h`)

A shallow embedding of the two classes of `src/deque.h`.

* `Block T` is the 128-slot segment.  Its four data pointers are kept as
  offsets from `start_` (`start_` is offset 0 and `end_` is offset 127), so
  `first_elem_` and `last_elem_` are integers: `PopBack` on a block whose last
  element sits in slot 0 leaves `last_elem_` one slot before `start_`.
* `Deque T` is the ring of blocks.  `first_elem_` and `last_elem_` point into the
  block array and are kept as indices (`first_elem_ - content_`); `content_` is
  `none` for a null pointer.

Conventions.

* An operation returns `none` where the C++ program has no defined result: a
  slot or block access outside the allocated array, a read of a slot that was
  never written, a dereference of a null `content_`, a `% block_cnt_` with
  `block_cnt_ == 0`.  Everything else is computed as the source computes it.
* `size_t` counters are natural numbers.  `++size_` cannot wrap (a deque with
  `2^64` elements does not fit a 64-bit address space); `--size_` at zero and the
  unsigned difference `size_ - last_elem_->size_` wrap as `size_t` does
  (`decr`, `sub64`).
* The recursive retry of `Deque::PushBack` / `Deque::PushFront` is bounded by an
  explicit fuel argument; `PushBack_fuel_irrelevant` and
  `PushFront_fuel_irrelevant` show that any fuel `≥ 2` gives the same result on
  every state, so the recursion always returns.
* The classes own their storage (a deque owns its block array, a block owns its
  buffer), so the model above treats a deque as a value.  Where a statement is
  about which memory a call touches (deep copy), the namespace `Heap` transcribes
  the same operations over an explicit heap of buffers and block arrays.
-/

namespace BlockDeque

/-! ## Machine arithmetic -/

/-- The modulus of `size_t`. -/
def SIZE_MOD : Nat := 2 ^ 64

/-- Model of `--x` on a `size_t`: wraps to `2^64 - 1` at zero. -/
def decr (x : Nat) : Nat := if x = 0 then SIZE_MOD - 1 else x - 1

/-- Model of the unsigned difference `a - b` on `size_t`. -/
def sub64 (a b : Nat) : Nat := if b ≤ a then a - b else a + SIZE_MOD - b

/-! ## `Block<T>` -/

/-- Model of `Block<T>::max_size_`. -/
def max_size_ : Nat := 128

/-- Model of `class Block<T>`.  `content_` lists the 128 slots of the buffer,
`none` marking a slot that has never been written; `first_elem_` and
`last_elem_` are offsets from `start_`. -/
structure Block (T : Type) where
  size_ : Nat
  first_elem_ : Int
  last_elem_ : Int
  content_ : List (Option T)

/-- Offset of `start_` (`start_ = content_`). -/
def start_ : Int := 0

/-- Offset of `end_` (`end_ = content_ + max_size_ - 1`). -/
def end_ : Int := 127

/-- Model of `Block::Block()`: a fresh buffer, both element pointers at `start_`. -/
def Block.new {T : Type} : Block T :=
  { size_ := 0, first_elem_ := start_, last_elem_ := start_,
    content_ := List.replicate max_size_ none }

/-- Model of the write `*p = value` at offset `off` of the buffer. -/
def Block.store {T : Type} (buf : List (Option T)) (off : Int) (v : T) :
    Option (List (Option T)) :=
  if 0 ≤ off ∧ off.toNat < buf.length then some (buf.set off.toNat (some v)) else none

/-- Model of the read `*p` at offset `off` of the buffer. -/
def Block.load {T : Type} (buf : List (Option T)) (off : Int) : Option T :=
  if 0 ≤ off then (buf[off.toNat]?).join else none

/-- Model of `Block::Clear`. -/
def Block.Clear {T : Type} (b : Block T) : Block T :=
  { b with size_ := 0, first_elem_ := start_, last_elem_ := start_ }

/-- Model of `Block::PushBack`. -/
def Block.PushBack {T : Type} (b : Block T) (v : T) : Option (Block T) :=
  if b.size_ = 0 then
    (Block.store b.content_ start_ v).map fun buf =>
      { size_ := b.size_ + 1, first_elem_ := start_, last_elem_ := start_, content_ := buf }
  else
    (Block.store b.content_ (b.last_elem_ + 1) v).map fun buf =>
      { size_ := b.size_ + 1, first_elem_ := b.first_elem_,
        last_elem_ := b.last_elem_ + 1, content_ := buf }

/-- Model of `Block::PopBack`. -/
def Block.PopBack {T : Type} (b : Block T) : Block T :=
  { b with last_elem_ := b.last_elem_ - 1, size_ := decr b.size_ }

/-- Model of `Block::PushFront`. -/
def Block.PushFront {T : Type} (b : Block T) (v : T) : Option (Block T) :=
  if b.size_ = 0 then
    (Block.store b.content_ end_ v).map fun buf =>
      { size_ := b.size_ + 1, first_elem_ := end_, last_elem_ := end_, content_ := buf }
  else
    (Block.store b.content_ (b.first_elem_ - 1) v).map fun buf =>
      { size_ := b.size_ + 1, first_elem_ := b.first_elem_ - 1,
        last_elem_ := b.last_elem_, content_ := buf }

/-- Model of `Block::PopFront`. -/
def Block.PopFront {T : Type} (b : Block T) : Block T :=
  { b with first_elem_ := b.first_elem_ + 1, size_ := decr b.size_ }

/-- Model of `Block::Size`. -/
def Block.Size {T : Type} (b : Block T) : Nat := b.size_

/-- Model of `Block::Get` (both overloads, read through the returned reference). -/
def Block.Get {T : Type} (b : Block T) (ind : Nat) : Option T :=
  Block.load b.content_ (b.first_elem_ + ind)

/-- Model of `Block::IsEmpty`. -/
def Block.IsEmpty {T : Type} (b : Block T) : Bool := b.size_ == 0

/-- Model of `Block::CanPushBack`. -/
def Block.CanPushBack {T : Type} (b : Block T) : Bool :=
  b.size_ == 0 || b.last_elem_ != end_

/-- Model of `Block::CanPushFront`. -/
def Block.CanPushFront {T : Type} (b : Block T) : Bool :=
  b.size_ == 0 || b.first_elem_ != start_

/-- Model of the slot loop of `Block::Copy`: reads `rhs.content_[i]` for
`i = 0 .. n-1`, `none` if the source buffer is shorter. -/
def Block.copySlots {T : Type} : Nat → List (Option T) → Option (List (Option T))
  | 0, _ => some []
  | _ + 1, [] => none
  | n + 1, x :: xs => (Block.copySlots n xs).map fun r => x :: r

/-- Model of `Block::Copy` applied to a block other than `rhs`: the new block. -/
def Block.Copy {T : Type} (rhs : Block T) : Option (Block T) :=
  (Block.copySlots max_size_ rhs.content_).map fun buf =>
    { size_ := rhs.size_,
      first_elem_ := start_ + (rhs.first_elem_ - start_),
      last_elem_ := start_ + (rhs.last_elem_ - start_),
      content_ := buf }

/-! ## `Deque<T>` -/

/-- Model of `Deque<T>::block_size_`. -/
def block_size_ : Nat := 128

/-- Model of `class Deque<T>`.  `first_elem_` and `last_elem_` are the indices
`first_elem_ - content_` and `last_elem_ - content_`; `content_ = none` is the
null pointer. -/
structure Deque (T : Type) where
  size_ : Nat
  block_cnt_ : Nat
  first_elem_ : Nat
  last_elem_ : Nat
  content_ : Option (List (Block T))

/-- The block `content_[i]`, `none` outside the allocated array or through a
null `content_`. -/
def Deque.blk {T : Type} (d : Deque T) (i : Nat) : Option (Block T) :=
  match d.content_ with
  | some bs => bs[i]?
  | none => none

/-- Overwrites the block `content_[i]`. -/
def Deque.setBlk {T : Type} (d : Deque T) (i : Nat) (b : Block T) : Option (Deque T) :=
  match d.content_ with
  | some bs => if i < bs.length then some { d with content_ := some (bs.set i b) } else none
  | none => none

/-- Model of `Deque::Deque()`. -/
def Deque.new {T : Type} : Deque T :=
  { size_ := 0, block_cnt_ := 1, first_elem_ := 0, last_elem_ := 0,
    content_ := some (List.replicate 1 Block.new) }

/-- Model of `explicit Deque::Deque(size_t size)`. -/
def Deque.withSize {T : Type} (size : Nat) : Deque T :=
  { size_ := 0, block_cnt_ := max 1 (size / block_size_),
    first_elem_ := 0, last_elem_ := 0,
    content_ := some (List.replicate (max 1 (size / block_size_)) Block.new) }

/-- Model of `Deque::Size`. -/
def Deque.Size {T : Type} (d : Deque T) : Nat := d.size_

/-- Model of the loop of `Deque::Extend`: the blocks
`content_[(first_elem_ - content_ + i) % block_cnt_]` for `i = lo .. lo+n-1`. -/
def Deque.gather {T : Type} (bs : List (Block T)) (first cnt : Nat) :
    Nat → Nat → Option (List (Block T))
  | _, 0 => some []
  | lo, n + 1 =>
    match bs[(first + lo) % cnt]? with
    | some b => (Deque.gather bs first cnt (lo + 1) n).map fun r => b :: r
    | none => none

/-- Model of `Deque::Extend`.  The new array has `2 * block_cnt_` fresh blocks,
the first `block_cnt_` of which are move-assigned from the old ring starting at
the head block. -/
def Deque.Extend {T : Type} (d : Deque T) : Option (Deque T) :=
  match d.content_ with
  | none => none
  | some bs =>
    if d.block_cnt_ = 0 then none
    else
      (Deque.gather bs d.first_elem_ d.block_cnt_ 0 d.block_cnt_).map fun moved =>
        { size_ := d.size_, block_cnt_ := d.block_cnt_ * 2,
          first_elem_ := 0, last_elem_ := d.block_cnt_ - 1,
          content_ := some (moved ++ List.replicate d.block_cnt_ Block.new) }

/-- Model of `Deque::PushBack`; the first argument bounds the depth of the
recursive retry after `Extend`. -/
def Deque.PushBack {T : Type} : Nat → Deque T → T → Option (Deque T)
  | 0, _, _ => none
  | fuel + 1, d, v =>
    match d.blk d.last_elem_ with
    | none => none
    | some last =>
      if ¬ last.CanPushBack then
        if d.block_cnt_ = 0 then none
        else
          let next := (d.last_elem_ + 1) % d.block_cnt_
          if next = d.first_elem_ then
            match d.Extend with
            | none => none
            | some d1 => Deque.PushBack fuel d1 v
          else
            match d.blk next with
            | none => none
            | some b =>
              match b.PushBack v with
              | none => none
              | some b1 =>
                (({ d with last_elem_ := next } : Deque T).setBlk next b1).map fun d2 =>
                  { d2 with size_ := d2.size_ + 1 }
      else
        match last.PushBack v with
        | none => none
        | some b1 =>
          (d.setBlk d.last_elem_ b1).map fun d2 => { d2 with size_ := d2.size_ + 1 }

/-- Model of `Deque::PopBack`. -/
def Deque.PopBack {T : Type} (d : Deque T) : Option (Deque T) :=
  match d.blk d.last_elem_ with
  | none => none
  | some last =>
    match d.setBlk d.last_elem_ last.PopBack with
    | none => none
    | some d1 =>
      let d2 : Deque T := { d1 with size_ := decr d1.size_ }
      if last.PopBack.IsEmpty then
        if d2.size_ > 0 then
          if d2.block_cnt_ = 0 then none
          else some { d2 with
            last_elem_ := (d2.last_elem_ + d2.block_cnt_ - 1) % d2.block_cnt_ }
        else some d2
      else some d2

/-- Model of `Deque::PushFront`; the first argument bounds the depth of the
recursive retry after `Extend`. -/
def Deque.PushFront {T : Type} : Nat → Deque T → T → Option (Deque T)
  | 0, _, _ => none
  | fuel + 1, d, v =>
    match d.blk d.first_elem_ with
    | none => none
    | some first =>
      if ¬ first.CanPushFront then
        if d.block_cnt_ = 0 then none
        else
          let prev := (d.first_elem_ + d.block_cnt_ - 1) % d.block_cnt_
          if prev = d.last_elem_ then
            match d.Extend with
            | none => none
            | some d1 => Deque.PushFront fuel d1 v
          else
            match d.blk prev with
            | none => none
            | some b =>
              match b.PushFront v with
              | none => none
              | some b1 =>
                (({ d with first_elem_ := prev } : Deque T).setBlk prev b1).map fun d2 =>
                  { d2 with size_ := d2.size_ + 1 }
      else
        match first.PushFront v with
        | none => none
        | some b1 =>
          (d.setBlk d.first_elem_ b1).map fun d2 => { d2 with size_ := d2.size_ + 1 }

/-- Model of `Deque::PopFront`. -/
def Deque.PopFront {T : Type} (d : Deque T) : Option (Deque T) :=
  match d.blk d.first_elem_ with
  | none => none
  | some first =>
    match d.setBlk d.first_elem_ first.PopFront with
    | none => none
    | some d1 =>
      let d2 : Deque T := { d1 with size_ := decr d1.size_ }
      if first.PopFront.IsEmpty then
        if d2.size_ > 0 then
          if d2.block_cnt_ = 0 then none
          else some { d2 with first_elem_ := (d2.first_elem_ + 1) % d2.block_cnt_ }
        else some d2
      else some d2

/-- Model of `Deque::operator[]` (both overloads), read through the result. -/
def Deque.index {T : Type} (d : Deque T) (ind : Nat) : Option T :=
  match d.blk d.first_elem_ with
  | none => none
  | some first =>
    if first.size_ ≥ ind + 1 then first.Get ind
    else
      match d.blk d.last_elem_ with
      | none => none
      | some last =>
        if sub64 d.size_ last.size_ < ind + 1 then
          last.Get (ind - sub64 d.size_ last.size_)
        else
          let ind1 := ind - first.size_
          if d.block_cnt_ = 0 then none
          else
            match d.blk ((d.first_elem_ + 1 + ind1 / block_size_) % d.block_cnt_) with
            | none => none
            | some block => block.Get (ind1 % block_size_)

/-- Model of the loop of `Deque::Clear`: `content_[i].Clear()` for
`i = 0 .. n-1`, `none` if the array is shorter. -/
def Deque.clearBlocks {T : Type} : Nat → List (Block T) → Option (List (Block T))
  | 0, bs => some bs
  | _ + 1, [] => none
  | n + 1, b :: bs => (Deque.clearBlocks n bs).map fun r => b.Clear :: r

/-- Model of `Deque::Clear`. -/
def Deque.Clear {T : Type} (d : Deque T) : Option (Deque T) :=
  match d.content_ with
  | none =>
    if d.block_cnt_ = 0 then
      some { d with size_ := 0, first_elem_ := 0, last_elem_ := 0 }
    else none
  | some bs =>
    (Deque.clearBlocks d.block_cnt_ bs).map fun cleared =>
      { d with size_ := 0, first_elem_ := 0, last_elem_ := 0, content_ := some cleared }

/-- Model of the loop of `Deque::Copy`: `content_[i].Copy(rhs.content_[i])` for
`i = 0 .. n-1`. -/
def Deque.copyBlocks {T : Type} : Nat → List (Block T) → Option (List (Block T))
  | 0, _ => some []
  | _ + 1, [] => none
  | n + 1, b :: bs =>
    match b.Copy with
    | none => none
    | some b1 => (Deque.copyBlocks n bs).map fun r => b1 :: r

/-- Model of `Deque::Copy` called on an object other than `rhs`: the state of
`*this` afterwards. -/
def Deque.Copy {T : Type} (rhs : Deque T) : Option (Deque T) :=
  match rhs.content_ with
  | none => none
  | some bs =>
    (Deque.copyBlocks rhs.block_cnt_ bs).map fun copied =>
      { size_ := rhs.size_, block_cnt_ := rhs.block_cnt_,
        first_elem_ := rhs.first_elem_, last_elem_ := rhs.last_elem_,
        content_ := some copied }

/-- Model of the copy constructor `Deque::Deque(const Deque&)`. -/
def Deque.copyCtor {T : Type} (rhs : Deque T) : Option (Deque T) := rhs.Copy

/-- Model of `Deque::operator=(const Deque&)` with `&rhs != this`: the old array
of `*this` is deleted and replaced by a copy of `rhs`. -/
def Deque.copyAssign {T : Type} (_self rhs : Deque T) : Option (Deque T) := rhs.Copy

/-- Model of the move constructor `Deque::Deque(Deque&&)`: the pair
(`*this`, `rhs`) afterwards. -/
def Deque.moveCtor {T : Type} (rhs : Deque T) : Deque T × Deque T :=
  ({ size_ := rhs.size_, block_cnt_ := rhs.block_cnt_,
     first_elem_ := rhs.first_elem_, last_elem_ := rhs.last_elem_,
     content_ := rhs.content_ },
   { rhs with content_ := none, size_ := 0 })

/-- Model of `Deque::operator=(Deque&&)` with `this != &rhs`: the pair
(`*this`, `rhs`) afterwards.  (With `this == &rhs` the operator returns at once
and the object is unchanged.) -/
def Deque.moveAssign {T : Type} (_self rhs : Deque T) : Deque T × Deque T :=
  ({ size_ := rhs.size_, block_cnt_ := rhs.block_cnt_,
     first_elem_ := rhs.first_elem_, last_elem_ := rhs.last_elem_,
     content_ := rhs.content_ },
   { rhs with content_ := none, size_ := 0 })

/-- Model of the loop `for (const auto val : list) PushBack(val);`. -/
def Deque.pushAll {T : Type} (fuel : Nat) : List T → Deque T → Option (Deque T)
  | [], d => some d
  | v :: vs, d =>
    match Deque.PushBack fuel d v with
    | none => none
    | some d1 => Deque.pushAll fuel vs d1

/-- Model of `Deque::Deque(std::initializer_list<int>)`. -/
def Deque.fromList {T : Type} (fuel : Nat) (list : List T) : Option (Deque T) :=
  Deque.pushAll fuel list
    { size_ := 0, block_cnt_ := max 1 (list.length / block_size_),
      first_elem_ := 0, last_elem_ := 0,
      content_ := some (List.replicate (max 1 (list.length / block_size_)) Block.new) }

/-! ## Call sequences and the reference sequence -/

/-- One call of the push/pop interface. -/
inductive Op (T : Type) where
  | pushBack (v : T)
  | pushFront (v : T)
  | popBack
  | popFront

/-- Runs one call on the deque. -/
def Deque.apply {T : Type} (fuel : Nat) (d : Deque T) : Op T → Option (Deque T)
  | Op.pushBack v => Deque.PushBack fuel d v
  | Op.pushFront v => Deque.PushFront fuel d v
  | Op.popBack => d.PopBack
  | Op.popFront => d.PopFront

/-- Runs a sequence of calls on the deque, first call first. -/
def Deque.run {T : Type} (fuel : Nat) : List (Op T) → Deque T → Option (Deque T)
  | [], d => some d
  | op :: ops, d =>
    match d.apply fuel op with
    | none => none
    | some d1 => Deque.run fuel ops d1

/-- One call on the reference sequence: `push_back` appends, `push_front`
prepends, `pop_back` drops the last element and `pop_front` the first. -/
def refApply {T : Type} (l : List T) : Op T → List T
  | Op.pushBack v => l ++ [v]
  | Op.pushFront v => v :: l
  | Op.popBack => l.dropLast
  | Op.popFront => l.tail

/-- A sequence of calls on the reference sequence, first call first. -/
def refRun {T : Type} : List (Op T) → List T → List T
  | [], l => l
  | op :: ops, l => refRun ops (refApply l op)

/-- Whether the call is a pop. -/
def Op.isPop {T : Type} : Op T → Bool
  | Op.popBack => true
  | Op.popFront => true
  | _ => false

/-- No pop of the call sequence is applied to an empty deque (`Size() == 0`),
when the sequence is run on `d`. -/
def Deque.noEmptyPop {T : Type} (fuel : Nat) : List (Op T) → Deque T → Bool
  | [], _ => true
  | op :: ops, d =>
    (!op.isPop || d.Size != 0) &&
      match d.apply fuel op with
      | none => true
      | some d1 => Deque.noEmptyPop fuel ops d1

/-- No pop of the call sequence is applied to an empty reference sequence. -/
def refValid {T : Type} : List (Op T) → List T → Bool
  | [], _ => true
  | op :: ops, l => (!op.isPop || !l.isEmpty) && refValid ops (refApply l op)

/-- Number of pushes in a call sequence. -/
def pushCount {T : Type} : List (Op T) → Nat
  | [] => 0
  | op :: ops => (if op.isPop then 0 else 1) + pushCount ops

/-- Number of pops in a call sequence. -/
def popCount {T : Type} : List (Op T) → Nat
  | [] => 0
  | op :: ops => (if op.isPop then 1 else 0) + popCount ops

/-- `PopFront()` called `k` times. -/
def Deque.popFrontN {T : Type} : Nat → Deque T → Option (Deque T)
  | 0, d => some d
  | k + 1, d =>
    match d.PopFront with
    | none => none
    | some d1 => Deque.popFrontN k d1

/-- `PopBack()` called `k` times. -/
def Deque.popBackN {T : Type} : Nat → Deque T → Option (Deque T)
  | 0, d => some d
  | k + 1, d =>
    match d.PopBack with
    | none => none
    | some d1 => Deque.popBackN k d1

/-- `PushBack` takes the `Extend()` path on `d`: the tail block cannot take
another element at its back and the block after it is the head block. -/
def Deque.backGrows {T : Type} (d : Deque T) : Bool :=
  match d.blk d.last_elem_ with
  | none => false
  | some last =>
    !last.CanPushBack && d.block_cnt_ != 0 &&
      (d.last_elem_ + 1) % d.block_cnt_ == d.first_elem_

/-- `PushFront` takes the `Extend()` path on `d`: the head block cannot take
another element at its front and the block before it is the tail block. -/
def Deque.frontGrows {T : Type} (d : Deque T) : Bool :=
  match d.blk d.first_elem_ with
  | none => false
  | some first =>
    !first.CanPushFront && d.block_cnt_ != 0 &&
      (d.first_elem_ + d.block_cnt_ - 1) % d.block_cnt_ == d.last_elem_

/-- The deque is empty and valid: `Size() == 0` and it owns an array of
`block_cnt_ ≥ 1` blocks into which the head and tail indices point. -/
def Deque.ValidEmpty {T : Type} (d : Deque T) : Prop :=
  d.size_ = 0 ∧
    match d.content_ with
    | none => False
    | some bs =>
      bs.length = d.block_cnt_ ∧ 1 ≤ d.block_cnt_ ∧
        d.first_elem_ < d.block_cnt_ ∧ d.last_elem_ < d.block_cnt_

/-! ## Sample states -/

/-- The deque after `PushFront(1)` on a default-constructed deque: the element
sits in slot 127 of the only block. -/
def sampleBack : Deque Int :=
  { size_ := 1, block_cnt_ := 1, first_elem_ := 0, last_elem_ := 0,
    content_ := some [{ size_ := 1, first_elem_ := 127, last_elem_ := 127,
                        content_ := List.replicate 127 none ++ [some 1] }] }

/-- The deque after `PushBack(1)` on a default-constructed deque: the element
sits in slot 0 of the only block. -/
def sampleFront : Deque Int :=
  { size_ := 1, block_cnt_ := 1, first_elem_ := 0, last_elem_ := 0,
    content_ := some [{ size_ := 1, first_elem_ := 0, last_elem_ := 0,
                        content_ := some 1 :: List.replicate 127 none }] }

/-! ## The walk from the head block to the tail block -/

/-- The block indices visited by walking from the block `p` to the block `tail`
in circular order (`p`, `p + 1`, .. modulo `cnt`), both ends included; the first
argument bounds the number of steps. -/
def walkFrom (cnt tail : Nat) : Nat → Nat → List Nat
  | 0, p => [p]
  | fuel + 1, p => if p = tail then [p] else p :: walkFrom cnt tail fuel ((p + 1) % cnt)

/-- The block indices visited by walking circularly from the head block to the
tail block, both included. -/
def Deque.walk {T : Type} (d : Deque T) : List Nat :=
  walkFrom d.block_cnt_ d.last_elem_ d.block_cnt_ d.first_elem_

/-- The blocks strictly between the head block and the tail block in circular
order. -/
def Deque.interior {T : Type} (d : Deque T) : List Nat := d.walk.tail.dropLast

/-- The `size_` of the block `content_[p]` (0 outside the array). -/
def Deque.sizeAt {T : Type} (d : Deque T) (p : Nat) : Nat :=
  match d.blk p with
  | none => 0
  | some b => b.size_

/-- The sum of the blocks' `size_` over the walk from the head block to the tail
block. -/
def Deque.walkSum {T : Type} (d : Deque T) : Nat := (d.walk.map d.sizeAt).sum

/-! ## What `operator[]` and the pushes address -/

/-- The block index and the offset passed to `Block::Get` that
`Deque::operator[]` resolves `ind` to. -/
def Deque.locate {T : Type} (d : Deque T) (ind : Nat) : Option (Nat × Nat) :=
  match d.blk d.first_elem_ with
  | none => none
  | some first =>
    if first.size_ ≥ ind + 1 then some (d.first_elem_, ind)
    else
      match d.blk d.last_elem_ with
      | none => none
      | some last =>
        if sub64 d.size_ last.size_ < ind + 1 then
          some (d.last_elem_, ind - sub64 d.size_ last.size_)
        else
          if d.block_cnt_ = 0 then none
          else
            some ((d.first_elem_ + 1 + (ind - first.size_) / block_size_) % d.block_cnt_,
              (ind - first.size_) % block_size_)

/-- `Deque::operator[]` takes its third branch on `ind`: the index lies neither
in the head block's range nor in the tail block's. -/
def Deque.thirdCase {T : Type} (d : Deque T) (ind : Nat) : Bool :=
  match d.blk d.first_elem_, d.blk d.last_elem_ with
  | some first, some last =>
    !decide (first.size_ ≥ ind + 1) && !decide (sub64 d.size_ last.size_ < ind + 1)
  | _, _ => false

/-- The block on which `Deque::PushBack` calls `Block::PushBack`, as it is just
before that call. -/
def Deque.pushBackTarget {T : Type} : Nat → Deque T → Option (Block T)
  | 0, _ => none
  | fuel + 1, d =>
    match d.blk d.last_elem_ with
    | none => none
    | some last =>
      if ¬ last.CanPushBack then
        if d.block_cnt_ = 0 then none
        else
          if (d.last_elem_ + 1) % d.block_cnt_ = d.first_elem_ then
            match d.Extend with
            | none => none
            | some d1 => Deque.pushBackTarget fuel d1
          else d.blk ((d.last_elem_ + 1) % d.block_cnt_)
      else some last

/-- The block on which `Deque::PushFront` calls `Block::PushFront`, as it is just
before that call. -/
def Deque.pushFrontTarget {T : Type} : Nat → Deque T → Option (Block T)
  | 0, _ => none
  | fuel + 1, d =>
    match d.blk d.first_elem_ with
    | none => none
    | some first =>
      if ¬ first.CanPushFront then
        if d.block_cnt_ = 0 then none
        else
          if (d.first_elem_ + d.block_cnt_ - 1) % d.block_cnt_ = d.last_elem_ then
            match d.Extend with
            | none => none
            | some d1 => Deque.pushFrontTarget fuel d1
          else d.blk ((d.first_elem_ + d.block_cnt_ - 1) % d.block_cnt_)
      else some first

/-- Model of `Deque::Swap`: the pair (`*this`, `rhs`) afterwards. -/
def Deque.Swap {T : Type} (self rhs : Deque T) : Deque T × Deque T :=
  ({ size_ := rhs.size_, block_cnt_ := rhs.block_cnt_, first_elem_ := rhs.first_elem_,
     last_elem_ := rhs.last_elem_, content_ := rhs.content_ },
   { size_ := self.size_, block_cnt_ := self.block_cnt_, first_elem_ := self.first_elem_,
     last_elem_ := self.last_elem_, content_ := self.content_ })

/-- The deque after `PushFront(1)` and 129 calls `PushBack(7)` on a
default-constructed deque: four blocks, the head block holds `1` in slot 127,
block 1 is full, the tail block holds one `7` in slot 0. -/
def sampleWide : Deque Int :=
  { size_ := 130, block_cnt_ := 4, first_elem_ := 0, last_elem_ := 2,
    content_ := some
      [{ size_ := 1, first_elem_ := 127, last_elem_ := 127,
         content_ := List.replicate 127 none ++ [some 1] },
       { size_ := 128, first_elem_ := 0, last_elem_ := 127,
         content_ := List.replicate 128 (some 7) },
       { size_ := 1, first_elem_ := 0, last_elem_ := 0,
         content_ := some 7 :: List.replicate 127 none },
       Block.new] }

/-! ## Counting the calls of `Extend` made by one push -/

/-- The number of calls of `Extend` made by one call of `Deque::PushBack`,
following the same control flow as `Deque.PushBack`. -/
def Deque.pushBackExtends {T : Type} : Nat → Deque T → Nat
  | 0, _ => 0
  | fuel + 1, d =>
    match d.blk d.last_elem_ with
    | none => 0
    | some last =>
      if ¬ last.CanPushBack then
        if d.block_cnt_ = 0 then 0
        else
          if (d.last_elem_ + 1) % d.block_cnt_ = d.first_elem_ then
            match d.Extend with
            | none => 1
            | some d1 => 1 + Deque.pushBackExtends fuel d1
          else 0
      else 0

/-- The number of calls of `Extend` made by one call of `Deque::PushFront`,
following the same control flow as `Deque.PushFront`. -/
def Deque.pushFrontExtends {T : Type} : Nat → Deque T → Nat
  | 0, _ => 0
  | fuel + 1, d =>
    match d.blk d.first_elem_ with
    | none => 0
    | some first =>
      if ¬ first.CanPushFront then
        if d.block_cnt_ = 0 then 0
        else
          if (d.first_elem_ + d.block_cnt_ - 1) % d.block_cnt_ = d.last_elem_ then
            match d.Extend with
            | none => 1
            | some d1 => 1 + Deque.pushFrontExtends fuel d1
          else 0
      else 0

/-! ## Representation invariant -/

/-- The block `b` stores exactly the elements `xs`, in order, starting at
`first_elem_`, inside the 128 slots of its buffer. -/
def Block.Holds {T : Type} (b : Block T) (xs : List T) : Prop :=
  b.content_.length = 128 ∧ b.size_ = xs.length ∧
  (xs ≠ [] → 0 ≤ b.first_elem_ ∧ b.last_elem_ ≤ 127 ∧
    b.last_elem_ + 1 = b.first_elem_ + xs.length) ∧
  ∀ i, i < xs.length → b.Get i = xs[i]?

/-- Concatenation of the first `n` segments `seg 0, .., seg (n-1)`. -/
def flat {T : Type} (seg : Nat → List T) : Nat → List T
  | 0 => []
  | n + 1 => flat seg n ++ seg n

/-- What the invariant asks of the block `b` that sits `j` steps after the head
block, when the walk from head to tail has `n` blocks and `b` stores `xs`: with
more than one block on the walk the head block is filled up to slot 127, the
tail block is filled from slot 0, and the blocks in between are full. -/
def Placed {T : Type} (n j : Nat) (b : Block T) (xs : List T) : Prop :=
  b.Holds xs ∧
  (1 < n → j = 0 → xs ≠ [] ∧ b.last_elem_ = 127) ∧
  (1 < n → j + 1 = n → xs ≠ [] ∧ b.first_elem_ = 0) ∧
  (0 < j → j + 1 < n → xs.length = 128)

/-- Representation invariant: the deque `d` has the block array `bs`, the walk
from the head block to the tail block has `n` blocks, and the block `j` steps
after the head stores the segment `seg j` (empty behind the tail block). -/
structure Deque.Rep {T : Type} (d : Deque T) (bs : List (Block T))
    (seg : Nat → List T) (n : Nat) : Prop where
  content : d.content_ = some bs
  len : bs.length = d.block_cnt_
  first_lt : d.first_elem_ < d.block_cnt_
  n_pos : 0 < n
  n_le : n ≤ d.block_cnt_
  last_eq : d.last_elem_ = (d.first_elem_ + (n - 1)) % d.block_cnt_
  size_eq : d.size_ = (flat seg n).length
  seg_nil : ∀ j, n ≤ j → seg j = []
  placed : ∀ j, j < d.block_cnt_ → ∀ b,
    bs[(d.first_elem_ + j) % d.block_cnt_]? = some b → Placed n j b (seg j)

/-- The deque `d` is well formed and its logical element sequence is `l`. -/
def Deque.Models {T : Type} (d : Deque T) (l : List T) : Prop :=
  ∃ bs seg n, d.Rep bs seg n ∧ flat seg n = l

/-- The deque states the public interface can produce: a constructor followed
by pushes, pops of a non-empty deque and clears (copies and move targets
included). -/
inductive Reachable {T : Type} : Deque T → Prop where
  | ctor : Reachable Deque.new
  | ctorSize (size : Nat) : Reachable (Deque.withSize size)
  | ctorList (fuel : Nat) (list : List T) (d : Deque T) :
      Deque.fromList fuel list = some d → Reachable d
  | pushBack (fuel : Nat) (d d1 : Deque T) (v : T) :
      Reachable d → Deque.PushBack fuel d v = some d1 → Reachable d1
  | pushFront (fuel : Nat) (d d1 : Deque T) (v : T) :
      Reachable d → Deque.PushFront fuel d v = some d1 → Reachable d1
  | popBack (d d1 : Deque T) :
      Reachable d → d.Size ≠ 0 → d.PopBack = some d1 → Reachable d1
  | popFront (d d1 : Deque T) :
      Reachable d → d.Size ≠ 0 → d.PopFront = some d1 → Reachable d1
  | clear (d d1 : Deque T) : Reachable d → d.Clear = some d1 → Reachable d1
  | copy (d d1 : Deque T) : Reachable d → d.copyCtor = some d1 → Reachable d1
  | moved (d : Deque T) : Reachable d → Reachable d.moveCtor.1

/-! ## The heap model

The deep-copy claim is about which memory an operation touches, so the
operations of `src/deque.h` are transcribed a second time over an explicit heap:
the buffers allocated by `new T[max_size_]` and the block arrays allocated by
`new Block<T>[n]` live at addresses, a `Heap.Block` holds the address of its
buffer and a `Heap.Deque` the address of its block array.  Addresses are handed
out in increasing order and never reused; a freed cell reads `none`. -/

namespace Heap

/-- A `Block<T>` object as it lies in a block array.  `start_` is the address of
the buffer that `start_`, `end_`, `first_elem_` and `last_elem_` point into
(`first_elem_` and `last_elem_` are offsets from `start_`); `content_` is the
owning pointer, `none` for `nullptr`. -/
structure Block where
  size_ : Nat
  first_elem_ : Int
  last_elem_ : Int
  start_ : Nat
  content_ : Option Nat

/-- The heap: buffers and block arrays by address, with the next free address
of each kind. -/
structure Mem (T : Type) where
  bufs : Nat → Option (List (Option T))
  nbuf : Nat
  arrs : Nat → Option (List Block)
  narr : Nat

/-- A `Deque<T>` object: its scalar fields and the address of its block array
(`none` for `nullptr`); `first_elem_` and `last_elem_` are indices into that
array. -/
structure Deque where
  size_ : Nat
  block_cnt_ : Nat
  first_elem_ : Nat
  last_elem_ : Nat
  content_ : Option Nat

/-- The heap with nothing allocated. -/
def Mem.empty {T : Type} : Mem T :=
  { bufs := fun _ => none, nbuf := 0, arrs := fun _ => none, narr := 0 }

/-- Model of `new T[max_size_]`. -/
def Mem.newBuf {T : Type} (m : Mem T) : Mem T × Nat :=
  ({ m with bufs := Function.update m.bufs m.nbuf (some (List.replicate max_size_ none)),
            nbuf := m.nbuf + 1 }, m.nbuf)

/-- Model of `delete[] p` for a buffer pointer (`delete[] nullptr` does nothing). -/
def Mem.deleteBuf {T : Type} (m : Mem T) : Option Nat → Option (Mem T)
  | none => some m
  | some a =>
    match m.bufs a with
    | none => none
    | some _ => some { m with bufs := Function.update m.bufs a none }

/-- Model of the read `*p` at offset `off` of the buffer at address `a`. -/
def Mem.loadSlot {T : Type} (m : Mem T) (a : Nat) (off : Int) : Option T :=
  match m.bufs a with
  | none => none
  | some buf => BlockDeque.Block.load buf off

/-- Model of the write `*p = value` at offset `off` of the buffer at address `a`. -/
def Mem.storeSlot {T : Type} (m : Mem T) (a : Nat) (off : Int) (v : T) : Option (Mem T) :=
  match m.bufs a with
  | none => none
  | some buf =>
    (BlockDeque.Block.store buf off v).map fun buf1 =>
      { m with bufs := Function.update m.bufs a (some buf1) }

/-- The block `content_[i]` of the array at address `a`. -/
def Mem.getBlk {T : Type} (m : Mem T) (a i : Nat) : Option Block :=
  match m.arrs a with
  | none => none
  | some bs => bs[i]?

/-- Overwrites the fields of the block `content_[i]` of the array at address `a`. -/
def Mem.setBlk {T : Type} (m : Mem T) (a i : Nat) (b : Block) : Option (Mem T) :=
  match m.arrs a with
  | none => none
  | some bs =>
    if i < bs.length then some { m with arrs := Function.update m.arrs a (some (bs.set i b)) }
    else none

/-- Model of `Block::Block()`. -/
def Block.new {T : Type} (m : Mem T) : Mem T × Block :=
  ((m.newBuf).1,
   { size_ := 0, first_elem_ := BlockDeque.start_, last_elem_ := BlockDeque.start_,
     start_ := (m.newBuf).2, content_ := some (m.newBuf).2 })

/-- The `n` default-constructed blocks of `new Block<T>[n]`. -/
def Mem.newBlocks {T : Type} : Nat → Mem T → Mem T × List Block
  | 0, m => (m, [])
  | n + 1, m =>
    ((Mem.newBlocks n (Block.new m).1).1, (Block.new m).2 :: (Mem.newBlocks n (Block.new m).1).2)

/-- Model of `new Block<T>[n]`. -/
def Mem.newArr {T : Type} (m : Mem T) (n : Nat) : Mem T × Nat :=
  ({ (m.newBlocks n).1 with
       arrs := Function.update (m.newBlocks n).1.arrs (m.newBlocks n).1.narr
         (some (m.newBlocks n).2),
       narr := (m.newBlocks n).1.narr + 1 },
   (m.newBlocks n).1.narr)

/-- Model of `Block::~Block()` run on each block of an array. -/
def Mem.destroyBlocks {T : Type} : List Block → Mem T → Option (Mem T)
  | [], m => some m
  | b :: bs, m =>
    match m.deleteBuf b.content_ with
    | none => none
    | some m1 => Mem.destroyBlocks bs m1

/-- Model of `delete[] p` for a block-array pointer. -/
def Mem.deleteArr {T : Type} (m : Mem T) : Option Nat → Option (Mem T)
  | none => some m
  | some a =>
    match m.arrs a with
    | none => none
    | some bs =>
      (Mem.destroyBlocks bs m).map fun m1 =>
        { m1 with arrs := Function.update m1.arrs a none }

/-- Model of `Block::Clear`. -/
def Block.Clear (b : Block) : Block :=
  { b with size_ := 0, first_elem_ := BlockDeque.start_, last_elem_ := BlockDeque.start_ }

/-- Model of `Block::PushBack`. -/
def Block.PushBack {T : Type} (b : Block) (m : Mem T) (v : T) : Option (Mem T × Block) :=
  if b.size_ = 0 then
    (m.storeSlot b.start_ BlockDeque.start_ v).map fun m1 =>
      (m1, { b with size_ := b.size_ + 1, first_elem_ := BlockDeque.start_, last_elem_ := BlockDeque.start_ })
  else
    (m.storeSlot b.start_ (b.last_elem_ + 1) v).map fun m1 =>
      (m1, { b with size_ := b.size_ + 1, last_elem_ := b.last_elem_ + 1 })

/-- Model of `Block::PopBack`. -/
def Block.PopBack (b : Block) : Block :=
  { b with last_elem_ := b.last_elem_ - 1, size_ := decr b.size_ }

/-- Model of `Block::PushFront`. -/
def Block.PushFront {T : Type} (b : Block) (m : Mem T) (v : T) : Option (Mem T × Block) :=
  if b.size_ = 0 then
    (m.storeSlot b.start_ BlockDeque.end_ v).map fun m1 =>
      (m1, { b with size_ := b.size_ + 1, first_elem_ := BlockDeque.end_, last_elem_ := BlockDeque.end_ })
  else
    (m.storeSlot b.start_ (b.first_elem_ - 1) v).map fun m1 =>
      (m1, { b with size_ := b.size_ + 1, first_elem_ := b.first_elem_ - 1 })

/-- Model of `Block::PopFront`. -/
def Block.PopFront (b : Block) : Block :=
  { b with first_elem_ := b.first_elem_ + 1, size_ := decr b.size_ }

/-- Model of `Block::Get`, read through the returned reference. -/
def Block.Get {T : Type} (b : Block) (m : Mem T) (ind : Nat) : Option T :=
  m.loadSlot b.start_ (b.first_elem_ + ind)

/-- Model of a write through the reference returned by the non-const `Block::Get`. -/
def Block.GetSet {T : Type} (b : Block) (m : Mem T) (ind : Nat) (v : T) : Option (Mem T) :=
  m.storeSlot b.start_ (b.first_elem_ + ind) v

/-- Model of `Block::IsEmpty`. -/
def Block.IsEmpty (b : Block) : Bool := b.size_ == 0

/-- Model of `Block::CanPushBack`. -/
def Block.CanPushBack (b : Block) : Bool := b.size_ == 0 || b.last_elem_ != BlockDeque.end_

/-- Model of `Block::CanPushFront`. -/
def Block.CanPushFront (b : Block) : Bool := b.size_ == 0 || b.first_elem_ != BlockDeque.start_

/-- Model of `Block::Copy` (`this != &rhs`) on the block `self`: the old buffer is
deleted, a new one is allocated and filled slot by slot from `rhs.content_`. -/
def Block.Copy {T : Type} (self rhs : Block) (m : Mem T) : Option (Mem T × Block) :=
  match m.deleteBuf self.content_ with
  | none => none
  | some m1 =>
    match rhs.content_ with
    | none => none
    | some ra =>
      match (m1.newBuf).1.bufs ra with
      | none => none
      | some src =>
        (BlockDeque.Block.copySlots max_size_ src).map fun copied =>
          ({ (m1.newBuf).1 with
               bufs := Function.update (m1.newBuf).1.bufs (m1.newBuf).2 (some copied) },
           { size_ := rhs.size_, first_elem_ := rhs.first_elem_, last_elem_ := rhs.last_elem_,
             start_ := (m1.newBuf).2, content_ := some (m1.newBuf).2 })

/-- Model of `Block::operator=(Block&&)` (`this != &other`): the heap, `*this`
and `other` afterwards. -/
def Block.moveAssign {T : Type} (self other : Block) (m : Mem T) :
    Option (Mem T × Block × Block) :=
  (m.deleteBuf self.content_).map fun m1 =>
    (m1,
     { size_ := other.size_, first_elem_ := other.first_elem_,
       last_elem_ := other.last_elem_, start_ := other.start_, content_ := other.content_ },
     { other with content_ := none })

/-- Model of `Deque::Deque()`. -/
def Deque.new {T : Type} (m : Mem T) : Mem T × Deque :=
  ((m.newArr 1).1,
   { size_ := 0, block_cnt_ := 1, first_elem_ := 0, last_elem_ := 0,
     content_ := some (m.newArr 1).2 })

/-- Model of `Deque::Size`. -/
def Deque.Size (d : Deque) : Nat := d.size_

/-- Model of the loop of `Deque::Extend`, from `i = lo` for `n` rounds:
`new_content[i] = std::move(content_[(first_elem_ - content_ + i) % block_cnt_])`. -/
def Deque.moveBlocks {T : Type} (old fresh first cnt : Nat) :
    Nat → Nat → Mem T → Option (Mem T)
  | _, 0, m => some m
  | lo, n + 1, m =>
    match m.getBlk old ((first + lo) % cnt), m.getBlk fresh lo with
    | some src, some dst =>
      match dst.moveAssign src m with
      | none => none
      | some (m1, dst1, src1) =>
        match m1.setBlk fresh lo dst1 with
        | none => none
        | some m2 =>
          match m2.setBlk old ((first + lo) % cnt) src1 with
          | none => none
          | some m3 => Deque.moveBlocks old fresh first cnt (lo + 1) n m3
    | _, _ => none

/-- Model of `Deque::Extend`. -/
def Deque.Extend {T : Type} (m : Mem T) (d : Deque) : Option (Mem T × Deque) :=
  match d.content_ with
  | none => none
  | some a =>
    if d.block_cnt_ = 0 then none
    else
      match Deque.moveBlocks a (m.newArr (d.block_cnt_ * 2)).2 d.first_elem_ d.block_cnt_
          0 d.block_cnt_ (m.newArr (d.block_cnt_ * 2)).1 with
      | none => none
      | some m1 =>
        (m1.deleteArr (some a)).map fun m2 =>
          (m2, { size_ := d.size_, block_cnt_ := d.block_cnt_ * 2, first_elem_ := 0,
                 last_elem_ := d.block_cnt_ - 1,
                 content_ := some (m.newArr (d.block_cnt_ * 2)).2 })

/-- Model of `Deque::PushBack`; the first argument bounds the depth of the
recursive retry after `Extend`. -/
def Deque.PushBack {T : Type} : Nat → Mem T → Deque → T → Option (Mem T × Deque)
  | 0, _, _, _ => none
  | fuel + 1, m, d, v =>
    match d.content_ with
    | none => none
    | some a =>
      match m.getBlk a d.last_elem_ with
      | none => none
      | some last =>
        if ¬ last.CanPushBack then
          if d.block_cnt_ = 0 then none
          else
            if (d.last_elem_ + 1) % d.block_cnt_ = d.first_elem_ then
              match Deque.Extend m d with
              | none => none
              | some (m1, d1) => Deque.PushBack fuel m1 d1 v
            else
              match m.getBlk a ((d.last_elem_ + 1) % d.block_cnt_) with
              | none => none
              | some b =>
                match b.PushBack m v with
                | none => none
                | some (m1, b1) =>
                  (m1.setBlk a ((d.last_elem_ + 1) % d.block_cnt_) b1).map fun m2 =>
                    (m2, { d with last_elem_ := (d.last_elem_ + 1) % d.block_cnt_,
                                  size_ := d.size_ + 1 })
        else
          match last.PushBack m v with
          | none => none
          | some (m1, b1) =>
            (m1.setBlk a d.last_elem_ b1).map fun m2 => (m2, { d with size_ := d.size_ + 1 })

/-- Model of `Deque::PopBack`. -/
def Deque.PopBack {T : Type} (m : Mem T) (d : Deque) : Option (Mem T × Deque) :=
  match d.content_ with
  | none => none
  | some a =>
    match m.getBlk a d.last_elem_ with
    | none => none
    | some last =>
      match m.setBlk a d.last_elem_ last.PopBack with
      | none => none
      | some m1 =>
        if last.PopBack.IsEmpty then
          if decr d.size_ > 0 then
            if d.block_cnt_ = 0 then none
            else some (m1, { d with
              size_ := decr d.size_,
              last_elem_ := (d.last_elem_ + d.block_cnt_ - 1) % d.block_cnt_ })
          else some (m1, { d with size_ := decr d.size_ })
        else some (m1, { d with size_ := decr d.size_ })

/-- Model of `Deque::PushFront`; the first argument bounds the depth of the
recursive retry after `Extend`. -/
def Deque.PushFront {T : Type} : Nat → Mem T → Deque → T → Option (Mem T × Deque)
  | 0, _, _, _ => none
  | fuel + 1, m, d, v =>
    match d.content_ with
    | none => none
    | some a =>
      match m.getBlk a d.first_elem_ with
      | none => none
      | some first =>
        if ¬ first.CanPushFront then
          if d.block_cnt_ = 0 then none
          else
            if (d.first_elem_ + d.block_cnt_ - 1) % d.block_cnt_ = d.last_elem_ then
              match Deque.Extend m d with
              | none => none
              | some (m1, d1) => Deque.PushFront fuel m1 d1 v
            else
              match m.getBlk a ((d.first_elem_ + d.block_cnt_ - 1) % d.block_cnt_) with
              | none => none
              | some b =>
                match b.PushFront m v with
                | none => none
                | some (m1, b1) =>
                  (m1.setBlk a ((d.first_elem_ + d.block_cnt_ - 1) % d.block_cnt_) b1).map
                    fun m2 =>
                      (m2, { d with
                        first_elem_ := (d.first_elem_ + d.block_cnt_ - 1) % d.block_cnt_,
                        size_ := d.size_ + 1 })
        else
          match first.PushFront m v with
          | none => none
          | some (m1, b1) =>
            (m1.setBlk a d.first_elem_ b1).map fun m2 => (m2, { d with size_ := d.size_ + 1 })

/-- Model of `Deque::PopFront`. -/
def Deque.PopFront {T : Type} (m : Mem T) (d : Deque) : Option (Mem T × Deque) :=
  match d.content_ with
  | none => none
  | some a =>
    match m.getBlk a d.first_elem_ with
    | none => none
    | some first =>
      match m.setBlk a d.first_elem_ first.PopFront with
      | none => none
      | some m1 =>
        if first.PopFront.IsEmpty then
          if decr d.size_ > 0 then
            if d.block_cnt_ = 0 then none
            else some (m1, { d with
              size_ := decr d.size_,
              first_elem_ := (d.first_elem_ + 1) % d.block_cnt_ })
          else some (m1, { d with size_ := decr d.size_ })
        else some (m1, { d with size_ := decr d.size_ })

/-- The block and the offset in it that `Deque::operator[]` resolves `ind` to. -/
def Deque.locate {T : Type} (m : Mem T) (d : Deque) (ind : Nat) : Option (Block × Nat) :=
  match d.content_ with
  | none => none
  | some a =>
    match m.getBlk a d.first_elem_ with
    | none => none
    | some first =>
      if first.size_ ≥ ind + 1 then some (first, ind)
      else
        match m.getBlk a d.last_elem_ with
        | none => none
        | some last =>
          if sub64 d.size_ last.size_ < ind + 1 then
            some (last, ind - sub64 d.size_ last.size_)
          else
            if d.block_cnt_ = 0 then none
            else
              match m.getBlk a
                  ((d.first_elem_ + 1 + (ind - first.size_) / block_size_) % d.block_cnt_) with
              | none => none
              | some block => some (block, (ind - first.size_) % block_size_)

/-- Model of `Deque::operator[]` (both overloads), read through the result. -/
def Deque.index {T : Type} (m : Mem T) (d : Deque) (ind : Nat) : Option T :=
  match Deque.locate m d ind with
  | none => none
  | some (b, k) => b.Get m k

/-- Model of the write `d[ind] = v` through the non-const `Deque::operator[]`. -/
def Deque.assign {T : Type} (m : Mem T) (d : Deque) (ind : Nat) (v : T) : Option (Mem T) :=
  match Deque.locate m d ind with
  | none => none
  | some (b, k) => b.GetSet m k v

/-- Model of the loop of `Deque::Clear`, from `i = lo` for `n` rounds. -/
def Deque.clearBlocks {T : Type} (a : Nat) : Nat → Nat → Mem T → Option (Mem T)
  | _, 0, m => some m
  | lo, n + 1, m =>
    match m.getBlk a lo with
    | none => none
    | some b =>
      match m.setBlk a lo b.Clear with
      | none => none
      | some m1 => Deque.clearBlocks a (lo + 1) n m1

/-- Model of `Deque::Clear`. -/
def Deque.Clear {T : Type} (m : Mem T) (d : Deque) : Option (Mem T × Deque) :=
  match d.content_ with
  | none =>
    if d.block_cnt_ = 0 then some (m, { d with size_ := 0, first_elem_ := 0, last_elem_ := 0 })
    else none
  | some a =>
    (Deque.clearBlocks a 0 d.block_cnt_ m).map fun m1 =>
      (m1, { d with size_ := 0, first_elem_ := 0, last_elem_ := 0 })

/-- Model of the loop of `Deque::Copy`, from `i = lo` for `n` rounds:
`content_[i].Copy(rhs.content_[i])`. -/
def Deque.copyBlocks {T : Type} (self rhs : Nat) : Nat → Nat → Mem T → Option (Mem T)
  | _, 0, m => some m
  | lo, n + 1, m =>
    match m.getBlk self lo, m.getBlk rhs lo with
    | some b, some r =>
      match b.Copy r m with
      | none => none
      | some (m1, b1) =>
        match m1.setBlk self lo b1 with
        | none => none
        | some m2 => Deque.copyBlocks self rhs (lo + 1) n m2
    | _, _ => none

/-- Model of `Deque::Copy` called on an object other than `rhs` (the copy
constructor): the heap and the new object afterwards. -/
def Deque.Copy {T : Type} (m : Mem T) (rhs : Deque) : Option (Mem T × Deque) :=
  match rhs.content_ with
  | none => none
  | some ra =>
    (Deque.copyBlocks (m.newArr rhs.block_cnt_).2 ra 0 rhs.block_cnt_
        (m.newArr rhs.block_cnt_).1).map fun m1 =>
      (m1, { size_ := rhs.size_, block_cnt_ := rhs.block_cnt_,
             first_elem_ := rhs.first_elem_, last_elem_ := rhs.last_elem_,
             content_ := some (m.newArr rhs.block_cnt_).2 })

/-- A mutating call: a push, a pop, `Clear()` or a write `d[i] = v`. -/
inductive Mut (T : Type) where
  | pushBack (v : T)
  | pushFront (v : T)
  | popBack
  | popFront
  | clear
  | assign (i : Nat) (v : T)

/-- Runs one mutating call on the deque object `d`. -/
def Deque.mutate {T : Type} (fuel : Nat) (m : Mem T) (d : Deque) :
    Mut T → Option (Mem T × Deque)
  | Mut.pushBack v => Deque.PushBack fuel m d v
  | Mut.pushFront v => Deque.PushFront fuel m d v
  | Mut.popBack => Deque.PopBack m d
  | Mut.popFront => Deque.PopFront m d
  | Mut.clear => Deque.Clear m d
  | Mut.assign i v => (Deque.assign m d i v).map fun m1 => (m1, d)

/-- Runs a sequence of mutating calls on the deque object `d`, first call first. -/
def Deque.mutateAll {T : Type} (fuel : Nat) : List (Mut T) → Mem T → Deque →
    Option (Mem T × Deque)
  | [], m, d => some (m, d)
  | c :: cs, m, d =>
    match Deque.mutate fuel m d c with
    | none => none
    | some (m1, d1) => Deque.mutateAll fuel cs m1 d1

/-- Every pointer of the deque object `d` refers to allocated memory below the
marks `na` (block arrays) and `nb` (buffers). -/
def Deque.Below {T : Type} (na nb : Nat) (m : Mem T) (d : Deque) : Prop :=
  ∀ a, d.content_ = some a → a < na ∧
    ∀ bs, m.arrs a = some bs → ∀ b, b ∈ bs → b.start_ < nb

/-- No cell below the marks differs between the heaps `m` and `m1`, and nothing
was un-allocated. -/
def Mem.Frozen {T : Type} (na nb : Nat) (m m1 : Mem T) : Prop :=
  (∀ a, a < na → m1.arrs a = m.arrs a) ∧ (∀ a, a < nb → m1.bufs a = m.bufs a) ∧
    m.narr ≤ m1.narr ∧ m.nbuf ≤ m1.nbuf

/-- The pointers of the block are at or above the mark `nb`. -/
def Block.Above (nb : Nat) (b : Block) : Prop :=
  nb ≤ b.start_ ∧ ∀ x, b.content_ = some x → nb ≤ x

/-- The block array of the deque object is at or above the mark `na`. -/
def Deque.Above (na : Nat) (d : Deque) : Prop :=
  ∀ a, d.content_ = some a → na ≤ a

/-- Every block array at or above the mark `na` holds only blocks whose
pointers are at or above the mark `nb`, and the marks are allocated
addresses. -/
def Mem.Region {T : Type} (na nb : Nat) (m : Mem T) : Prop :=
  na ≤ m.narr ∧ nb ≤ m.nbuf ∧
    ∀ a, na ≤ a → ∀ bs, m.arrs a = some bs → ∀ b, b ∈ bs → b.Above nb

/-- The heap is well formed: no block array lies at or above the next free
array address. -/
def Mem.Fresh {T : Type} (m : Mem T) : Prop :=
  ∀ a, m.narr ≤ a → m.arrs a = none

/-- The heap after `Deque d; d.PushBack(1);` run on the empty heap: one block
array at address 0 whose only block owns the buffer at address 0. -/
def sampleMem : Mem Int :=
  { bufs := fun a => if a = 0 then some (some 1 :: List.replicate 127 none) else none,
    nbuf := 1,
    arrs := fun a =>
      if a = 0 then
        some [{ size_ := 1, first_elem_ := 0, last_elem_ := 0, start_ := 0, content_ := some 0 }]
      else none,
    narr := 1 }

/-- The deque object of `sampleMem`. -/
def sampleObj : Deque :=
  { size_ := 1, block_cnt_ := 1, first_elem_ := 0, last_elem_ := 0, content_ := some 0 }

/-- A sample sequence of mutating calls. -/
def sampleMuts : List (Mut Int) :=
  [Mut.pushBack 5, Mut.assign 0 9, Mut.popFront, Mut.pushFront 3, Mut.clear]

/-- The heap and the new object after copy-constructing from `sampleObj`. -/
def sampleCopy : Mem Int × Deque :=
  (Deque.Copy sampleMem sampleObj).getD (sampleMem, sampleObj)

/-- The heap and the copy after `sampleMuts` has run on the copy. -/
def sampleFinal : Mem Int × Deque :=
  (Deque.mutateAll 2 sampleMuts sampleCopy.1 sampleCopy.2).getD sampleCopy

end Heap

namespace Heap

/-! ## Heap objects and the values they hold -/

/-- The block object `hb` of the heap `m` holds the block value `vb`: it owns
the allocated buffer it points into, that buffer has the slots of `vb`, and the
element count and the two element pointers agree. -/
def Block.Reps {T : Type} (m : Mem T) (hb : Block) (vb : BlockDeque.Block T) : Prop :=
  hb.content_ = some hb.start_ ∧ hb.start_ < m.nbuf ∧ m.bufs hb.start_ = some vb.content_ ∧
    hb.size_ = vb.size_ ∧ hb.first_elem_ = vb.first_elem_ ∧ hb.last_elem_ = vb.last_elem_

/-- The deque object `d` of the heap `m` holds the deque value `dv`: the scalar
fields agree, `content_` points to an allocated block array whose blocks hold
the blocks of `dv` one by one, and no two blocks of the array share a buffer. -/
def Deque.Reps {T : Type} (m : Mem T) (d : Deque) (dv : BlockDeque.Deque T) : Prop :=
  d.size_ = dv.size_ ∧ d.block_cnt_ = dv.block_cnt_ ∧ d.first_elem_ = dv.first_elem_ ∧
    d.last_elem_ = dv.last_elem_ ∧
    ∃ (a : Nat) (hbs : List Block) (vbs : List (BlockDeque.Block T)), d.content_ = some a ∧ a < m.narr ∧ m.arrs a = some hbs ∧
      dv.content_ = some vbs ∧ hbs.length = vbs.length ∧
      (∀ (i : Nat) (hb : Block) (vb : BlockDeque.Block T),
        hbs[i]? = some hb → vbs[i]? = some vb → hb.Reps m vb) ∧
      (∀ (i j : Nat) (hb hb2 : Block),
        hbs[i]? = some hb → hbs[j]? = some hb2 → hb.start_ = hb2.start_ → i = j)

end Heap

namespace Heap

/-! ## Mutating calls on a deque value -/

/-- Model of the write `d[ind] = v` through the non-const `Deque::operator[]`,
on the deque value: the slot `first_elem_ + k` of the located block is
overwritten. -/
def assignValue {T : Type} (dv : BlockDeque.Deque T) (ind : Nat) (v : T) :
    Option (BlockDeque.Deque T) :=
  match dv.locate ind with
  | none => none
  | some (p, k) =>
    match dv.blk p with
    | none => none
    | some b =>
      match BlockDeque.Block.store b.content_ (b.first_elem_ + k) v with
      | none => none
      | some buf => dv.setBlk p { b with content_ := buf }

/-- Runs one mutating call on the deque value. -/
def Mut.onValue {T : Type} (fuel : Nat) (dv : BlockDeque.Deque T) :
    Mut T → Option (BlockDeque.Deque T)
  | Mut.pushBack v => BlockDeque.Deque.PushBack fuel dv v
  | Mut.pushFront v => BlockDeque.Deque.PushFront fuel dv v
  | Mut.popBack => dv.PopBack
  | Mut.popFront => dv.PopFront
  | Mut.clear => dv.Clear
  | Mut.assign i v => assignValue dv i v

/-- The call meets the precondition of its operation on the deque value: a pop
needs `Size() != 0` and an indexed write needs an index below `Size()`. -/
def Mut.ok {T : Type} (dv : BlockDeque.Deque T) : Mut T → Bool
  | Mut.pushBack _ => true
  | Mut.pushFront _ => true
  | Mut.popBack => dv.Size != 0
  | Mut.popFront => dv.Size != 0
  | Mut.clear => true
  | Mut.assign i _ => decide (i < dv.Size)

/-- Every call of the sequence meets its precondition when the sequence is run
on the deque value `dv`. -/
def Mut.allOk {T : Type} (fuel : Nat) : List (Mut T) → BlockDeque.Deque T → Bool
  | [], _ => true
  | c :: cs, dv =>
    c.ok dv &&
      match c.onValue fuel dv with
      | none => true
      | some dv1 => Mut.allOk fuel cs dv1

end Heap

/-! ## Arithmetic and list lemmas -/

theorem mod_wrap (a c : Nat) (h : a < 2 * c) : a % c = if a < c then a else a - c := by
  split
  · exact Nat.mod_eq_of_lt (by assumption)
  · rw [Nat.mod_eq_sub_mod (by omega), Nat.mod_eq_of_lt (by omega)]

theorem load_store {T : Type} (buf buf1 : List (Option T)) (off off1 : Int) (v : T)
    (h : Block.store buf off v = some buf1) :
    Block.load buf1 off1 = if off1 = off then some v else Block.load buf off1 := by
  unfold Block.store at h
  split at h
  · rename_i hc
    cases h
    unfold Block.load
    by_cases h0 : 0 ≤ off1
    · simp only [h0, if_true]
      rw [List.getElem?_set]
      by_cases he : off1 = off
      · subst he
        simp [hc.2]
      · have : off.toNat ≠ off1.toNat := by omega
        simp [this, he]
    · have : off1 ≠ off := by omega
      simp [h0, this]
  · cases h

theorem store_length {T : Type} (buf buf1 : List (Option T)) (off : Int) (v : T)
    (h : Block.store buf off v = some buf1) : buf1.length = buf.length := by
  unfold Block.store at h
  split at h
  · cases h; simp
  · cases h

theorem store_some {T : Type} (buf : List (Option T)) (off : Int) (v : T)
    (h0 : 0 ≤ off) (h1 : off < buf.length) :
    ∃ buf1, Block.store buf off v = some buf1 := by
  unfold Block.store
  have : off.toNat < buf.length := by omega
  simp [h0, this]

theorem holds_new {T : Type} : (Block.new : Block T).Holds [] := by
  refine ⟨by simp [Block.new, max_size_], rfl, by simp, by simp⟩

theorem holds_clear {T : Type} (b : Block T) (h : b.content_.length = 128) :
    b.Clear.Holds [] := by
  refine ⟨h, rfl, by simp, by simp⟩

theorem holds_size {T : Type} {b : Block T} {xs : List T} (h : b.Holds xs) :
    b.size_ = xs.length := h.2.1

theorem holds_pushBack {T : Type} (b : Block T) (xs : List T) (v : T)
    (h : b.Holds xs) (hc : b.CanPushBack = true) :
    ∃ b1, b.PushBack v = some b1 ∧ b1.Holds (xs ++ [v]) ∧
      (xs ≠ [] → b1.first_elem_ = b.first_elem_) ∧
      (xs = [] → b1.first_elem_ = 0 ∧ b1.last_elem_ = 0) ∧
      b1.last_elem_ + 1 = b1.first_elem_ + (xs.length + 1 : Nat) := by
  obtain ⟨hlen, hsz, hpos, hget⟩ := h
  unfold Block.PushBack
  by_cases h0 : b.size_ = 0
  · have hx : xs = [] := by
      cases xs with
      | nil => rfl
      | cons a t => simp [h0] at hsz
    subst hx
    obtain ⟨buf1, hb⟩ := store_some b.content_ start_ v (by simp [start_]) (by simp [start_, hlen])
    simp only [h0, if_true, hb, Option.map_some']
    refine ⟨_, rfl, ⟨?_, by simp, ?_, ?_⟩, by simp, by simp [start_], by simp [start_]⟩
    · simpa [store_length _ _ _ _ hb] using hlen
    · intro _; simp [start_]
    · intro i hi
      simp only [List.nil_append, List.length_singleton, Nat.lt_one_iff] at hi
      subst hi
      simp [Block.Get, load_store _ _ _ _ _ hb]
  · have hx : xs ≠ [] := by
      intro hx; subst hx; simp at hsz; exact h0 hsz
    obtain ⟨hf, hl, hfl⟩ := hpos hx
    have hl1 : b.last_elem_ ≠ 127 := by
      simp [Block.CanPushBack, h0, end_] at hc
      exact hc
    obtain ⟨buf1, hb⟩ := store_some b.content_ (b.last_elem_ + 1) v (by omega) (by omega)
    simp only [h0, if_false, hb, Option.map_some']
    refine ⟨_, rfl, ⟨?_, by simp [hsz], ?_, ?_⟩, by simp, fun h => absurd h hx, ?_⟩
    · simpa [store_length _ _ _ _ hb] using hlen
    · intro _
      dsimp only
      simp only [List.length_append, List.length_singleton]
      push_cast
      omega
    · intro i hi
      simp only [List.length_append, List.length_singleton] at hi
      simp only [Block.Get, load_store _ _ _ _ _ hb]
      by_cases hi2 : i < xs.length
      · have : b.first_elem_ + (i : Int) ≠ b.last_elem_ + 1 := by omega
        rw [if_neg this, List.getElem?_append_left hi2]
        exact hget i hi2
      · have hi3 : i = xs.length := by omega
        have : b.first_elem_ + (i : Int) = b.last_elem_ + 1 := by omega
        rw [if_pos this, hi3, List.getElem?_concat_length]
    · simp only; push_cast; omega

theorem holds_pushFront {T : Type} (b : Block T) (xs : List T) (v : T)
    (h : b.Holds xs) (hc : b.CanPushFront = true) :
    ∃ b1, b.PushFront v = some b1 ∧ b1.Holds (v :: xs) ∧
      (xs ≠ [] → b1.last_elem_ = b.last_elem_) ∧
      (xs = [] → b1.first_elem_ = 127 ∧ b1.last_elem_ = 127) ∧
      b1.last_elem_ + 1 = b1.first_elem_ + (xs.length + 1 : Nat) := by
  obtain ⟨hlen, hsz, hpos, hget⟩ := h
  unfold Block.PushFront
  by_cases h0 : b.size_ = 0
  · have hx : xs = [] := by
      cases xs with
      | nil => rfl
      | cons a t => simp [h0] at hsz
    subst hx
    obtain ⟨buf1, hb⟩ := store_some b.content_ end_ v (by simp [end_]) (by simp [end_, hlen])
    simp only [h0, if_true, hb, Option.map_some']
    refine ⟨_, rfl, ⟨?_, by simp, ?_, ?_⟩, by simp, by simp [end_], by simp [end_]⟩
    · simpa [store_length _ _ _ _ hb] using hlen
    · intro _; simp [end_]
    · intro i hi
      simp only [List.length_singleton, Nat.lt_one_iff] at hi
      subst hi
      simp [Block.Get, load_store _ _ _ _ _ hb]
  · have hx : xs ≠ [] := by
      intro hx; subst hx; simp at hsz; exact h0 hsz
    obtain ⟨hf, hl, hfl⟩ := hpos hx
    have hl1 : b.first_elem_ ≠ 0 := by
      simp [Block.CanPushFront, h0, start_] at hc
      exact hc
    obtain ⟨buf1, hb⟩ := store_some b.content_ (b.first_elem_ - 1) v (by omega) (by omega)
    simp only [h0, if_false, hb, Option.map_some']
    refine ⟨_, rfl, ⟨?_, by simp [hsz], ?_, ?_⟩, by simp, fun h => absurd h hx, ?_⟩
    · simpa [store_length _ _ _ _ hb] using hlen
    · intro _
      dsimp only
      simp only [List.length_cons]
      push_cast
      omega
    · intro i hi
      simp only [List.length_cons] at hi
      simp only [Block.Get, load_store _ _ _ _ _ hb]
      cases i with
      | zero => simp
      | succ k =>
        have : b.first_elem_ - 1 + ((k + 1 : Nat) : Int) ≠ b.first_elem_ - 1 := by omega
        rw [if_neg this, List.getElem?_cons_succ]
        have h2 := hget k (by omega)
        simp only [Block.Get] at h2
        rw [← h2]
        congr 1
        push_cast
        omega
    · simp only; push_cast; omega

theorem holds_popBack {T : Type} (b : Block T) (xs : List T)
    (h : b.Holds xs) (hx : xs ≠ []) :
    b.PopBack.Holds xs.dropLast ∧ b.PopBack.first_elem_ = b.first_elem_ := by
  obtain ⟨hlen, hsz, hpos, hget⟩ := h
  obtain ⟨hf, hl, hfl⟩ := hpos hx
  have hlx : 0 < xs.length := List.length_pos.mpr hx
  refine ⟨⟨hlen, ?_, ?_, ?_⟩, rfl⟩
  · simp only [Block.PopBack, decr, List.length_dropLast]
    rw [if_neg (by omega)]
    omega
  · intro _
    simp only [Block.PopBack, List.length_dropLast]
    refine ⟨hf, by omega, by omega⟩
  · intro i hi
    simp only [List.length_dropLast] at hi
    rw [List.getElem?_dropLast, if_pos hi]
    exact hget i (by omega)

theorem holds_popFront {T : Type} (b : Block T) (xs : List T)
    (h : b.Holds xs) (hx : xs ≠ []) :
    b.PopFront.Holds xs.tail ∧ b.PopFront.last_elem_ = b.last_elem_ := by
  obtain ⟨hlen, hsz, hpos, hget⟩ := h
  obtain ⟨hf, hl, hfl⟩ := hpos hx
  have hlx : 0 < xs.length := List.length_pos.mpr hx
  refine ⟨⟨hlen, ?_, ?_, ?_⟩, rfl⟩
  · simp only [Block.PopFront, decr, List.length_tail]
    rw [if_neg (by omega)]
    omega
  · intro _
    simp only [Block.PopFront, List.length_tail]
    refine ⟨by omega, hl, by omega⟩
  · intro i hi
    simp only [List.length_tail] at hi
    rw [List.getElem?_tail]
    have h2 := hget (i + 1) (by omega)
    simp only [Block.Get] at h2 ⊢
    rw [← h2]
    simp only [Block.PopFront]
    congr 1
    push_cast
    omega

/-! ## Concatenation of segments -/

theorem flat_congr {T : Type} (f g : Nat → List T) (n : Nat)
    (h : ∀ j, j < n → f j = g j) : flat f n = flat g n := by
  induction n with
  | zero => rfl
  | succ k ih =>
    simp only [flat]
    rw [ih (fun j hj => h j (by omega)), h k (by omega)]

theorem flat_shift {T : Type} (f : Nat → List T) (n : Nat) :
    flat f (n + 1) = f 0 ++ flat (fun j => f (j + 1)) n := by
  induction n with
  | zero => simp [flat]
  | succ k ih =>
    rw [flat, ih]
    simp only [flat, List.append_assoc]

theorem flat_nil {T : Type} (f : Nat → List T) (n : Nat)
    (h : ∀ j, j < n → f j = []) : flat f n = [] := by
  induction n with
  | zero => rfl
  | succ k ih =>
    simp only [flat]
    rw [ih (fun j hj => h j (by omega)), h k (by omega)]
    rfl

theorem flat_full_length {T : Type} (f : Nat → List T) (m : Nat)
    (h : ∀ j, j < m → (f j).length = 128) : (flat f m).length = 128 * m := by
  induction m with
  | zero => rfl
  | succ k ih =>
    simp only [flat, List.length_append]
    rw [ih (fun j hj => h j (by omega)), h k (by omega)]
    omega

theorem flat_full_get {T : Type} (f : Nat → List T) (m : Nat)
    (h : ∀ j, j < m → (f j).length = 128) (i : Nat) (hi : i < 128 * m) :
    (flat f m)[i]? = (f (i / 128))[i % 128]? := by
  induction m with
  | zero => omega
  | succ k ih =>
    have hk := flat_full_length f k (fun j hj => h j (by omega))
    simp only [flat]
    by_cases hik : i < 128 * k
    · rw [List.getElem?_append_left (by omega)]
      exact ih (fun j hj => h j (by omega)) hik
    · rw [List.getElem?_append_right (by omega), hk]
      have h1 : i / 128 = k := by omega
      have h2 : i % 128 = i - 128 * k := by omega
      rw [h1, h2]

/-! ## Reading the invariant -/

theorem Deque.Rep.blk_eq {T : Type} {d : Deque T} {bs : List (Block T)}
    {seg : Nat → List T} {n : Nat} (h : d.Rep bs seg n) (i : Nat) :
    d.blk i = bs[i]? := by
  simp [Deque.blk, h.content]

theorem Deque.Rep.at {T : Type} {d : Deque T} {bs : List (Block T)}
    {seg : Nat → List T} {n : Nat} (h : d.Rep bs seg n) (j : Nat) (hj : j < d.block_cnt_) :
    ∃ b, bs[(d.first_elem_ + j) % d.block_cnt_]? = some b ∧ Placed n j b (seg j) := by
  have hc : 0 < d.block_cnt_ := by omega
  have hlt : (d.first_elem_ + j) % d.block_cnt_ < bs.length := by
    rw [h.len]; exact Nat.mod_lt _ hc
  refine ⟨bs[(d.first_elem_ + j) % d.block_cnt_], List.getElem?_eq_getElem hlt, ?_⟩
  exact h.placed j hj _ (List.getElem?_eq_getElem hlt)

theorem Deque.Rep.head {T : Type} {d : Deque T} {bs : List (Block T)}
    {seg : Nat → List T} {n : Nat} (h : d.Rep bs seg n) :
    ∃ b, d.blk d.first_elem_ = some b ∧ Placed n 0 b (seg 0) := by
  obtain ⟨b, hb, hp⟩ := h.at 0 (by have := h.n_pos; have := h.n_le; omega)
  rw [Nat.add_zero, Nat.mod_eq_of_lt h.first_lt] at hb
  exact ⟨b, by rw [h.blk_eq]; exact hb, hp⟩

theorem Deque.Rep.tail {T : Type} {d : Deque T} {bs : List (Block T)}
    {seg : Nat → List T} {n : Nat} (h : d.Rep bs seg n) :
    ∃ b, d.blk d.last_elem_ = some b ∧ Placed n (n - 1) b (seg (n - 1)) := by
  obtain ⟨b, hb, hp⟩ := h.at (n - 1) (by have := h.n_pos; have := h.n_le; omega)
  rw [← h.last_eq] at hb
  exact ⟨b, by rw [h.blk_eq]; exact hb, hp⟩

theorem Deque.Rep.last_lt {T : Type} {d : Deque T} {bs : List (Block T)}
    {seg : Nat → List T} {n : Nat} (h : d.Rep bs seg n) :
    d.last_elem_ < d.block_cnt_ := by
  rw [h.last_eq]
  exact Nat.mod_lt _ (by have := h.first_lt; omega)

/-- Under the invariant `operator[]` reads the `i`-th element of the logical
sequence, for every `i < Size()`. -/
theorem Deque.Rep.index_eq {T : Type} {d : Deque T} {bs : List (Block T)}
    {seg : Nat → List T} {n : Nat} (h : d.Rep bs seg n) (i : Nat) (hi : i < d.size_) :
    d.index i = (flat seg n)[i]? := by
  obtain ⟨fb, hfb, hfp⟩ := h.head
  obtain ⟨lb, hlb, hlp⟩ := h.tail
  have hnpos := h.n_pos
  have hnle := h.n_le
  have hsz := h.size_eq
  obtain ⟨m, rfl⟩ : ∃ m, n = m + 1 := ⟨n - 1, by omega⟩
  simp only [Nat.add_sub_cancel] at hlp
  have hfs := holds_size hfp.1
  have hls := holds_size hlp.1
  unfold Deque.index
  simp only [hfb, hlb]
  have hflat1 : flat seg (m + 1) = seg 0 ++ flat (fun j => seg (j + 1)) m := flat_shift seg m
  by_cases c1 : fb.size_ ≥ i + 1
  · rw [if_pos c1, hflat1, List.getElem?_append_left (by omega)]
    exact hfp.1.2.2.2 i (by omega)
  · rw [if_neg c1]
    have hflat2 : flat seg (m + 1) = flat seg m ++ seg m := rfl
    have hsz2 : d.size_ = (flat seg m).length + (seg m).length := by
      rw [hsz, hflat2, List.length_append]
    have hsub : sub64 d.size_ lb.size_ = (flat seg m).length := by
      unfold sub64
      rw [if_pos (by omega)]
      omega
    rw [hsub]
    by_cases c2 : (flat seg m).length < i + 1
    · rw [if_pos c2, hflat2, List.getElem?_append_right (by omega)]
      exact hlp.1.2.2.2 _ (by omega)
    · rw [if_neg c2]
      have hc0 : d.block_cnt_ ≠ 0 := by omega
      simp only [hc0, if_false, block_size_]
      -- the index lies strictly between the head block and the tail block
      cases m with
      | zero => simp [flat] at c2
      | succ k =>
        have hmid : ∀ j, j < k → (seg (j + 1)).length = 128 := by
          intro j hj
          obtain ⟨b, _, hp⟩ := h.at (j + 1) (by omega)
          exact hp.2.2.2 (by omega) (by omega)
        have hflat3 : flat seg (k + 1) = seg 0 ++ flat (fun j => seg (j + 1)) k :=
          flat_shift seg k
        have hlen3 := flat_full_length (fun j => seg (j + 1)) k hmid
        have hlen4 : (flat seg (k + 1)).length = (seg 0).length + 128 * k := by
          rw [hflat3, List.length_append, hlen3]
        have hq : (i - fb.size_) / 128 < k := by omega
        obtain ⟨b, hb, hp⟩ := h.at (1 + (i - fb.size_) / 128) (by omega)
        have hidx : (d.first_elem_ + 1 + (i - fb.size_) / 128) % d.block_cnt_ =
            (d.first_elem_ + (1 + (i - fb.size_) / 128)) % d.block_cnt_ := by
          congr 1; omega
        rw [h.blk_eq, hidx, hb]
        have hl := hp.2.2.2 (by omega) (by omega)
        have hmodlt : (i - fb.size_) % 128 < 128 := Nat.mod_lt _ (by omega)
        simp only
        rw [hp.1.2.2.2 _ (by rw [hl]; exact hmodlt)]
        rw [hflat2, List.getElem?_append_left (by omega), hflat3,
          List.getElem?_append_right (by omega),
          flat_full_get _ k hmid _ (by omega)]
        rw [hfs]
        congr 2
        omega

/-! ## Ring arithmetic -/

theorem ring_inj (h c j k : Nat) (hh : h < c) (hj : j < c) (hk : k < c)
    (e : (h + j) % c = (h + k) % c) : j = k := by
  rw [mod_wrap _ _ (by omega), mod_wrap _ _ (by omega)] at e
  split_ifs at e <;> omega

theorem ring_succ (h c m : Nat) (hh : h < c) (hm : m < c) :
    ((h + m) % c + 1) % c = (h + (m + 1)) % c := by
  rw [mod_wrap (h + m) c (by omega)]
  split_ifs with h1
  · rfl
  · rw [mod_wrap (h + m - c + 1) c (by omega)]
    by_cases h2 : m + 1 = c
    · subst h2
      have : h + (m + 1) = h + (m + 1) * 1 := by omega
      rw [this, Nat.add_mul_mod_self_left, Nat.mod_eq_of_lt hh]
      split_ifs <;> omega
    · rw [mod_wrap (h + (m + 1)) c (by omega)]
      split_ifs <;> omega

theorem ring_pred (h c m : Nat) (hh : h < c) (hm : m < c) :
    ((h + (m + 1)) % c + c - 1) % c = (h + m) % c := by
  by_cases h2 : m + 1 = c
  · have e : h + (m + 1) = h + c * 1 := by omega
    rw [e, Nat.add_mul_mod_self_left, Nat.mod_eq_of_lt hh,
      mod_wrap (h + c - 1) c (by omega), mod_wrap (h + m) c (by omega)]
    split_ifs <;> omega
  · rw [mod_wrap (h + (m + 1)) c (by omega)]
    split_ifs with h1
    · rw [mod_wrap (h + (m + 1) + c - 1) c (by omega), mod_wrap (h + m) c (by omega)]
      split_ifs <;> omega
    · rw [mod_wrap (h + (m + 1) - c + c - 1) c (by omega), mod_wrap (h + m) c (by omega)]
      split_ifs <;> omega

/-! ## `Extend` -/

theorem gather_spec {T : Type} (bs : List (Block T)) (h c : Nat) (hc : 0 < c)
    (hlen : bs.length = c) (n : Nat) : ∀ lo : Nat,
    ∃ r, Deque.gather bs h c lo n = some r ∧ r.length = n ∧
      ∀ j, j < n → r[j]? = bs[(h + (lo + j)) % c]? := by
  induction n with
  | zero => intro lo; exact ⟨[], rfl, rfl, fun j hj => by omega⟩
  | succ k ih =>
    intro lo
    obtain ⟨r, hr, hrl, hrg⟩ := ih (lo + 1)
    have hlt : (h + lo) % c < bs.length := by rw [hlen]; exact Nat.mod_lt _ hc
    refine ⟨bs[(h + lo) % c] :: r, ?_, by simp [hrl], ?_⟩
    · simp only [Deque.gather, List.getElem?_eq_getElem hlt, hr, Option.map_some']
    · intro j hj
      cases j with
      | zero => simp [List.getElem?_eq_getElem hlt]
      | succ i =>
        rw [List.getElem?_cons_succ, hrg i (by omega)]
        congr 2
        omega

/-- What `Extend` computes on a deque whose array has `block_cnt_ ≥ 1` blocks. -/
theorem Extend_spec {T : Type} (d : Deque T) (bs : List (Block T))
    (hcont : d.content_ = some bs) (hlen : bs.length = d.block_cnt_)
    (hc : 0 < d.block_cnt_) :
    ∃ bs1, d.Extend = some { size_ := d.size_, block_cnt_ := d.block_cnt_ * 2,
                              first_elem_ := 0, last_elem_ := d.block_cnt_ - 1,
                              content_ := some bs1 } ∧
      bs1.length = d.block_cnt_ * 2 ∧
      (∀ j, j < d.block_cnt_ → bs1[j]? = bs[(d.first_elem_ + j) % d.block_cnt_]?) ∧
      (∀ j, d.block_cnt_ ≤ j → j < d.block_cnt_ * 2 → bs1[j]? = some Block.new) := by
  obtain ⟨r, hr, hrl, hrg⟩ := gather_spec bs d.first_elem_ d.block_cnt_ hc hlen d.block_cnt_ 0
  refine ⟨r ++ List.replicate d.block_cnt_ Block.new, ?_, ?_, ?_, ?_⟩
  · unfold Deque.Extend
    simp only [hcont, hr, Option.map_some']
    rw [if_neg (by omega)]
  · simp [hrl]; omega
  · intro j hj
    rw [List.getElem?_append_left (by omega), hrg j hj]
    simp
  · intro j hj1 hj2
    rw [List.getElem?_append_right (by omega), List.getElem?_replicate, if_pos (by omega)]

theorem placed_new {T : Type} (n j : Nat) (hn : n ≤ j) :
    Placed n j (Block.new : Block T) [] := by
  refine ⟨holds_new, ?_, ?_, ?_⟩
  · intro _ h; omega
  · intro _ h; omega
  · intro _ h; omega

/-- `Extend` on a saturated ring keeps the invariant, with the same segments. -/
theorem Deque.Rep.extend {T : Type} {d : Deque T} {bs : List (Block T)}
    {seg : Nat → List T} {n : Nat} (h : d.Rep bs seg n) (hfull : n = d.block_cnt_) :
    ∃ d1 bs1, d.Extend = some d1 ∧ d1.Rep bs1 seg n ∧
      d1.block_cnt_ = d.block_cnt_ * 2 ∧ d1.size_ = d.size_ ∧
      d1.first_elem_ = 0 ∧ d1.last_elem_ = d.block_cnt_ - 1 ∧
      d1.blk d1.last_elem_ = d.blk d.last_elem_ := by
  have hc : 0 < d.block_cnt_ := by have := h.first_lt; omega
  obtain ⟨bs1, he, hl1, hlo, hhi⟩ := Extend_spec d bs h.content h.len hc
  refine ⟨_, bs1, he, ?_, rfl, rfl, rfl, rfl, ?_⟩
  · refine ⟨rfl, hl1, ?_, h.n_pos, ?_, ?_, h.size_eq, h.seg_nil, ?_⟩
    · show 0 < d.block_cnt_ * 2
      omega
    · show n ≤ d.block_cnt_ * 2
      omega
    · show d.block_cnt_ - 1 = (0 + (n - 1)) % (d.block_cnt_ * 2)
      rw [Nat.zero_add, Nat.mod_eq_of_lt (by omega), hfull]
    · intro j hj b hb
      simp only [Nat.zero_add] at hb hj
      rw [Nat.mod_eq_of_lt hj] at hb
      by_cases hjc : j < d.block_cnt_
      · rw [hlo j hjc] at hb
        exact h.placed j hjc b hb
      · rw [hhi j (by omega) hj] at hb
        cases hb
        rw [h.seg_nil j (by omega)]
        exact placed_new n j (by omega)
  · simp only [Deque.blk, h.content]
    rw [hlo _ (by omega), h.last_eq, hfull]

/-! ## `PushBack` -/

theorem flat_update_last {T : Type} (seg : Nat → List T) (k : Nat) (xs : List T) :
    flat (Function.update seg k xs) (k + 1) = flat seg k ++ xs := by
  simp only [flat, Function.update_same]
  rw [flat_congr (Function.update seg k xs) seg k
    (fun j hj => Function.update_noteq (by omega) _ _)]

theorem setBlk_eq {T : Type} (d : Deque T) (bs : List (Block T)) (i : Nat) (b : Block T)
    (hcont : d.content_ = some bs) (hi : i < bs.length) :
    d.setBlk i b = some { d with content_ := some (bs.set i b) } := by
  simp [Deque.setBlk, hcont, hi]

/-- The tail block has room: the element goes into it. -/
theorem Deque.Rep.pushBack_here {T : Type} {d : Deque T} {bs : List (Block T)}
    {seg : Nat → List T} {n : Nat} (h : d.Rep bs seg n) (lb : Block T)
    (hlb : d.blk d.last_elem_ = some lb) (hc : lb.CanPushBack = true)
    (v : T) (fuel : Nat) :
    ∃ d1 bs1 seg1, Deque.PushBack (fuel + 1) d v = some d1 ∧ d1.Rep bs1 seg1 n ∧
      flat seg1 n = flat seg n ++ [v] ∧ d1.block_cnt_ = d.block_cnt_ := by
  obtain ⟨lb', hlb', hlp⟩ := h.tail
  rw [hlb] at hlb'
  cases hlb'
  obtain ⟨b1, hb1, hh1, hf1, _, _⟩ := holds_pushBack lb (seg (n - 1)) v hlp.1 hc
  have hnpos := h.n_pos
  have htl : d.last_elem_ < bs.length := by rw [h.len]; exact h.last_lt
  have hflat : flat (Function.update seg (n - 1) (seg (n - 1) ++ [v])) n =
      flat seg n ++ [v] := by
    obtain ⟨m, rfl⟩ : ∃ m, n = m + 1 := ⟨n - 1, by omega⟩
    simp only [Nat.add_sub_cancel]
    rw [flat_update_last]
    simp only [flat, List.append_assoc]
  refine ⟨{ d with content_ := some (bs.set d.last_elem_ b1), size_ := d.size_ + 1 },
    bs.set d.last_elem_ b1, Function.update seg (n - 1) (seg (n - 1) ++ [v]), ?_, ?_, hflat, rfl⟩
  · simp only [Deque.PushBack, hlb, hc, hb1, setBlk_eq d bs _ _ h.content htl,
      not_true_eq_false, if_false, Option.map_some']
  · refine ⟨rfl, by simpa using h.len, h.first_lt, h.n_pos, h.n_le, h.last_eq, ?_, ?_, ?_⟩
    · show d.size_ + 1 = _
      rw [hflat, List.length_append, ← h.size_eq]
      rfl
    · intro j hj
      rw [Function.update_noteq (by omega)]
      exact h.seg_nil j hj
    · intro j hj b hb
      have hj' : j < d.block_cnt_ := hj
      simp only [List.getElem?_set] at hb
      by_cases hjn : j = n - 1
      · subst hjn
        rw [if_pos (h.last_eq), if_pos htl] at hb
        cases hb
        rw [Function.update_same]
        refine ⟨hh1, ?_, ?_, ?_⟩
        · intro h1 h2; omega
        · intro h1 _
          obtain ⟨hne, hfz⟩ := hlp.2.2.1 h1 (by omega)
          exact ⟨by simp, by rw [hf1 hne]; exact hfz⟩
        · intro h1 h2; omega
      · have hne : d.last_elem_ ≠ (d.first_elem_ + j) % d.block_cnt_ := by
          intro e
          rw [h.last_eq] at e
          have := ring_inj _ _ _ _ h.first_lt (by have := h.n_le; omega) hj' e
          omega
        rw [if_neg hne] at hb
        rw [Function.update_noteq hjn]
        exact h.placed j hj' b hb

/-- The tail block is full up to slot 127 and the next block of the ring is
free: the tail advances and the element goes into slot 0 of the next block. -/
theorem Deque.Rep.pushBack_next {T : Type} {d : Deque T} {bs : List (Block T)}
    {seg : Nat → List T} {n : Nat} (h : d.Rep bs seg n) (lb : Block T)
    (hlb : d.blk d.last_elem_ = some lb) (hc : lb.CanPushBack = false)
    (hnext : (d.last_elem_ + 1) % d.block_cnt_ ≠ d.first_elem_)
    (v : T) (fuel : Nat) :
    ∃ d1 bs1 seg1, Deque.PushBack (fuel + 1) d v = some d1 ∧ d1.Rep bs1 seg1 (n + 1) ∧
      flat seg1 (n + 1) = flat seg n ++ [v] ∧ d1.block_cnt_ = d.block_cnt_ := by
  obtain ⟨lb', hlb', hlp⟩ := h.tail
  rw [hlb] at hlb'
  cases hlb'
  have hnpos := h.n_pos
  have hnle := h.n_le
  have hfl := h.first_lt
  have hc0 : d.block_cnt_ ≠ 0 := by omega
  -- the ring is not saturated
  have hnx : (d.last_elem_ + 1) % d.block_cnt_ = (d.first_elem_ + n) % d.block_cnt_ := by
    rw [h.last_eq]
    have := ring_succ d.first_elem_ d.block_cnt_ (n - 1) hfl (by omega)
    rw [this]
    congr 2
    omega
  have hn : n < d.block_cnt_ := by
    by_contra hcon
    have e : n = d.block_cnt_ := by omega
    apply hnext
    rw [hnx, e]
    have : d.first_elem_ + d.block_cnt_ = d.first_elem_ + d.block_cnt_ * 1 := by omega
    rw [this, Nat.add_mul_mod_self_left, Nat.mod_eq_of_lt hfl]
  obtain ⟨nb, hnb, hnp⟩ := h.at n hn
  rw [h.seg_nil n (le_refl _)] at hnp
  have hnbc : nb.CanPushBack = true := by
    simp [Block.CanPushBack, holds_size hnp.1]
  obtain ⟨b1, hb1, hh1, _, hf1, _⟩ := holds_pushBack nb [] v hnp.1 hnbc
  have hlbs : lb.size_ ≠ 0 ∧ lb.last_elem_ = 127 := by
    simp only [Block.CanPushBack, Bool.or_eq_false_iff, beq_eq_false_iff_ne, ne_eq,
      bne_eq_false_iff_eq, end_] at hc
    exact hc
  have hseg_ne : seg (n - 1) ≠ [] := by
    intro e
    have := holds_size hlp.1
    rw [e] at this
    exact hlbs.1 this
  have hnlt : (d.first_elem_ + n) % d.block_cnt_ < bs.length := by
    rw [h.len]; exact Nat.mod_lt _ (by omega)
  have hflat : flat (Function.update seg n [v]) (n + 1) = flat seg n ++ [v] :=
    flat_update_last seg n [v]
  refine ⟨{ d with last_elem_ := (d.first_elem_ + n) % d.block_cnt_,
                   content_ := some (bs.set ((d.first_elem_ + n) % d.block_cnt_) b1),
                   size_ := d.size_ + 1 },
    bs.set ((d.first_elem_ + n) % d.block_cnt_) b1, Function.update seg n [v],
    ?_, ?_, hflat, rfl⟩
  · have hblk : d.blk ((d.first_elem_ + n) % d.block_cnt_) = some nb := by
      rw [h.blk_eq]; exact hnb
    have hnext1 : (d.first_elem_ + n) % d.block_cnt_ ≠ d.first_elem_ := by
      rw [← hnx]; exact hnext
    simp only [Deque.PushBack, hlb, hc, hc0, hnx, hnext1, hblk, hb1,
      Bool.false_eq_true, not_false_eq_true, if_true, if_false]
    simp [Deque.setBlk, h.content, hnlt]
  · refine ⟨rfl, by simpa using h.len, h.first_lt, by omega, by
      show n + 1 ≤ d.block_cnt_
      omega, ?_, ?_, ?_, ?_⟩
    · show (d.first_elem_ + n) % d.block_cnt_ = (d.first_elem_ + (n + 1 - 1)) % d.block_cnt_
      rfl
    · show d.size_ + 1 = _
      rw [hflat, List.length_append, ← h.size_eq]
      rfl
    · intro j hj
      rw [Function.update_noteq (by omega)]
      exact h.seg_nil j (by omega)
    · intro j hj b hb
      have hj' : j < d.block_cnt_ := hj
      change (bs.set ((d.first_elem_ + n) % d.block_cnt_) b1)[(d.first_elem_ + j) %
        d.block_cnt_]? = some b at hb
      simp only [List.getElem?_set] at hb
      by_cases hjn : j = n
      · subst hjn
        rw [if_pos rfl, if_pos hnlt] at hb
        cases hb
        rw [Function.update_same]
        refine ⟨hh1, ?_, ?_, ?_⟩
        · intro h1 h2; omega
        · intro _ _
          exact ⟨by simp, (hf1 rfl).1⟩
        · intro h1 h2; omega
      · have hne : (d.first_elem_ + n) % d.block_cnt_ ≠
            (d.first_elem_ + j) % d.block_cnt_ := by
          intro e
          exact hjn (ring_inj _ _ _ _ hfl hn hj' e).symm
        rw [if_neg hne] at hb
        rw [Function.update_noteq hjn]
        have hold := h.placed j hj' b hb
        by_cases hjt : j = n - 1
        · -- the old tail block
          have hbl : b = lb := by
            have e1 : bs[(d.first_elem_ + j) % d.block_cnt_]? = some lb := by
              rw [hjt, ← h.last_eq, ← h.blk_eq]; exact hlb
            rw [e1] at hb
            cases hb
            rfl
          subst hbl
          refine ⟨hold.1, ?_, ?_, ?_⟩
          · intro _ hj0
            rw [hjt]
            exact ⟨hseg_ne, hlbs.2⟩
          · intro _ h2; omega
          · intro h1 _
            have h3 := hold.2.2.1 (by omega) (by omega)
            have h4 := hold.1.2.2.1 h3.1
            rw [h3.2, hlbs.2] at h4
            omega
        · refine ⟨hold.1, ?_, ?_, ?_⟩
          · intro _ hj0
            exact hold.2.1 (by omega) hj0
          · intro _ h2; omega
          · intro h1 h2
            exact hold.2.2.2 h1 (by omega)

theorem ring_full (h c n : Nat) (hh : h < c) (hn0 : 0 < n) (hn : n ≤ c)
    (e : ((h + (n - 1)) % c + 1) % c = h) : n = c := by
  rw [ring_succ h c (n - 1) hh (by omega)] at e
  by_contra hne
  have e2 : (h + (n - 1 + 1)) % c = (h + 0) % c := by
    rw [e, Nat.add_zero, Nat.mod_eq_of_lt hh]
  have := ring_inj h c _ _ hh (by omega) (by omega) e2
  omega

/-- The tail block is full up to slot 127 and the next block of the ring is the
head block: `Extend` doubles the ring and the retried push advances the tail. -/
theorem Deque.Rep.pushBack_extend {T : Type} {d : Deque T} {bs : List (Block T)}
    {seg : Nat → List T} {n : Nat} (h : d.Rep bs seg n) (lb : Block T)
    (hlb : d.blk d.last_elem_ = some lb) (hc : lb.CanPushBack = false)
    (hnext : (d.last_elem_ + 1) % d.block_cnt_ = d.first_elem_)
    (v : T) (fuel : Nat) :
    ∃ d1 bs1 seg1, Deque.PushBack (fuel + 2) d v = some d1 ∧ d1.Rep bs1 seg1 (n + 1) ∧
      flat seg1 (n + 1) = flat seg n ++ [v] ∧ d1.block_cnt_ = d.block_cnt_ * 2 := by
  have hfl := h.first_lt
  have hc0 : d.block_cnt_ ≠ 0 := by omega
  have hfull : n = d.block_cnt_ := by
    have e := hnext
    rw [h.last_eq] at e
    exact ring_full _ _ _ hfl h.n_pos h.n_le e
  obtain ⟨d1, bs1, he, hr1, hc1, _, hf1, hl1, hb1⟩ := h.extend hfull
  have hnext1 : (d1.last_elem_ + 1) % d1.block_cnt_ ≠ d1.first_elem_ := by
    rw [hl1, hc1, hf1, Nat.mod_eq_of_lt (by omega)]
    omega
  obtain ⟨d2, bs2, seg2, hp, hr2, hfl2, hc2⟩ :=
    hr1.pushBack_next lb (by rw [hb1]; exact hlb) hc hnext1 v fuel
  refine ⟨d2, bs2, seg2, ?_, hr2, hfl2, by rw [hc2, hc1]⟩
  rw [← hp]
  conv_lhs => unfold Deque.PushBack
  simp only [hlb, hc, hc0, hnext, he, Bool.false_eq_true, not_false_eq_true, if_true,
    if_false]

/-- `PushBack` keeps the invariant and appends the element to the logical
sequence; fuel 2 is always enough. -/
theorem Deque.Rep.pushBack {T : Type} {d : Deque T} {bs : List (Block T)}
    {seg : Nat → List T} {n : Nat} (h : d.Rep bs seg n) (v : T) (fuel : Nat) :
    ∃ d1 bs1 seg1 n1, Deque.PushBack (fuel + 2) d v = some d1 ∧ d1.Rep bs1 seg1 n1 ∧
      flat seg1 n1 = flat seg n ++ [v] := by
  obtain ⟨lb, hlb, _⟩ := h.tail
  cases hc : lb.CanPushBack with
  | true =>
    obtain ⟨d1, bs1, seg1, h1, h2, h3, _⟩ := h.pushBack_here lb hlb hc v (fuel + 1)
    exact ⟨d1, bs1, seg1, n, h1, h2, h3⟩
  | false =>
    by_cases hnext : (d.last_elem_ + 1) % d.block_cnt_ = d.first_elem_
    · obtain ⟨d1, bs1, seg1, h1, h2, h3, _⟩ := h.pushBack_extend lb hlb hc hnext v fuel
      exact ⟨d1, bs1, seg1, n + 1, h1, h2, h3⟩
    · obtain ⟨d1, bs1, seg1, h1, h2, h3, _⟩ := h.pushBack_next lb hlb hc hnext v (fuel + 1)
      exact ⟨d1, bs1, seg1, n + 1, h1, h2, h3⟩

/-! ## `PushFront` -/

theorem flat_update_zero {T : Type} (seg : Nat → List T) (n : Nat) (xs : List T) :
    flat (Function.update seg 0 xs) (n + 1) = xs ++ flat (fun j => seg (j + 1)) n := by
  rw [flat_shift, Function.update_same]
  congr 1

/-- The head block has room: the element goes into it. -/
theorem Deque.Rep.pushFront_here {T : Type} {d : Deque T} {bs : List (Block T)}
    {seg : Nat → List T} {n : Nat} (h : d.Rep bs seg n) (fb : Block T)
    (hfb : d.blk d.first_elem_ = some fb) (hc : fb.CanPushFront = true)
    (v : T) (fuel : Nat) :
    ∃ d1 bs1 seg1, Deque.PushFront (fuel + 1) d v = some d1 ∧ d1.Rep bs1 seg1 n ∧
      flat seg1 n = v :: flat seg n ∧ d1.block_cnt_ = d.block_cnt_ := by
  obtain ⟨fb', hfb', hfp⟩ := h.head
  rw [hfb] at hfb'
  cases hfb'
  obtain ⟨b1, hb1, hh1, hl1, _, _⟩ := holds_pushFront fb (seg 0) v hfp.1 hc
  have hnpos := h.n_pos
  have hfl := h.first_lt
  have hhl : d.first_elem_ < bs.length := by rw [h.len]; exact hfl
  have hflat : flat (Function.update seg 0 (v :: seg 0)) n = v :: flat seg n := by
    obtain ⟨m, rfl⟩ : ∃ m, n = m + 1 := ⟨n - 1, by omega⟩
    rw [flat_update_zero, flat_shift seg m]
    rfl
  refine ⟨{ d with content_ := some (bs.set d.first_elem_ b1), size_ := d.size_ + 1 },
    bs.set d.first_elem_ b1, Function.update seg 0 (v :: seg 0), ?_, ?_, hflat, rfl⟩
  · simp only [Deque.PushFront, hfb, hc, hb1, setBlk_eq d bs _ _ h.content hhl,
      not_true_eq_false, if_false, Option.map_some']
  · refine ⟨rfl, by simpa using h.len, h.first_lt, h.n_pos, h.n_le, h.last_eq, ?_, ?_, ?_⟩
    · show d.size_ + 1 = _
      rw [hflat, List.length_cons, ← h.size_eq]
    · intro j hj
      rw [Function.update_noteq (by omega)]
      exact h.seg_nil j hj
    · intro j hj b hb
      have hj' : j < d.block_cnt_ := hj
      change (bs.set d.first_elem_ b1)[(d.first_elem_ + j) % d.block_cnt_]? = some b at hb
      simp only [List.getElem?_set] at hb
      by_cases hjn : j = 0
      · subst hjn
        rw [if_pos (by rw [Nat.add_zero, Nat.mod_eq_of_lt hfl]), if_pos hhl] at hb
        cases hb
        rw [Function.update_same]
        refine ⟨hh1, ?_, ?_, ?_⟩
        · intro h1 _
          obtain ⟨hne, hfz⟩ := hfp.2.1 h1 rfl
          exact ⟨by simp, by rw [hl1 hne]; exact hfz⟩
        · intro h1 h2; omega
        · intro h1 h2; omega
      · have hne : d.first_elem_ ≠ (d.first_elem_ + j) % d.block_cnt_ := by
          intro e
          have e2 : (d.first_elem_ + 0) % d.block_cnt_ = (d.first_elem_ + j) % d.block_cnt_ := by
            rw [Nat.add_zero, Nat.mod_eq_of_lt hfl]; exact e
          have := ring_inj _ _ _ _ hfl (by omega) hj' e2
          omega
        rw [if_neg hne] at hb
        rw [Function.update_noteq hjn]
        exact h.placed j hj' b hb

theorem ring_prev_add (h c j : Nat) (hh : h < c) (hj0 : 0 < j) (hj : j < c) :
    ((h + c - 1) % c + j) % c = (h + (j - 1)) % c := by
  rw [mod_wrap (h + c - 1) c (by omega)]
  split_ifs with h1
  · rw [mod_wrap (h + c - 1 + j) c (by omega), mod_wrap (h + (j - 1)) c (by omega)]
    split_ifs <;> omega
  · rw [mod_wrap (h + c - 1 - c + j) c (by omega), mod_wrap (h + (j - 1)) c (by omega)]
    split_ifs <;> omega

theorem ring_prev_eq (h c : Nat) (hh : h < c) :
    (h + c - 1) % c = (h + (c - 1)) % c := by
  congr 1
  omega

/-- The head block is filled down to slot 0 and the previous block of the ring
is free: the head retreats and the element goes into slot 127 of that block. -/
theorem Deque.Rep.pushFront_next {T : Type} {d : Deque T} {bs : List (Block T)}
    {seg : Nat → List T} {n : Nat} (h : d.Rep bs seg n) (fb : Block T)
    (hfb : d.blk d.first_elem_ = some fb) (hc : fb.CanPushFront = false)
    (hprev : (d.first_elem_ + d.block_cnt_ - 1) % d.block_cnt_ ≠ d.last_elem_)
    (v : T) (fuel : Nat) :
    ∃ d1 bs1 seg1, Deque.PushFront (fuel + 1) d v = some d1 ∧ d1.Rep bs1 seg1 (n + 1) ∧
      flat seg1 (n + 1) = v :: flat seg n ∧ d1.block_cnt_ = d.block_cnt_ := by
  obtain ⟨fb', hfb', hfp⟩ := h.head
  rw [hfb] at hfb'
  cases hfb'
  have hnpos := h.n_pos
  have hnle := h.n_le
  have hfl := h.first_lt
  have hc0 : d.block_cnt_ ≠ 0 := by omega
  have hpe := ring_prev_eq d.first_elem_ d.block_cnt_ hfl
  have hn : n < d.block_cnt_ := by
    by_contra hcon
    have e : n = d.block_cnt_ := by omega
    apply hprev
    rw [h.last_eq, hpe, e]
  have hplt : (d.first_elem_ + d.block_cnt_ - 1) % d.block_cnt_ < d.block_cnt_ :=
    Nat.mod_lt _ (by omega)
  obtain ⟨pb, hpb, hpp⟩ := h.at (d.block_cnt_ - 1) (by omega)
  rw [← hpe] at hpb
  rw [h.seg_nil _ (by omega)] at hpp
  have hpbc : pb.CanPushFront = true := by
    simp [Block.CanPushFront, holds_size hpp.1]
  obtain ⟨b1, hb1, hh1, _, hf1, _⟩ := holds_pushFront pb [] v hpp.1 hpbc
  have hfbs : fb.size_ ≠ 0 ∧ fb.first_elem_ = 0 := by
    simp only [Block.CanPushFront, Bool.or_eq_false_iff, beq_eq_false_iff_ne, ne_eq,
      bne_eq_false_iff_eq, start_] at hc
    exact hc
  have hseg_ne : seg 0 ≠ [] := by
    intro e
    have := holds_size hfp.1
    rw [e] at this
    exact hfbs.1 this
  have hpl : (d.first_elem_ + d.block_cnt_ - 1) % d.block_cnt_ < bs.length := by
    rw [h.len]; exact hplt
  have hflat : flat (fun j => if j = 0 then [v] else seg (j - 1)) (n + 1) =
      v :: flat seg n := by
    rw [flat_shift]
    simp
  refine ⟨{ d with first_elem_ := (d.first_elem_ + d.block_cnt_ - 1) % d.block_cnt_,
                   content_ := some
                     (bs.set ((d.first_elem_ + d.block_cnt_ - 1) % d.block_cnt_) b1),
                   size_ := d.size_ + 1 },
    bs.set ((d.first_elem_ + d.block_cnt_ - 1) % d.block_cnt_) b1,
    fun j => if j = 0 then [v] else seg (j - 1), ?_, ?_, hflat, rfl⟩
  · have hblk : d.blk ((d.first_elem_ + d.block_cnt_ - 1) % d.block_cnt_) = some pb := by
      rw [h.blk_eq]; exact hpb
    simp only [Deque.PushFront, hfb, hc, hc0, hprev, hblk, hb1,
      Bool.false_eq_true, not_false_eq_true, if_true, if_false]
    simp [Deque.setBlk, h.content, hpl]
  · refine ⟨rfl, by simpa using h.len, hplt, by omega, by
      show n + 1 ≤ d.block_cnt_
      omega, ?_, ?_, ?_, ?_⟩
    · show d.last_elem_ =
        ((d.first_elem_ + d.block_cnt_ - 1) % d.block_cnt_ + (n + 1 - 1)) % d.block_cnt_
      rw [Nat.add_sub_cancel, ring_prev_add _ _ _ hfl hnpos hn]
      exact h.last_eq
    · show d.size_ + 1 = _
      rw [hflat, List.length_cons, ← h.size_eq]
    · intro j hj
      have : j ≠ 0 := by omega
      simp only [this, if_false]
      exact h.seg_nil _ (by omega)
    · intro j hj b hb
      have hj' : j < d.block_cnt_ := hj
      change (bs.set ((d.first_elem_ + d.block_cnt_ - 1) % d.block_cnt_) b1)[
        ((d.first_elem_ + d.block_cnt_ - 1) % d.block_cnt_ + j) % d.block_cnt_]? = some b at hb
      simp only [List.getElem?_set] at hb
      by_cases hj0 : j = 0
      · subst hj0
        rw [if_pos (by rw [Nat.add_zero, Nat.mod_eq_of_lt hplt]), if_pos hpl] at hb
        cases hb
        simp only [if_true]
        refine ⟨hh1, ?_, ?_, ?_⟩
        · intro _ _
          exact ⟨by simp, (hf1 rfl).2⟩
        · intro h1 h2; omega
        · intro h1 h2; omega
      · have hjpos : 0 < j := by omega
        rw [ring_prev_add _ _ _ hfl hjpos hj'] at hb
        have hne : (d.first_elem_ + d.block_cnt_ - 1) % d.block_cnt_ ≠
            (d.first_elem_ + (j - 1)) % d.block_cnt_ := by
          intro e
          rw [hpe] at e
          have := ring_inj _ _ _ _ hfl (by omega) (by omega) e
          omega
        rw [if_neg hne] at hb
        simp only [hj0, if_false]
        have hold := h.placed (j - 1) (by omega) b hb
        by_cases hjh : j = 1
        · -- the old head block
          have hbl : b = fb := by
            have e1 : bs[(d.first_elem_ + (j - 1)) % d.block_cnt_]? = some fb := by
              rw [hjh, Nat.sub_self, Nat.add_zero, Nat.mod_eq_of_lt hfl, ← h.blk_eq]
              exact hfb
            rw [e1] at hb
            cases hb
            rfl
          subst hbl
          have hj1 : j - 1 = 0 := by omega
          refine ⟨hold.1, ?_, ?_, ?_⟩
          · intro _ h2; omega
          · intro _ _
            rw [hj1]
            exact ⟨hseg_ne, hfbs.2⟩
          · intro _ h2
            have h3 := hold.2.1 (by omega) hj1
            have h4 := hold.1.2.2.1 h3.1
            rw [h3.2, hfbs.2] at h4
            omega
        · refine ⟨hold.1, ?_, ?_, ?_⟩
          · intro _ h2; omega
          · intro _ h2
            exact hold.2.2.1 (by omega) (by omega)
          · intro h1 h2
            exact hold.2.2.2 (by omega) (by omega)

/-- The head block is filled down to slot 0 and the previous block of the ring
is the tail block: `Extend` doubles the ring and the retried push moves the head
to the last block of the new ring. -/
theorem Deque.Rep.pushFront_extend {T : Type} {d : Deque T} {bs : List (Block T)}
    {seg : Nat → List T} {n : Nat} (h : d.Rep bs seg n) (fb : Block T)
    (hfb : d.blk d.first_elem_ = some fb) (hc : fb.CanPushFront = false)
    (hprev : (d.first_elem_ + d.block_cnt_ - 1) % d.block_cnt_ = d.last_elem_)
    (v : T) (fuel : Nat) :
    ∃ d1 bs1 seg1, Deque.PushFront (fuel + 2) d v = some d1 ∧ d1.Rep bs1 seg1 (n + 1) ∧
      flat seg1 (n + 1) = v :: flat seg n ∧ d1.block_cnt_ = d.block_cnt_ * 2 := by
  have hfl := h.first_lt
  have hnpos := h.n_pos
  have hnle := h.n_le
  have hc0 : d.block_cnt_ ≠ 0 := by omega
  have hfull : n = d.block_cnt_ := by
    have e := hprev
    rw [h.last_eq, ring_prev_eq _ _ hfl] at e
    have := ring_inj _ _ _ _ hfl (by omega) (by omega) e
    omega
  obtain ⟨d1, bs1, he, hr1, hc1, _, hf1, hl1, _⟩ := h.extend hfull
  have hfb1 : d1.blk d1.first_elem_ = some fb := by
    obtain ⟨bs1', he', _, hlo, _⟩ := Extend_spec d bs h.content h.len (by omega)
    rw [he] at he'
    cases he'
    simp only [Deque.blk]
    rw [hlo 0 (by omega), Nat.add_zero, Nat.mod_eq_of_lt hfl, ← h.blk_eq]
    exact hfb
  have hprev1 : (d1.first_elem_ + d1.block_cnt_ - 1) % d1.block_cnt_ ≠ d1.last_elem_ := by
    rw [hl1, hc1, hf1, Nat.mod_eq_of_lt (by omega)]
    omega
  obtain ⟨d2, bs2, seg2, hp, hr2, hfl2, hc2⟩ :=
    hr1.pushFront_next fb hfb1 hc hprev1 v fuel
  refine ⟨d2, bs2, seg2, ?_, hr2, hfl2, by rw [hc2, hc1]⟩
  rw [← hp]
  conv_lhs => unfold Deque.PushFront
  simp only [hfb, hc, hc0, hprev, he, Bool.false_eq_true, not_false_eq_true, if_true,
    if_false]

/-- `PushFront` keeps the invariant and prepends the element to the logical
sequence; fuel 2 is always enough. -/
theorem Deque.Rep.pushFront {T : Type} {d : Deque T} {bs : List (Block T)}
    {seg : Nat → List T} {n : Nat} (h : d.Rep bs seg n) (v : T) (fuel : Nat) :
    ∃ d1 bs1 seg1 n1, Deque.PushFront (fuel + 2) d v = some d1 ∧ d1.Rep bs1 seg1 n1 ∧
      flat seg1 n1 = v :: flat seg n := by
  obtain ⟨fb, hfb, _⟩ := h.head
  cases hc : fb.CanPushFront with
  | true =>
    obtain ⟨d1, bs1, seg1, h1, h2, h3, _⟩ := h.pushFront_here fb hfb hc v (fuel + 1)
    exact ⟨d1, bs1, seg1, n, h1, h2, h3⟩
  | false =>
    by_cases hprev : (d.first_elem_ + d.block_cnt_ - 1) % d.block_cnt_ = d.last_elem_
    · obtain ⟨d1, bs1, seg1, h1, h2, h3, _⟩ := h.pushFront_extend fb hfb hc hprev v fuel
      exact ⟨d1, bs1, seg1, n + 1, h1, h2, h3⟩
    · obtain ⟨d1, bs1, seg1, h1, h2, h3, _⟩ := h.pushFront_next fb hfb hc hprev v (fuel + 1)
      exact ⟨d1, bs1, seg1, n + 1, h1, h2, h3⟩

/-! ## `PopBack` -/

theorem flat_ends_le {T : Type} (seg : Nat → List T) (n : Nat) (hn : 1 < n) :
    (seg 0).length + (seg (n - 1)).length ≤ (flat seg n).length := by
  obtain ⟨m, rfl⟩ : ∃ m, n = m + 2 := ⟨n - 2, by omega⟩
  have e1 : flat seg (m + 2) = flat seg (m + 1) ++ seg (m + 1) := rfl
  rw [e1, flat_shift seg m]
  simp only [List.length_append, Nat.add_sub_cancel]
  have : m + 2 - 1 = m + 1 := by omega
  rw [this]
  omega

theorem Deque.Rep.tail_ne {T : Type} {d : Deque T} {bs : List (Block T)}
    {seg : Nat → List T} {n : Nat} (h : d.Rep bs seg n) (hs : d.size_ ≠ 0) :
    seg (n - 1) ≠ [] := by
  obtain ⟨lb, _, hlp⟩ := h.tail
  by_cases hn : 1 < n
  · exact (hlp.2.2.1 hn (by omega)).1
  · have hn1 : n = 1 := by have := h.n_pos; omega
    subst hn1
    intro e
    apply hs
    rw [h.size_eq]
    simp only [flat, List.nil_append]
    simp only [Nat.sub_self] at e
    rw [e]
    rfl

theorem Deque.Rep.head_ne {T : Type} {d : Deque T} {bs : List (Block T)}
    {seg : Nat → List T} {n : Nat} (h : d.Rep bs seg n) (hs : d.size_ ≠ 0) :
    seg 0 ≠ [] := by
  obtain ⟨fb, _, hfp⟩ := h.head
  by_cases hn : 1 < n
  · exact (hfp.2.1 hn rfl).1
  · have hn1 : n = 1 := by have := h.n_pos; omega
    subst hn1
    intro e
    apply hs
    rw [h.size_eq]
    simp only [flat, List.nil_append]
    rw [e]
    rfl

theorem flat_update_dropLast {T : Type} (seg : Nat → List T) (n : Nat) (hn : 0 < n)
    (hx : seg (n - 1) ≠ []) :
    flat (Function.update seg (n - 1) (seg (n - 1)).dropLast) n = (flat seg n).dropLast := by
  obtain ⟨m, rfl⟩ : ∃ m, n = m + 1 := ⟨n - 1, by omega⟩
  simp only [Nat.add_sub_cancel] at hx ⊢
  rw [flat_update_last]
  simp only [flat]
  rw [List.dropLast_append_of_ne_nil _ hx]

theorem flat_drop_nil {T : Type} (seg : Nat → List T) (n : Nat) (hn : 0 < n)
    (h : seg (n - 1) = []) : flat seg (n - 1) = flat seg n := by
  obtain ⟨m, rfl⟩ : ∃ m, n = m + 1 := ⟨n - 1, by omega⟩
  simp only [Nat.add_sub_cancel] at h ⊢
  simp only [flat, h, List.append_nil]

/-- `PopBack` on a non-empty deque keeps the invariant and drops the last
element of the logical sequence. -/
theorem Deque.Rep.popBack {T : Type} {d : Deque T} {bs : List (Block T)}
    {seg : Nat → List T} {n : Nat} (h : d.Rep bs seg n) (hs : d.size_ ≠ 0) :
    ∃ d1 bs1 seg1 n1, d.PopBack = some d1 ∧ d1.Rep bs1 seg1 n1 ∧
      flat seg1 n1 = (flat seg n).dropLast ∧ d1.block_cnt_ = d.block_cnt_ := by
  obtain ⟨lb, hlb, hlp⟩ := h.tail
  have hx := h.tail_ne hs
  have hnpos := h.n_pos
  have hnle := h.n_le
  have hfl := h.first_lt
  have hc0 : d.block_cnt_ ≠ 0 := by omega
  have htl : d.last_elem_ < bs.length := by rw [h.len]; exact h.last_lt
  obtain ⟨hh1, hf1⟩ := holds_popBack lb (seg (n - 1)) hlp.1 hx
  have hxl : 0 < (seg (n - 1)).length := List.length_pos.mpr hx
  have hsz1 : lb.PopBack.size_ = (seg (n - 1)).length - 1 := by
    rw [holds_size hh1, List.length_dropLast]
  have hflat := flat_update_dropLast seg n hnpos hx
  have hlenflat : (flat seg n).dropLast.length = d.size_ - 1 := by
    rw [List.length_dropLast, ← h.size_eq]
  have hdecr : decr d.size_ = d.size_ - 1 := by
    unfold decr; rw [if_neg hs]
  -- the blocks other than the tail block keep their place
  have hother : ∀ j, j < d.block_cnt_ → j ≠ n - 1 → ∀ b,
      (bs.set d.last_elem_ lb.PopBack)[(d.first_elem_ + j) % d.block_cnt_]? = some b →
      Placed n j b (seg j) := by
    intro j hj hjn b hb
    have hne : d.last_elem_ ≠ (d.first_elem_ + j) % d.block_cnt_ := by
      intro e
      rw [h.last_eq] at e
      have := ring_inj _ _ _ _ hfl (by omega) hj e
      omega
    rw [List.getElem?_set, if_neg hne] at hb
    exact h.placed j hj b hb
  have hself : ∀ b,
      (bs.set d.last_elem_ lb.PopBack)[(d.first_elem_ + (n - 1)) % d.block_cnt_]? = some b →
      b = lb.PopBack := by
    intro b hb
    rw [List.getElem?_set, if_pos h.last_eq, if_pos htl] at hb
    cases hb
    rfl
  by_cases hB : lb.PopBack.size_ = 0 ∧ 0 < d.size_ - 1
  · -- the tail block is emptied and the tail retreats
    obtain ⟨hB1, hB2⟩ := hB
    have hn2 : 1 < n := by
      by_contra hcon
      have hn1 : n = 1 := by omega
      subst hn1
      have := h.size_eq
      simp only [flat, List.nil_append] at this
      simp only [Nat.sub_self] at hsz1
      omega
    have hdl : (seg (n - 1)).dropLast = [] :=
      List.eq_nil_of_length_eq_zero (by rw [List.length_dropLast]; omega)
    have hflat2 : flat (Function.update seg (n - 1) (seg (n - 1)).dropLast) (n - 1) =
        flat (Function.update seg (n - 1) (seg (n - 1)).dropLast) n :=
      flat_drop_nil _ n hnpos (by rw [Function.update_same, hdl])
    refine ⟨{ d with content_ := some (bs.set d.last_elem_ lb.PopBack),
                     size_ := d.size_ - 1,
                     last_elem_ := (d.last_elem_ + d.block_cnt_ - 1) % d.block_cnt_ },
      bs.set d.last_elem_ lb.PopBack,
      Function.update seg (n - 1) (seg (n - 1)).dropLast, n - 1, ?_, ?_, ?_, rfl⟩
    · simp only [Deque.PopBack, hlb, setBlk_eq d bs _ _ h.content htl, hdecr, Block.IsEmpty,
        hB1, beq_self_eq_true, if_true, gt_iff_lt, hB2, hc0, if_false]
    · refine ⟨rfl, by simpa using h.len, hfl, by omega, by
        show n - 1 ≤ d.block_cnt_
        omega, ?_, ?_, ?_, ?_⟩
      · show (d.last_elem_ + d.block_cnt_ - 1) % d.block_cnt_ =
          (d.first_elem_ + (n - 1 - 1)) % d.block_cnt_
        rw [h.last_eq]
        have := ring_pred d.first_elem_ d.block_cnt_ (n - 1 - 1) hfl (by omega)
        rw [← this]
        congr 4
        omega
      · show d.size_ - 1 = _
        rw [hflat2, hflat, hlenflat]
      · intro j hj
        by_cases hjn : j = n - 1
        · rw [hjn, Function.update_same, hdl]
        · rw [Function.update_noteq hjn]
          exact h.seg_nil j (by omega)
      · intro j hj b hb
        have hj' : j < d.block_cnt_ := hj
        change (bs.set d.last_elem_ lb.PopBack)[(d.first_elem_ + j) % d.block_cnt_]? =
          some b at hb
        by_cases hjn : j = n - 1
        · subst hjn
          have := hself b hb
          subst this
          rw [Function.update_same]
          refine ⟨hh1, ?_, ?_, ?_⟩
          · intro _ h2; omega
          · intro _ h2; omega
          · intro _ h2; omega
        · have hold := hother j hj' hjn b hb
          rw [Function.update_noteq hjn]
          refine ⟨hold.1, ?_, ?_, ?_⟩
          · intro _ h2
            exact hold.2.1 hn2 h2
          · intro h1 h2
            have h3 := hold.2.2.2 (by omega) (by omega)
            have h4 : seg j ≠ [] := by
              intro e; rw [e] at h3; simp at h3
            have h5 := hold.1.2.2.1 h4
            exact ⟨h4, by omega⟩
          · intro h1 h2
            exact hold.2.2.2 h1 (by omega)
    · rw [hflat2, hflat]
  · -- the tail stays where it is
    have hn1 : lb.PopBack.size_ = 0 → n = 1 := by
      intro h0
      by_contra hcon
      have hle := flat_ends_le seg n (by omega)
      have h1 : 0 < (seg 0).length := List.length_pos.mpr (h.head_ne hs)
      rw [← h.size_eq] at hle
      apply hB
      exact ⟨h0, by omega⟩
    refine ⟨{ d with content_ := some (bs.set d.last_elem_ lb.PopBack),
                     size_ := d.size_ - 1 },
      bs.set d.last_elem_ lb.PopBack,
      Function.update seg (n - 1) (seg (n - 1)).dropLast, n, ?_, ?_, hflat, rfl⟩
    · simp only [Deque.PopBack, hlb, setBlk_eq d bs _ _ h.content htl, hdecr, Block.IsEmpty,
        gt_iff_lt]
      by_cases h0 : lb.PopBack.size_ = 0
      · have : ¬ 0 < d.size_ - 1 := fun hp => hB ⟨h0, hp⟩
        simp only [h0, beq_self_eq_true, if_true, this, if_false]
      · simp only [beq_iff_eq, h0, if_false]
    · refine ⟨rfl, by simpa using h.len, hfl, hnpos, hnle, h.last_eq, ?_, ?_, ?_⟩
      · show d.size_ - 1 = _
        rw [hflat, hlenflat]
      · intro j hj
        rw [Function.update_noteq (by omega)]
        exact h.seg_nil j hj
      · intro j hj b hb
        have hj' : j < d.block_cnt_ := hj
        change (bs.set d.last_elem_ lb.PopBack)[(d.first_elem_ + j) % d.block_cnt_]? =
          some b at hb
        by_cases hjn : j = n - 1
        · subst hjn
          have := hself b hb
          subst this
          rw [Function.update_same]
          refine ⟨hh1, ?_, ?_, ?_⟩
          · intro h1 h2; omega
          · intro h1 _
            have h3 := hlp.2.2.1 h1 (by omega)
            refine ⟨?_, by rw [hf1]; exact h3.2⟩
            intro e
            have h0 : lb.PopBack.size_ = 0 := by rw [holds_size hh1, e]; rfl
            have := hn1 h0
            omega
          · intro _ h2; omega
        · rw [Function.update_noteq hjn]
          exact hother j hj' hjn b hb

/-! ## `PopFront` -/

theorem ring_next_add (h c j : Nat) (hh : h < c) (hj : j < c) :
    ((h + 1) % c + j) % c = (h + (j + 1)) % c := by
  by_cases hjc : j + 1 = c
  · have e : h + (j + 1) = h + c * 1 := by omega
    rw [e, Nat.add_mul_mod_self_left, Nat.mod_eq_of_lt hh, mod_wrap (h + 1) c (by omega)]
    split_ifs with h1
    · rw [mod_wrap (h + 1 + j) c (by omega)]
      split_ifs <;> omega
    · rw [mod_wrap (h + 1 - c + j) c (by omega)]
      split_ifs <;> omega
  · rw [mod_wrap (h + 1) c (by omega)]
    split_ifs with h1
    · rw [mod_wrap (h + 1 + j) c (by omega), mod_wrap (h + (j + 1)) c (by omega)]
      split_ifs <;> omega
    · rw [mod_wrap (h + 1 - c + j) c (by omega), mod_wrap (h + (j + 1)) c (by omega)]
      split_ifs <;> omega

theorem flat_update_tail {T : Type} (seg : Nat → List T) (n : Nat) (hn : 0 < n)
    (hx : seg 0 ≠ []) :
    flat (Function.update seg 0 (seg 0).tail) n = (flat seg n).tail := by
  obtain ⟨m, rfl⟩ : ∃ m, n = m + 1 := ⟨n - 1, by omega⟩
  rw [flat_update_zero, flat_shift seg m, List.tail_append_of_ne_nil hx]

theorem flat_shift_tail {T : Type} (seg : Nat → List T) (n : Nat) (hn : 0 < n)
    (hx : seg 0 ≠ []) (ht : (seg 0).tail = []) :
    flat (fun j => seg (j + 1)) (n - 1) = (flat seg n).tail := by
  obtain ⟨m, rfl⟩ : ∃ m, n = m + 1 := ⟨n - 1, by omega⟩
  rw [flat_shift seg m, List.tail_append_of_ne_nil hx, ht]
  simp

/-- `PopFront` on a non-empty deque keeps the invariant and drops the first
element of the logical sequence. -/
theorem Deque.Rep.popFront {T : Type} {d : Deque T} {bs : List (Block T)}
    {seg : Nat → List T} {n : Nat} (h : d.Rep bs seg n) (hs : d.size_ ≠ 0) :
    ∃ d1 bs1 seg1 n1, d.PopFront = some d1 ∧ d1.Rep bs1 seg1 n1 ∧
      flat seg1 n1 = (flat seg n).tail ∧ d1.block_cnt_ = d.block_cnt_ := by
  obtain ⟨fb, hfb, hfp⟩ := h.head
  have hx := h.head_ne hs
  have hnpos := h.n_pos
  have hnle := h.n_le
  have hfl := h.first_lt
  have hc0 : d.block_cnt_ ≠ 0 := by omega
  have hhl : d.first_elem_ < bs.length := by rw [h.len]; exact hfl
  obtain ⟨hh1, hl1⟩ := holds_popFront fb (seg 0) hfp.1 hx
  have hxl : 0 < (seg 0).length := List.length_pos.mpr hx
  have hsz1 : fb.PopFront.size_ = (seg 0).length - 1 := by
    rw [holds_size hh1, List.length_tail]
  have hlenflat : (flat seg n).tail.length = d.size_ - 1 := by
    rw [List.length_tail, ← h.size_eq]
  have hdecr : decr d.size_ = d.size_ - 1 := by
    unfold decr; rw [if_neg hs]
  have hh0 : (d.first_elem_ + 0) % d.block_cnt_ = d.first_elem_ := by
    rw [Nat.add_zero, Nat.mod_eq_of_lt hfl]
  have hother : ∀ j, j < d.block_cnt_ → j ≠ 0 → ∀ b,
      (bs.set d.first_elem_ fb.PopFront)[(d.first_elem_ + j) % d.block_cnt_]? = some b →
      Placed n j b (seg j) := by
    intro j hj hjn b hb
    have hne : d.first_elem_ ≠ (d.first_elem_ + j) % d.block_cnt_ := by
      intro e
      have e2 : (d.first_elem_ + 0) % d.block_cnt_ = (d.first_elem_ + j) % d.block_cnt_ := by
        rw [hh0]; exact e
      have := ring_inj _ _ _ _ hfl (by omega) hj e2
      omega
    rw [List.getElem?_set, if_neg hne] at hb
    exact h.placed j hj b hb
  by_cases hB : fb.PopFront.size_ = 0 ∧ 0 < d.size_ - 1
  · -- the head block is emptied and the head advances
    obtain ⟨hB1, hB2⟩ := hB
    have hn2 : 1 < n := by
      by_contra hcon
      have hn1 : n = 1 := by omega
      subst hn1
      have := h.size_eq
      simp only [flat, List.nil_append] at this
      omega
    have hdl : (seg 0).tail = [] :=
      List.eq_nil_of_length_eq_zero (by rw [List.length_tail]; omega)
    have hflat := flat_shift_tail seg n hnpos hx hdl
    have hplt : (d.first_elem_ + 1) % d.block_cnt_ < d.block_cnt_ := Nat.mod_lt _ (by omega)
    refine ⟨{ d with content_ := some (bs.set d.first_elem_ fb.PopFront),
                     size_ := d.size_ - 1,
                     first_elem_ := (d.first_elem_ + 1) % d.block_cnt_ },
      bs.set d.first_elem_ fb.PopFront, fun j => seg (j + 1), n - 1, ?_, ?_, hflat, rfl⟩
    · simp only [Deque.PopFront, hfb, setBlk_eq d bs _ _ h.content hhl, hdecr, Block.IsEmpty,
        hB1, beq_self_eq_true, if_true, gt_iff_lt, hB2, hc0, if_false]
    · refine ⟨rfl, by simpa using h.len, hplt, by omega, by
        show n - 1 ≤ d.block_cnt_
        omega, ?_, ?_, ?_, ?_⟩
      · show d.last_elem_ = ((d.first_elem_ + 1) % d.block_cnt_ + (n - 1 - 1)) % d.block_cnt_
        rw [ring_next_add _ _ _ hfl (by omega), h.last_eq]
        congr 2
        omega
      · show d.size_ - 1 = _
        rw [hflat, hlenflat]
      · intro j hj
        exact h.seg_nil (j + 1) (by omega)
      · intro j hj b hb
        have hj' : j < d.block_cnt_ := hj
        change (bs.set d.first_elem_ fb.PopFront)[((d.first_elem_ + 1) % d.block_cnt_ + j) %
          d.block_cnt_]? = some b at hb
        rw [ring_next_add _ _ _ hfl hj'] at hb
        by_cases hjc : j + 1 = d.block_cnt_
        · have e : (d.first_elem_ + (j + 1)) % d.block_cnt_ = d.first_elem_ := by
            have e1 : d.first_elem_ + (j + 1) = d.first_elem_ + d.block_cnt_ * 1 := by omega
            rw [e1, Nat.add_mul_mod_self_left, Nat.mod_eq_of_lt hfl]
          rw [e, List.getElem?_set, if_pos rfl, if_pos hhl] at hb
          cases hb
          show Placed (n - 1) j fb.PopFront (seg (j + 1))
          rw [h.seg_nil (j + 1) (by omega), ← hdl]
          refine ⟨hh1, ?_, ?_, ?_⟩
          · intro _ h2; omega
          · intro _ h2; omega
          · intro _ h2; omega
        · have hold := hother (j + 1) (by omega) (by omega) b hb
          show Placed (n - 1) j b (seg (j + 1))
          refine ⟨hold.1, ?_, ?_, ?_⟩
          · intro h1 h2
            have h3 := hold.2.2.2 (by omega) (by omega)
            have h4 : seg (j + 1) ≠ [] := by
              intro e; rw [e] at h3; simp at h3
            have h5 := hold.1.2.2.1 h4
            exact ⟨h4, by omega⟩
          · intro h1 h2
            exact hold.2.2.1 hn2 (by omega)
          · intro h1 h2
            exact hold.2.2.2 (by omega) (by omega)
  · -- the head stays where it is
    have hn1 : fb.PopFront.size_ = 0 → n = 1 := by
      intro h0
      by_contra hcon
      have hle := flat_ends_le seg n (by omega)
      have h1 : 0 < (seg (n - 1)).length := List.length_pos.mpr (h.tail_ne hs)
      rw [← h.size_eq] at hle
      apply hB
      exact ⟨h0, by omega⟩
    have hflat := flat_update_tail seg n hnpos hx
    refine ⟨{ d with content_ := some (bs.set d.first_elem_ fb.PopFront),
                     size_ := d.size_ - 1 },
      bs.set d.first_elem_ fb.PopFront,
      Function.update seg 0 (seg 0).tail, n, ?_, ?_, hflat, rfl⟩
    · simp only [Deque.PopFront, hfb, setBlk_eq d bs _ _ h.content hhl, hdecr, Block.IsEmpty,
        gt_iff_lt]
      by_cases h0 : fb.PopFront.size_ = 0
      · have : ¬ 0 < d.size_ - 1 := fun hp => hB ⟨h0, hp⟩
        simp only [h0, beq_self_eq_true, if_true, this, if_false]
      · simp only [beq_iff_eq, h0, if_false]
    · refine ⟨rfl, by simpa using h.len, hfl, hnpos, hnle, h.last_eq, ?_, ?_, ?_⟩
      · show d.size_ - 1 = _
        rw [hflat, hlenflat]
      · intro j hj
        rw [Function.update_noteq (by omega)]
        exact h.seg_nil j hj
      · intro j hj b hb
        have hj' : j < d.block_cnt_ := hj
        change (bs.set d.first_elem_ fb.PopFront)[(d.first_elem_ + j) % d.block_cnt_]? =
          some b at hb
        by_cases hjn : j = 0
        · subst hjn
          rw [hh0, List.getElem?_set, if_pos rfl, if_pos hhl] at hb
          cases hb
          rw [Function.update_same]
          refine ⟨hh1, ?_, ?_, ?_⟩
          · intro h1 _
            have h3 := hfp.2.1 h1 rfl
            refine ⟨?_, by rw [hl1]; exact h3.2⟩
            intro e
            have h0 : fb.PopFront.size_ = 0 := by rw [holds_size hh1, e]; rfl
            have := hn1 h0
            omega
          · intro h1 h2; omega
          · intro h1 h2; omega
        · rw [Function.update_noteq hjn]
          exact hother j hj' hjn b hb

/-! ## Constructors, `Clear`, `Copy` -/

theorem placed_nil_one {T : Type} (j : Nat) (b : Block T) (hb : b.Holds []) :
    Placed 1 j b [] := by
  refine ⟨hb, ?_, ?_, ?_⟩
  · intro h1; omega
  · intro h1; omega
  · intro _ h2; omega

/-- A ring of `m ≥ 1` fresh blocks with head and tail at block 0 is a valid
empty deque. -/
theorem rep_fresh {T : Type} (m : Nat) (hm : 0 < m) :
    ({ size_ := 0, block_cnt_ := m, first_elem_ := 0, last_elem_ := 0,
       content_ := some (List.replicate m Block.new) } : Deque T).Rep
      (List.replicate m Block.new) (fun _ => []) 1 := by
  refine ⟨rfl, by simp, hm, by omega, hm, ?_, rfl, fun _ _ => rfl, ?_⟩
  · show 0 = (0 + (1 - 1)) % m
    simp
  · intro j hj b hb
    rw [List.getElem?_replicate] at hb
    split at hb
    · cases hb
      exact placed_nil_one j _ holds_new
    · cases hb

theorem rep_new {T : Type} :
    (Deque.new : Deque T).Rep (List.replicate 1 Block.new) (fun _ => []) 1 :=
  rep_fresh 1 (by omega)

theorem rep_withSize {T : Type} (size : Nat) :
    (Deque.withSize size : Deque T).Rep
      (List.replicate (max 1 (size / block_size_)) Block.new) (fun _ => []) 1 :=
  rep_fresh _ (by omega)

theorem clearBlocks_eq {T : Type} (bs : List (Block T)) :
    Deque.clearBlocks bs.length bs = some (bs.map Block.Clear) := by
  induction bs with
  | nil => rfl
  | cons b t ih => simp [Deque.clearBlocks, ih]

theorem ring_surj (h c i : Nat) (hh : h < c) (hi : i < c) :
    ∃ j, j < c ∧ (h + j) % c = i := by
  by_cases hle : h ≤ i
  · exact ⟨i - h, by omega, by rw [mod_wrap _ _ (by omega)]; split_ifs <;> omega⟩
  · exact ⟨i + c - h, by omega, by rw [mod_wrap _ _ (by omega)]; split_ifs <;> omega⟩

/-- Under the invariant every block of the array has a 128-slot buffer. -/
theorem Deque.Rep.block_len {T : Type} {d : Deque T} {bs : List (Block T)}
    {seg : Nat → List T} {n : Nat} (h : d.Rep bs seg n) (i : Nat) (b : Block T)
    (hb : bs[i]? = some b) : b.content_.length = 128 := by
  have hi : i < d.block_cnt_ := by
    rw [← h.len]
    by_contra hcon
    rw [List.getElem?_eq_none (by omega)] at hb
    cases hb
  obtain ⟨j, hj, e⟩ := ring_surj d.first_elem_ d.block_cnt_ i h.first_lt hi
  rw [← e] at hb
  exact (h.placed j hj b hb).1.1

/-- `Clear` returns an empty deque on the same array of blocks. -/
theorem Deque.Rep.clear {T : Type} {d : Deque T} {bs : List (Block T)}
    {seg : Nat → List T} {n : Nat} (h : d.Rep bs seg n) :
    ∃ d1 bs1, d.Clear = some d1 ∧ d1.Rep bs1 (fun _ => []) 1 ∧
      d1.block_cnt_ = d.block_cnt_ ∧ d1.size_ = 0 ∧
      d1.first_elem_ = 0 ∧ d1.last_elem_ = 0 := by
  have hc : 0 < d.block_cnt_ := by have := h.first_lt; omega
  refine ⟨{ d with size_ := 0, first_elem_ := 0, last_elem_ := 0,
                   content_ := some (bs.map Block.Clear) },
    bs.map Block.Clear, ?_, ?_, rfl, rfl, rfl, rfl⟩
  · simp only [Deque.Clear, h.content, ← h.len, clearBlocks_eq, Option.map_some']
  · refine ⟨rfl, by simpa using h.len, hc, by omega, hc, ?_, rfl, fun _ _ => rfl, ?_⟩
    · show 0 = (0 + (1 - 1)) % d.block_cnt_
      simp
    · intro j hj b hb
      rw [List.getElem?_map] at hb
      cases hb0 : bs[(0 + j) % d.block_cnt_]? with
      | none =>
        change (bs[(0 + j) % d.block_cnt_]?).map Block.Clear = some b at hb
        rw [hb0] at hb
        cases hb
      | some b0 =>
        change (bs[(0 + j) % d.block_cnt_]?).map Block.Clear = some b at hb
        rw [hb0] at hb
        cases hb
        exact placed_nil_one j _ (holds_clear b0 (h.block_len _ b0 hb0))

theorem copySlots_eq {T : Type} (buf : List (Option T)) :
    Block.copySlots buf.length buf = some buf := by
  induction buf with
  | nil => rfl
  | cons x t ih => simp [Block.copySlots, ih]

theorem Block.Copy_eq {T : Type} (b : Block T) (h : b.content_.length = 128) :
    b.Copy = some b := by
  have := copySlots_eq b.content_
  rw [h] at this
  simp [Block.Copy, max_size_, this, start_]

theorem copyBlocks_eq {T : Type} (bs : List (Block T))
    (h : ∀ b, b ∈ bs → b.content_.length = 128) :
    Deque.copyBlocks bs.length bs = some bs := by
  induction bs with
  | nil => rfl
  | cons b t ih =>
    have h1 := Block.Copy_eq b (h b (List.mem_cons_self _ _))
    have h2 := ih (fun x hx => h x (List.mem_cons_of_mem _ hx))
    simp [Deque.copyBlocks, h1, h2]

/-- Under the invariant `Copy` builds a deque with the same field values and
the same block contents as its argument. -/
theorem Deque.Rep.copy {T : Type} {d : Deque T} {bs : List (Block T)}
    {seg : Nat → List T} {n : Nat} (h : d.Rep bs seg n) : d.Copy = some d := by
  have hall : ∀ b, b ∈ bs → b.content_.length = 128 := by
    intro b hb
    obtain ⟨i, hi, e⟩ := List.getElem_of_mem hb
    exact h.block_len i b (by rw [List.getElem?_eq_getElem hi, e])
  have := copyBlocks_eq bs hall
  rw [h.len] at this
  simp only [Deque.Copy, h.content, this, Option.map_some']
  rw [← h.content]

/-! ## The logical sequence of a deque -/

theorem models_new {T : Type} : (Deque.new : Deque T).Models [] :=
  ⟨_, _, _, rep_new, rfl⟩

theorem models_withSize {T : Type} (size : Nat) : (Deque.withSize size : Deque T).Models [] :=
  ⟨_, _, _, rep_withSize size, rfl⟩

theorem Deque.Models.size {T : Type} {d : Deque T} {l : List T} (h : d.Models l) :
    d.Size = l.length := by
  obtain ⟨bs, seg, n, hr, rfl⟩ := h
  exact hr.size_eq

theorem Deque.Models.index {T : Type} {d : Deque T} {l : List T} (h : d.Models l)
    (i : Nat) (hi : i < l.length) : d.index i = some l[i] := by
  obtain ⟨bs, seg, n, hr, rfl⟩ := h
  rw [hr.index_eq i (by rw [hr.size_eq]; exact hi), List.getElem?_eq_getElem hi]

theorem Deque.Models.after_pushBack {T : Type} {d : Deque T} {l : List T} (h : d.Models l)
    (v : T) (fuel : Nat) (hf : 2 ≤ fuel) :
    ∃ d1, Deque.PushBack fuel d v = some d1 ∧ d1.Models (l ++ [v]) := by
  obtain ⟨bs, seg, n, hr, rfl⟩ := h
  obtain ⟨k, rfl⟩ : ∃ k, fuel = k + 2 := ⟨fuel - 2, by omega⟩
  obtain ⟨d1, bs1, seg1, n1, h1, h2, h3⟩ := hr.pushBack v k
  exact ⟨d1, h1, bs1, seg1, n1, h2, h3⟩

theorem Deque.Models.after_pushFront {T : Type} {d : Deque T} {l : List T} (h : d.Models l)
    (v : T) (fuel : Nat) (hf : 2 ≤ fuel) :
    ∃ d1, Deque.PushFront fuel d v = some d1 ∧ d1.Models (v :: l) := by
  obtain ⟨bs, seg, n, hr, rfl⟩ := h
  obtain ⟨k, rfl⟩ : ∃ k, fuel = k + 2 := ⟨fuel - 2, by omega⟩
  obtain ⟨d1, bs1, seg1, n1, h1, h2, h3⟩ := hr.pushFront v k
  exact ⟨d1, h1, bs1, seg1, n1, h2, h3⟩

theorem Deque.Models.after_popBack {T : Type} {d : Deque T} {l : List T} (h : d.Models l)
    (hs : d.Size ≠ 0) :
    ∃ d1, d.PopBack = some d1 ∧ d1.Models l.dropLast ∧ d1.block_cnt_ = d.block_cnt_ := by
  obtain ⟨bs, seg, n, hr, rfl⟩ := h
  obtain ⟨d1, bs1, seg1, n1, h1, h2, h3, h4⟩ := hr.popBack hs
  exact ⟨d1, h1, ⟨bs1, seg1, n1, h2, h3⟩, h4⟩

theorem Deque.Models.after_popFront {T : Type} {d : Deque T} {l : List T} (h : d.Models l)
    (hs : d.Size ≠ 0) :
    ∃ d1, d.PopFront = some d1 ∧ d1.Models l.tail ∧ d1.block_cnt_ = d.block_cnt_ := by
  obtain ⟨bs, seg, n, hr, rfl⟩ := h
  obtain ⟨d1, bs1, seg1, n1, h1, h2, h3, h4⟩ := hr.popFront hs
  exact ⟨d1, h1, ⟨bs1, seg1, n1, h2, h3⟩, h4⟩

theorem Deque.Models.after_clear {T : Type} {d : Deque T} {l : List T} (h : d.Models l) :
    ∃ d1, d.Clear = some d1 ∧ d1.Models [] ∧ d1.block_cnt_ = d.block_cnt_ := by
  obtain ⟨bs, seg, n, hr, rfl⟩ := h
  obtain ⟨d1, bs1, h1, h2, h3, _⟩ := hr.clear
  exact ⟨d1, h1, ⟨bs1, _, 1, h2, rfl⟩, h3⟩

theorem Deque.Models.after_copy {T : Type} {d : Deque T} {l : List T} (h : d.Models l) :
    d.Copy = some d := by
  obtain ⟨bs, seg, n, hr, rfl⟩ := h
  exact hr.copy

theorem Deque.Models.pushAll {T : Type} (fuel : Nat) (hf : 2 ≤ fuel) (vs : List T) :
    ∀ (d : Deque T) (l : List T), d.Models l →
      ∃ d1, Deque.pushAll fuel vs d = some d1 ∧ d1.Models (l ++ vs) := by
  induction vs with
  | nil => intro d l h; exact ⟨d, rfl, by simpa using h⟩
  | cons v t ih =>
    intro d l h
    obtain ⟨d1, h1, h2⟩ := h.after_pushBack v fuel hf
    obtain ⟨d2, h3, h4⟩ := ih d1 _ h2
    refine ⟨d2, ?_, by simpa using h4⟩
    simp only [Deque.pushAll, h1, h3]

theorem models_fromList {T : Type} (fuel : Nat) (hf : 2 ≤ fuel) (list : List T) :
    ∃ d, Deque.fromList fuel list = some d ∧ d.Models list := by
  have h0 : (Deque.withSize list.length : Deque T).Models [] := models_withSize _
  obtain ⟨d, h1, h2⟩ := Deque.Models.pushAll fuel hf list _ _ h0
  exact ⟨d, h1, by simpa using h2⟩

/-! ## The retry after `Extend` happens once -/

theorem Extend_fields {T : Type} (d d1 : Deque T) (h : d.Extend = some d1) :
    0 < d.block_cnt_ ∧ d1.block_cnt_ = d.block_cnt_ * 2 ∧ d1.first_elem_ = 0 ∧
      d1.last_elem_ = d.block_cnt_ - 1 ∧ d1.size_ = d.size_ := by
  unfold Deque.Extend at h
  split at h
  · cases h
  · split at h
    · cases h
    · rename_i hc
      cases hg : Deque.gather _ d.first_elem_ d.block_cnt_ 0 d.block_cnt_ with
      | none => rw [hg] at h; cases h
      | some r =>
        rw [hg] at h
        cases h
        exact ⟨by omega, rfl, rfl, rfl, rfl⟩

/-- After `Extend` the block behind the tail is not the head block. -/
theorem Extend_next_ne {T : Type} (d d1 : Deque T) (h : d.Extend = some d1) :
    d1.block_cnt_ ≠ 0 ∧ (d1.last_elem_ + 1) % d1.block_cnt_ ≠ d1.first_elem_ := by
  obtain ⟨h0, h1, h2, h3, _⟩ := Extend_fields d d1 h
  rw [h1, h2, h3]
  refine ⟨by omega, ?_⟩
  rw [Nat.mod_eq_of_lt (by omega)]
  omega

/-- After `Extend` the block before the head is not the tail block. -/
theorem Extend_prev_ne {T : Type} (d d1 : Deque T) (h : d.Extend = some d1) :
    d1.block_cnt_ ≠ 0 ∧
      (d1.first_elem_ + d1.block_cnt_ - 1) % d1.block_cnt_ ≠ d1.last_elem_ := by
  obtain ⟨h0, h1, h2, h3, _⟩ := Extend_fields d d1 h
  rw [h1, h2, h3]
  refine ⟨by omega, ?_⟩
  rw [Nat.mod_eq_of_lt (by omega)]
  omega

theorem PushBack_no_retry {T : Type} (d : Deque T) (v : T) (f g : Nat)
    (h : d.block_cnt_ ≠ 0 → (d.last_elem_ + 1) % d.block_cnt_ ≠ d.first_elem_) :
    Deque.PushBack (f + 1) d v = Deque.PushBack (g + 1) d v := by
  unfold Deque.PushBack
  cases d.blk d.last_elem_ with
  | none => rfl
  | some last =>
    simp only
    by_cases hc : last.CanPushBack = true
    · simp only [hc, not_true_eq_false, if_false]
    · by_cases h0 : d.block_cnt_ = 0
      · simp only [hc, h0, not_false_eq_true, if_true]
      · simp only [hc, h0, h h0, not_false_eq_true, if_true, if_false]

theorem PushFront_no_retry {T : Type} (d : Deque T) (v : T) (f g : Nat)
    (h : d.block_cnt_ ≠ 0 →
      (d.first_elem_ + d.block_cnt_ - 1) % d.block_cnt_ ≠ d.last_elem_) :
    Deque.PushFront (f + 1) d v = Deque.PushFront (g + 1) d v := by
  unfold Deque.PushFront
  cases d.blk d.first_elem_ with
  | none => rfl
  | some first =>
    simp only
    by_cases hc : first.CanPushFront = true
    · simp only [hc, not_true_eq_false, if_false]
    · by_cases h0 : d.block_cnt_ = 0
      · simp only [hc, h0, not_false_eq_true, if_true]
      · simp only [hc, h0, h h0, not_false_eq_true, if_true, if_false]

/-- On every state, `PushBack` with any fuel `≥ 2` computes what it computes
with fuel 2: the recursion is entered at most once and always returns. -/
theorem PushBack_fuel_irrelevant {T : Type} (d : Deque T) (v : T) (f : Nat) :
    Deque.PushBack (f + 2) d v = Deque.PushBack 2 d v := by
  unfold Deque.PushBack
  cases d.blk d.last_elem_ with
  | none => rfl
  | some last =>
    simp only
    split
    · split
      · rfl
      · split
        · cases he : d.Extend with
          | none => rfl
          | some d1 =>
            simp only
            exact PushBack_no_retry d1 v f 0 (fun _ => (Extend_next_ne d d1 he).2)
        · rfl
    · rfl

/-- On every state, `PushFront` with any fuel `≥ 2` computes what it computes
with fuel 2: the recursion is entered at most once and always returns. -/
theorem PushFront_fuel_irrelevant {T : Type} (d : Deque T) (v : T) (f : Nat) :
    Deque.PushFront (f + 2) d v = Deque.PushFront 2 d v := by
  unfold Deque.PushFront
  cases d.blk d.first_elem_ with
  | none => rfl
  | some first =>
    simp only
    split
    · split
      · rfl
      · split
        · cases he : d.Extend with
          | none => rfl
          | some d1 =>
            simp only
            exact PushFront_no_retry d1 v f 0 (fun _ => (Extend_prev_ne d d1 he).2)
        · rfl
    · rfl

theorem PushBack_fuel_mono {T : Type} (f : Nat) : ∀ (d r : Deque T) (v : T),
    Deque.PushBack f d v = some r → Deque.PushBack (f + 1) d v = some r := by
  induction f with
  | zero => intro d r v h; simp [Deque.PushBack] at h
  | succ k ih =>
    intro d r v h
    unfold Deque.PushBack at h ⊢
    cases hb : d.blk d.last_elem_ with
    | none => rw [hb] at h; cases h
    | some last =>
      rw [hb] at h
      simp only at h ⊢
      split
      · rename_i hc
        rw [if_pos hc] at h
        split
        · rename_i h0
          rw [if_pos h0] at h; cases h
        · rename_i h0
          rw [if_neg h0] at h
          split
          · rename_i hn
            rw [if_pos hn] at h
            cases he : d.Extend with
            | none => rw [he] at h; cases h
            | some d1 =>
              rw [he] at h
              exact ih d1 r v h
          · rename_i hn
            rw [if_neg hn] at h
            exact h
      · rename_i hc
        rw [if_neg hc] at h
        exact h

theorem PushFront_fuel_mono {T : Type} (f : Nat) : ∀ (d r : Deque T) (v : T),
    Deque.PushFront f d v = some r → Deque.PushFront (f + 1) d v = some r := by
  induction f with
  | zero => intro d r v h; simp [Deque.PushFront] at h
  | succ k ih =>
    intro d r v h
    unfold Deque.PushFront at h ⊢
    cases hb : d.blk d.first_elem_ with
    | none => rw [hb] at h; cases h
    | some first =>
      rw [hb] at h
      simp only at h ⊢
      split
      · rename_i hc
        rw [if_pos hc] at h
        split
        · rename_i h0
          rw [if_pos h0] at h; cases h
        · rename_i h0
          rw [if_neg h0] at h
          split
          · rename_i hn
            rw [if_pos hn] at h
            cases he : d.Extend with
            | none => rw [he] at h; cases h
            | some d1 =>
              rw [he] at h
              exact ih d1 r v h
          · rename_i hn
            rw [if_neg hn] at h
            exact h
      · rename_i hc
        rw [if_neg hc] at h
        exact h

theorem PushBack_fuel_two {T : Type} (f : Nat) (d r : Deque T) (v : T)
    (h : Deque.PushBack f d v = some r) : Deque.PushBack (f + 2) d v = some r :=
  PushBack_fuel_mono (f + 1) d r v (PushBack_fuel_mono f d r v h)

theorem PushFront_fuel_two {T : Type} (f : Nat) (d r : Deque T) (v : T)
    (h : Deque.PushFront f d v = some r) : Deque.PushFront (f + 2) d v = some r :=
  PushFront_fuel_mono (f + 1) d r v (PushFront_fuel_mono f d r v h)

theorem pushAll_fuel_two {T : Type} (f : Nat) (vs : List T) : ∀ (d r : Deque T),
    Deque.pushAll f vs d = some r → Deque.pushAll (f + 2) vs d = some r := by
  induction vs with
  | nil => intro d r h; exact h
  | cons v t ih =>
    intro d r h
    simp only [Deque.pushAll] at h ⊢
    cases hp : Deque.PushBack f d v with
    | none => rw [hp] at h; cases h
    | some d1 =>
      rw [hp] at h
      rw [PushBack_fuel_two f d d1 v hp]
      exact ih d1 r h

/-! ## Reachable states satisfy the invariant -/

/-- Every reachable deque is well formed and has a logical element sequence. -/
theorem Reachable.models {T : Type} {d : Deque T} (h : Reachable d) :
    ∃ l, d.Models l := by
  induction h with
  | ctor => exact ⟨[], models_new⟩
  | ctorSize size => exact ⟨[], models_withSize size⟩
  | ctorList fuel list d hd =>
    have h2 := pushAll_fuel_two fuel list _ d hd
    obtain ⟨d1, h3, h4⟩ := models_fromList (fuel + 2) (by omega) list
    unfold Deque.fromList at h3
    rw [h2] at h3
    cases h3
    exact ⟨list, h4⟩
  | pushBack fuel d d1 v _ hp ih =>
    obtain ⟨l, hl⟩ := ih
    obtain ⟨d2, h2, h3⟩ := hl.after_pushBack v (fuel + 2) (by omega)
    rw [PushBack_fuel_two fuel d d1 v hp] at h2
    cases h2
    exact ⟨_, h3⟩
  | pushFront fuel d d1 v _ hp ih =>
    obtain ⟨l, hl⟩ := ih
    obtain ⟨d2, h2, h3⟩ := hl.after_pushFront v (fuel + 2) (by omega)
    rw [PushFront_fuel_two fuel d d1 v hp] at h2
    cases h2
    exact ⟨_, h3⟩
  | popBack d d1 _ hs hp ih =>
    obtain ⟨l, hl⟩ := ih
    obtain ⟨d2, h2, h3, _⟩ := hl.after_popBack hs
    rw [hp] at h2
    cases h2
    exact ⟨_, h3⟩
  | popFront d d1 _ hs hp ih =>
    obtain ⟨l, hl⟩ := ih
    obtain ⟨d2, h2, h3, _⟩ := hl.after_popFront hs
    rw [hp] at h2
    cases h2
    exact ⟨_, h3⟩
  | clear d d1 _ hp ih =>
    obtain ⟨l, hl⟩ := ih
    obtain ⟨d2, h2, h3, _⟩ := hl.after_clear
    rw [hp] at h2
    cases h2
    exact ⟨_, h3⟩
  | copy d d1 _ hp ih =>
    obtain ⟨l, hl⟩ := ih
    have := hl.after_copy
    unfold Deque.copyCtor at hp
    rw [this] at hp
    cases hp
    exact ⟨l, hl⟩
  | moved d _ ih =>
    obtain ⟨l, hl⟩ := ih
    exact ⟨l, hl⟩

/-! ## Call sequences -/

theorem Deque.Models.apply {T : Type} {d : Deque T} {l : List T} (h : d.Models l)
    (fuel : Nat) (hf : 2 ≤ fuel) (op : Op T) (hp : op.isPop = true → d.Size ≠ 0) :
    ∃ d1, d.apply fuel op = some d1 ∧ d1.Models (refApply l op) := by
  cases op with
  | pushBack v => exact h.after_pushBack v fuel hf
  | pushFront v => exact h.after_pushFront v fuel hf
  | popBack =>
    obtain ⟨d1, h1, h2, _⟩ := h.after_popBack (hp rfl)
    exact ⟨d1, h1, h2⟩
  | popFront =>
    obtain ⟨d1, h1, h2, _⟩ := h.after_popFront (hp rfl)
    exact ⟨d1, h1, h2⟩

theorem Deque.Models.size_ne {T : Type} {d : Deque T} {l : List T} (h : d.Models l) :
    (d.Size != 0) = !l.isEmpty := by
  rw [h.size]
  cases l <;> rfl

/-- On a well-formed deque, "no pop of an empty deque" is the same condition as
"no pop of an empty reference sequence". -/
theorem Deque.Models.valid_iff {T : Type} (fuel : Nat) (hf : 2 ≤ fuel) (ops : List (Op T)) :
    ∀ (d : Deque T) (l : List T), d.Models l →
      Deque.noEmptyPop fuel ops d = refValid ops l := by
  induction ops with
  | nil => intro d l _; rfl
  | cons op t ih =>
    intro d l h
    simp only [Deque.noEmptyPop, refValid, h.size_ne]
    cases hg : (!op.isPop || !l.isEmpty) with
    | false => simp
    | true =>
      have hp : op.isPop = true → d.Size ≠ 0 := by
        intro hpop
        have h2 := h.size_ne
        rw [hpop] at hg
        simp only [Bool.not_true, Bool.false_or] at hg
        rw [hg] at h2
        simpa using h2
      obtain ⟨d1, h1, h2⟩ := h.apply fuel hf op hp
      simp only [h1, Bool.true_and]
      exact ih d1 _ h2

/-- A call sequence without a pop of an empty deque runs to completion on a
well-formed deque and tracks the reference sequence. -/
theorem Deque.Models.run {T : Type} (fuel : Nat) (hf : 2 ≤ fuel) (ops : List (Op T)) :
    ∀ (d : Deque T) (l : List T), d.Models l → refValid ops l = true →
      ∃ d1, Deque.run fuel ops d = some d1 ∧ d1.Models (refRun ops l) := by
  induction ops with
  | nil => intro d l h _; exact ⟨d, rfl, h⟩
  | cons op t ih =>
    intro d l h hv
    simp only [refValid, Bool.and_eq_true] at hv
    have hp : op.isPop = true → d.Size ≠ 0 := by
      intro hpop
      have h2 := h.size_ne
      have hg := hv.1
      rw [hpop] at hg
      simp only [Bool.not_true, Bool.false_or] at hg
      rw [hg] at h2
      simpa using h2
    obtain ⟨d1, h1, h2⟩ := h.apply fuel hf op hp
    obtain ⟨d2, h3, h4⟩ := ih d1 _ h2 hv.2
    exact ⟨d2, by simp only [Deque.run, h1, h3], h4⟩

theorem refRun_length {T : Type} (ops : List (Op T)) : ∀ (l : List T),
    refValid ops l = true →
      (refRun ops l).length + popCount ops = l.length + pushCount ops := by
  induction ops with
  | nil => intro l _; rfl
  | cons op t ih =>
    intro l hv
    simp only [refValid, Bool.and_eq_true] at hv
    have h1 := ih _ hv.2
    simp only [refRun, popCount, pushCount]
    cases op with
    | pushBack v =>
      simp only [refApply, Op.isPop, List.length_append, List.length_singleton] at h1 ⊢
      simp only [Bool.false_eq_true, if_false]
      omega
    | pushFront v =>
      simp only [refApply, Op.isPop, List.length_cons] at h1 ⊢
      simp only [Bool.false_eq_true, if_false]
      omega
    | popBack =>
      have hne : l ≠ [] := by
        have := hv.1
        intro e; subst e; simp [Op.isPop] at this
      have := List.length_pos.mpr hne
      simp only [refApply, Op.isPop, List.length_dropLast] at h1 ⊢
      simp only [if_true]
      omega
    | popFront =>
      have hne : l ≠ [] := by
        have := hv.1
        intro e; subst e; simp [Op.isPop] at this
      have := List.length_pos.mpr hne
      simp only [refApply, Op.isPop, List.length_tail] at h1 ⊢
      simp only [if_true]
      omega

theorem Deque.Models.popFrontN {T : Type} (k : Nat) : ∀ (d : Deque T) (l : List T),
    d.Models l → k ≤ l.length →
      ∃ d1, Deque.popFrontN k d = some d1 ∧ d1.Models (l.drop k) := by
  induction k with
  | zero => intro d l h _; exact ⟨d, rfl, by simpa using h⟩
  | succ k ih =>
    intro d l h hk
    have hs : d.Size ≠ 0 := by rw [h.size]; omega
    obtain ⟨d1, h1, h2, _⟩ := h.after_popFront hs
    cases l with
    | nil => simp at hk
    | cons x t =>
      simp only [List.length_cons] at hk
      obtain ⟨d2, h3, h4⟩ := ih d1 _ h2 (by simpa using hk)
      exact ⟨d2, by simp only [Deque.popFrontN, h1, h3], by simpa using h4⟩

theorem Deque.Models.popBackN {T : Type} (k : Nat) : ∀ (d : Deque T) (l : List T),
    d.Models l → k ≤ l.length →
      ∃ d1, Deque.popBackN k d = some d1 ∧ d1.Models (l.take (l.length - k)) := by
  induction k with
  | zero => intro d l h _; exact ⟨d, rfl, by simpa using h⟩
  | succ k ih =>
    intro d l h hk
    have hs : d.Size ≠ 0 := by rw [h.size]; omega
    obtain ⟨d1, h1, h2, _⟩ := h.after_popBack hs
    obtain ⟨d2, h3, h4⟩ := ih d1 _ h2 (by rw [List.length_dropLast]; omega)
    refine ⟨d2, by simp only [Deque.popBackN, h1, h3], ?_⟩
    have e : l.dropLast.take (l.dropLast.length - k) = l.take (l.length - (k + 1)) := by
      rw [List.length_dropLast, List.dropLast_eq_take, List.take_take]
      congr 1
      omega
    rw [← e]
    exact h4

/-! ## A reachable four-block state -/

set_option maxRecDepth 1000000 in
/-- The state `sampleWide` is reached from a default-constructed deque by
`PushFront(1)` and 129 calls `PushBack(7)`. -/
theorem sampleWide_reachable : Reachable sampleWide := by
  have h0 : Reachable sampleBack :=
    Reachable.pushFront 2 Deque.new sampleBack 1 Reachable.ctor (by rfl)
  have hgen : ∀ (vs : List Int) (d r : Deque Int), Reachable d →
      Deque.pushAll 2 vs d = some r → Reachable r := by
    intro vs
    induction vs with
    | nil =>
      intro d r hd h
      simp only [Deque.pushAll, Option.some.injEq] at h
      rw [← h]
      exact hd
    | cons v t ih =>
      intro d r hd h
      cases hp : Deque.PushBack 2 d v with
      | none => simp [Deque.pushAll, hp] at h
      | some d1 =>
        simp only [Deque.pushAll, hp] at h
        exact ih d1 r (Reachable.pushBack 2 d d1 v hd hp) h
  exact hgen (List.replicate 129 7) sampleBack sampleWide h0
    (by rfl)

/-! ## The claims -/

/-- C1. Model conformance: a sequence of `PushBack`/`PushFront`/`PopBack`/
`PopFront` calls on a default-constructed deque in which no pop is applied to an
empty deque runs to completion, and afterwards `Size()` and `operator[](i)` for
every `i < Size()` are those of the reference list on which `push_back` appends,
`push_front` prepends, `pop_back` drops the last and `pop_front` the first
element. -/
theorem c1_model_conformance {T : Type} (fuel : Nat) (hf : 2 ≤ fuel) (ops : List (Op T))
    (hv : Deque.noEmptyPop fuel ops Deque.new = true) :
    ∃ d, Deque.run fuel ops Deque.new = some d ∧
      d.Size = (refRun ops []).length ∧
      ∀ i (hi : i < (refRun ops []).length), d.index i = some (refRun ops [])[i] := by
  rw [Deque.Models.valid_iff fuel hf ops _ _ models_new] at hv
  obtain ⟨d, h1, h2⟩ := Deque.Models.run fuel hf ops _ _ models_new hv
  exact ⟨d, h1, h2.size, fun i hi => h2.index i hi⟩

set_option maxRecDepth 100000 in
/-- C1 at `push_back(1), push_back(2), push_front(0), pop_front()`: the deque is
left with `[1, 2]`. -/
theorem c1_model_conformance_witness :
    ∃ d : Deque Int,
      Deque.run 2 [Op.pushBack 1, Op.pushBack 2, Op.pushFront 0, Op.popFront] Deque.new
        = some d ∧
      d.Size = 2 ∧ d.index 0 = some 1 ∧ d.index 1 = some 2 := by
  obtain ⟨d, h1, h2, h3⟩ := @c1_model_conformance Int 2 (by decide)
    [Op.pushBack 1, Op.pushBack 2, Op.pushFront 0, Op.popFront] (by decide)
  exact ⟨d, h1, h2, h3 0 (by decide), h3 1 (by decide)⟩

/-- C2. After a sequence of pushes and pops on a fresh deque with `N` pushes and
`M` pops, in which no pop is applied to an empty deque, `M ≤ N` and `Size()`
returns `N - M`. -/
theorem c2_size_is_pushes_minus_pops {T : Type} (fuel : Nat) (hf : 2 ≤ fuel)
    (ops : List (Op T)) (hv : Deque.noEmptyPop fuel ops Deque.new = true) :
    ∃ d, Deque.run fuel ops Deque.new = some d ∧
      popCount ops ≤ pushCount ops ∧ d.Size = pushCount ops - popCount ops := by
  rw [Deque.Models.valid_iff fuel hf ops _ _ models_new] at hv
  obtain ⟨d, h1, h2⟩ := Deque.Models.run fuel hf ops _ _ models_new hv
  have h3 := refRun_length ops [] hv
  have h4 := h2.size
  simp only [List.length_nil] at h3
  exact ⟨d, h1, by omega, by omega⟩

set_option maxRecDepth 100000 in
/-- C2 at three pushes and two pops: the size is 1. -/
theorem c2_size_is_pushes_minus_pops_witness :
    ∃ d : Deque Int,
      Deque.run 2 [Op.pushBack 1, Op.pushFront 2, Op.popBack, Op.pushBack 3, Op.popFront]
        Deque.new = some d ∧
      popCount [Op.pushBack (1 : Int), Op.pushFront 2, Op.popBack, Op.pushBack 3, Op.popFront]
        ≤ pushCount [Op.pushBack (1 : Int), Op.pushFront 2, Op.popBack, Op.pushBack 3,
          Op.popFront] ∧
      d.Size = 3 - 2 :=
  @c2_size_is_pushes_minus_pops Int 2 (by decide)
    [Op.pushBack 1, Op.pushFront 2, Op.popBack, Op.pushBack 3, Op.popFront] (by decide)

/-- C3. On a reachable deque, for every `i < Size()`, `operator[](i)` returns a
stored element, and it is the front element `operator[](0)` of the deque obtained
by calling `PopFront()` `i` times.  (The const overload is a function of the
state alone: it produces a value and no new state.) -/
theorem c3_index_is_front_after_pops {T : Type} (d : Deque T) (hr : Reachable d)
    (i : Nat) (hi : i < d.Size) :
    ∃ d1 v, Deque.popFrontN i d = some d1 ∧ d.index i = some v ∧ d1.index 0 = some v := by
  obtain ⟨l, hl⟩ := hr.models
  have hil : i < l.length := by rw [← hl.size]; exact hi
  obtain ⟨d1, h1, h2⟩ := Deque.Models.popFrontN i d l hl (by omega)
  have h0 : 0 < (l.drop i).length := by rw [List.length_drop]; omega
  refine ⟨d1, l[i], h1, hl.index i hil, ?_⟩
  rw [h2.index 0 h0]
  congr 1
  simp

set_option maxRecDepth 100000 in
/-- C3 at the four-block deque `sampleWide` and `i = 2`: the first `PopFront()`
empties the head block and moves the head to block 1, the second pops from that
full block. -/
theorem c3_index_is_front_after_pops_witness :
    ∃ d1 v, Deque.popFrontN 2 sampleWide = some d1 ∧ sampleWide.index 2 = some v ∧
      d1.index 0 = some v :=
  c3_index_is_front_after_pops sampleWide sampleWide_reachable 2 (by decide)

/-- C4. Growth is transparent.  On a reachable deque `d` on which `PushBack(v)`
takes the `Extend()` path, the push returns a deque `r` with twice the blocks,
`r.Size() == d.Size() + 1`, `r[i] == d[i]` for every `i < d.Size()` and
`r[d.Size()] == v`; on one on which `PushFront(v)` takes the `Extend()` path,
`r[i+1] == d[i]` for every `i < d.Size()` and `r[0] == v`. -/
theorem c4_growth_transparent {T : Type} (d : Deque T) (hr : Reachable d) (v : T)
    (fuel : Nat) (hf : 2 ≤ fuel) :
    (d.backGrows = true →
      ∃ r, Deque.PushBack fuel d v = some r ∧ r.block_cnt_ = d.block_cnt_ * 2 ∧
        r.Size = d.Size + 1 ∧
        (∀ i, i < d.Size → ∃ x, d.index i = some x ∧ r.index i = some x) ∧
        r.index d.Size = some v) ∧
    (d.frontGrows = true →
      ∃ r, Deque.PushFront fuel d v = some r ∧ r.block_cnt_ = d.block_cnt_ * 2 ∧
        r.Size = d.Size + 1 ∧
        (∀ i, i < d.Size → ∃ x, d.index i = some x ∧ r.index (i + 1) = some x) ∧
        r.index 0 = some v) := by
  obtain ⟨l, bs, seg, n, hrep, rfl⟩ := hr.models
  have hm : d.Models (flat seg n) := ⟨bs, seg, n, hrep, rfl⟩
  obtain ⟨k, rfl⟩ : ∃ k, fuel = k + 2 := ⟨fuel - 2, by omega⟩
  constructor
  · intro hg
    obtain ⟨lb, hlb, _⟩ := hrep.tail
    simp only [Deque.backGrows, hlb, Bool.and_eq_true, Bool.not_eq_true', bne_iff_ne, ne_eq,
      beq_iff_eq] at hg
    obtain ⟨r, bs1, seg1, h1, h2, h3, h4⟩ := hrep.pushBack_extend lb hlb hg.1.1 hg.2 v k
    have hm1 : r.Models (flat seg n ++ [v]) := ⟨bs1, seg1, n + 1, h2, h3⟩
    have hsz : r.Size = d.Size + 1 := by rw [hm1.size, hm.size]; simp
    refine ⟨r, h1, h4, hsz, ?_, ?_⟩
    · intro i hi
      have hil : i < (flat seg n).length := by rw [← hm.size]; exact hi
      refine ⟨(flat seg n)[i], hm.index i hil, ?_⟩
      rw [hm1.index i (by simp; omega)]
      congr 1
      exact List.getElem_append_left hil
    · rw [hm1.index d.Size (by rw [hm.size]; simp)]
      congr 1
      simp [hm.size]
  · intro hg
    obtain ⟨fb, hfb, _⟩ := hrep.head
    simp only [Deque.frontGrows, hfb, Bool.and_eq_true, Bool.not_eq_true', bne_iff_ne, ne_eq,
      beq_iff_eq] at hg
    obtain ⟨r, bs1, seg1, h1, h2, h3, h4⟩ := hrep.pushFront_extend fb hfb hg.1.1 hg.2 v k
    have hm1 : r.Models (v :: flat seg n) := ⟨bs1, seg1, n + 1, h2, h3⟩
    have hsz : r.Size = d.Size + 1 := by rw [hm1.size, hm.size]; simp
    refine ⟨r, h1, h4, hsz, ?_, ?_⟩
    · intro i hi
      have hil : i < (flat seg n).length := by rw [← hm.size]; exact hi
      refine ⟨(flat seg n)[i], hm.index i hil, ?_⟩
      rw [hm1.index (i + 1) (by simp; omega)]
      congr 1
    · rw [hm1.index 0 (by simp)]
      congr 1

set_option maxRecDepth 100000 in
/-- C4 at the deque holding `[1]` in slot 127 (for `PushBack`) and at the deque
holding `[1]` in slot 0 (for `PushFront`): both pushes grow the ring from one
block to two. -/
theorem c4_growth_transparent_witness :
    (∃ r, Deque.PushBack 2 sampleBack 5 = some r ∧ r.block_cnt_ = sampleBack.block_cnt_ * 2 ∧
        r.Size = sampleBack.Size + 1 ∧
        (∀ i, i < sampleBack.Size → ∃ x, sampleBack.index i = some x ∧ r.index i = some x) ∧
        r.index sampleBack.Size = some 5) ∧
    (∃ r, Deque.PushFront 2 sampleFront 5 = some r ∧
        r.block_cnt_ = sampleFront.block_cnt_ * 2 ∧
        r.Size = sampleFront.Size + 1 ∧
        (∀ i, i < sampleFront.Size →
          ∃ x, sampleFront.index i = some x ∧ r.index (i + 1) = some x) ∧
        r.index 0 = some 5) :=
  ⟨(c4_growth_transparent sampleBack
      (Reachable.pushFront 2 Deque.new sampleBack 1 Reachable.ctor (by rfl)) 5 2
      (by decide)).1 (by decide),
   (c4_growth_transparent sampleFront
      (Reachable.pushBack 2 Deque.new sampleFront 1 Reachable.ctor (by rfl)) 5 2
      (by decide)).2 (by decide)⟩

/-- C5. After `PushBack(v_0), ..., PushBack(v_{n-1})` on a default-constructed
deque, for any `n` (beyond 256 as well), `Size() == n` and `operator[](i) == v_i`
for every `i < n`. -/
theorem c5_pushBack_in_order {T : Type} (fuel : Nat) (hf : 2 ≤ fuel) (vs : List T) :
    ∃ d, Deque.pushAll fuel vs Deque.new = some d ∧ d.Size = vs.length ∧
      ∀ i (hi : i < vs.length), d.index i = some vs[i] := by
  obtain ⟨d, h1, h2⟩ := Deque.Models.pushAll fuel hf vs _ _ models_new
  rw [List.nil_append] at h2
  exact ⟨d, h1, h2.size, fun i hi => h2.index i hi⟩

/-- C5 at the 300 values `0, 1, .., 299`. -/
theorem c5_pushBack_in_order_witness :
    ∃ d, Deque.pushAll 2 (List.range 300) Deque.new = some d ∧
      d.Size = (List.range 300).length ∧
      ∀ i (hi : i < (List.range 300).length), d.index i = some (List.range 300)[i] :=
  c5_pushBack_in_order 2 (by decide) (List.range 300)

/-- C6. The deque constructed from a literal list `L` of any length has
`Size() == |L|` and `operator[](i) == L[i]` for every `i < |L|`; `k ≤ |L|` calls of
`PopBack()` afterwards leave exactly the first `|L| - k` elements of `L`. -/
theorem c6_initializer_list {T : Type} (fuel : Nat) (hf : 2 ≤ fuel) (list : List T)
    (k : Nat) (hk : k ≤ list.length) :
    ∃ d, Deque.fromList fuel list = some d ∧ d.Size = list.length ∧
      (∀ i (hi : i < list.length), d.index i = some list[i]) ∧
      ∃ d1, Deque.popBackN k d = some d1 ∧ d1.Size = list.length - k ∧
        ∀ i (hi : i < (list.take (list.length - k)).length),
          d1.index i = some (list.take (list.length - k))[i] := by
  obtain ⟨d, h1, h2⟩ := models_fromList fuel hf list
  obtain ⟨d1, h3, h4⟩ := Deque.Models.popBackN k d list h2 hk
  refine ⟨d, h1, h2.size, fun i hi => h2.index i hi, d1, h3, ?_, fun i hi => h4.index i hi⟩
  rw [h4.size, List.length_take]
  omega

/-- C6 at `[1, 2, 3, 4, 5]` with three `PopBack()` calls: `[1, 2]` is left. -/
theorem c6_initializer_list_witness :
    ∃ d : Deque Int, Deque.fromList 2 [1, 2, 3, 4, 5] = some d ∧ d.Size = 5 ∧
      (∀ i (hi : i < 5), d.index i = some ([1, 2, 3, 4, 5] : List Int)[i]) ∧
      ∃ d1, Deque.popBackN 3 d = some d1 ∧ d1.Size = 2 ∧
        ∀ i (hi : i < 2), d1.index i = some ([1, 2] : List Int)[i] :=
  c6_initializer_list 2 (by decide) [1, 2, 3, 4, 5] 3 (by decide)

/-- C7. On a reachable deque `Clear()` succeeds and leaves `Size() == 0` with the
block count retained; every following sequence of pushes and valid pops runs on
the cleared deque exactly as on a default-constructed one: the same pops are
valid, and the final `Size()` and every `operator[](i)`, `i < Size()`, agree. -/
theorem c7_clear_like_fresh {T : Type} (d : Deque T) (hr : Reachable d)
    (fuel : Nat) (hf : 2 ≤ fuel) (ops : List (Op T))
    (hv : Deque.noEmptyPop fuel ops Deque.new = true) :
    ∃ c, d.Clear = some c ∧ c.Size = 0 ∧ c.block_cnt_ = d.block_cnt_ ∧
      Deque.noEmptyPop fuel ops c = true ∧
      ∃ r1 r2, Deque.run fuel ops c = some r1 ∧ Deque.run fuel ops Deque.new = some r2 ∧
        r1.Size = r2.Size ∧
        ∀ i, i < r1.Size → ∃ v, r1.index i = some v ∧ r2.index i = some v := by
  obtain ⟨l, hl⟩ := hr.models
  obtain ⟨c, h1, h2, h3⟩ := hl.after_clear
  have hvc : Deque.noEmptyPop fuel ops c = true := by
    rw [Deque.Models.valid_iff fuel hf ops _ _ h2,
      ← Deque.Models.valid_iff fuel hf ops _ _ models_new]
    exact hv
  rw [Deque.Models.valid_iff fuel hf ops _ _ models_new] at hv
  obtain ⟨r1, h4, h5⟩ := Deque.Models.run fuel hf ops _ _ h2 hv
  obtain ⟨r2, h6, h7⟩ := Deque.Models.run fuel hf ops _ _ models_new hv
  refine ⟨c, h1, h2.size, h3, hvc, r1, r2, h4, h6, by rw [h5.size, h7.size], ?_⟩
  intro i hi
  have hil : i < (refRun ops []).length := by rw [← h5.size]; exact hi
  exact ⟨_, h5.index i hil, h7.index i hil⟩

set_option maxRecDepth 100000 in
/-- C7 at the four-block deque `sampleWide`, which holds 130 elements in three
blocks, and the calls `push_back(1), push_front(0), pop_back()`. -/
theorem c7_clear_like_fresh_witness :
    ∃ c, sampleWide.Clear = some c ∧ c.Size = 0 ∧
      c.block_cnt_ = sampleWide.block_cnt_ ∧
      Deque.noEmptyPop 2 [Op.pushBack 1, Op.pushFront 0, Op.popBack] c = true ∧
      ∃ r1 r2, Deque.run 2 [Op.pushBack 1, Op.pushFront 0, Op.popBack] c = some r1 ∧
        Deque.run 2 [Op.pushBack 1, Op.pushFront 0, Op.popBack] Deque.new = some r2 ∧
        r1.Size = r2.Size ∧
        ∀ i, i < r1.Size → ∃ v, r1.index i = some v ∧ r2.index i = some v :=
  c7_clear_like_fresh sampleWide sampleWide_reachable 2 (by decide)
    [Op.pushBack 1, Op.pushFront 0, Op.popBack] (by decide)

/-- C9. Move transfer.  After move construction from a reachable deque `s`, and
after move assignment of `s` into another object, the target has the size, the
block count, the head and tail indices and the elements that `s` had
(`t[i] == s[i]` for every `i < s.Size()`), and `s.Size() == 0`. -/
theorem c9_move_transfer {T : Type} (s : Deque T) (hr : Reachable s) (self : Deque T) :
    (s.moveCtor.1.Size = s.Size ∧ s.moveCtor.1.block_cnt_ = s.block_cnt_ ∧
      s.moveCtor.1.first_elem_ = s.first_elem_ ∧ s.moveCtor.1.last_elem_ = s.last_elem_ ∧
      (∀ i, i < s.Size → ∃ v, s.index i = some v ∧ s.moveCtor.1.index i = some v) ∧
      s.moveCtor.2.Size = 0) ∧
    ((self.moveAssign s).1.Size = s.Size ∧ (self.moveAssign s).1.block_cnt_ = s.block_cnt_ ∧
      (self.moveAssign s).1.first_elem_ = s.first_elem_ ∧
      (self.moveAssign s).1.last_elem_ = s.last_elem_ ∧
      (∀ i, i < s.Size → ∃ v, s.index i = some v ∧ (self.moveAssign s).1.index i = some v) ∧
      (self.moveAssign s).2.Size = 0) := by
  obtain ⟨l, hl⟩ := hr.models
  have hidx : ∀ i, i < s.Size → ∃ v, s.index i = some v ∧ s.index i = some v := by
    intro i hi
    have hil : i < l.length := by rw [← hl.size]; exact hi
    exact ⟨_, hl.index i hil, hl.index i hil⟩
  exact ⟨⟨rfl, rfl, rfl, rfl, hidx, rfl⟩, ⟨rfl, rfl, rfl, rfl, hidx, rfl⟩⟩

set_option maxRecDepth 100000 in
/-- C9 at the deque holding `[1]`, moved into a new object and moved into a
default-constructed one. -/
theorem c9_move_transfer_witness :
    (sampleFront.moveCtor.1.Size = sampleFront.Size ∧
      sampleFront.moveCtor.1.block_cnt_ = sampleFront.block_cnt_ ∧
      sampleFront.moveCtor.1.first_elem_ = sampleFront.first_elem_ ∧
      sampleFront.moveCtor.1.last_elem_ = sampleFront.last_elem_ ∧
      (∀ i, i < sampleFront.Size →
        ∃ v, sampleFront.index i = some v ∧ sampleFront.moveCtor.1.index i = some v) ∧
      sampleFront.moveCtor.2.Size = 0) ∧
    ((Deque.new.moveAssign sampleFront).1.Size = sampleFront.Size ∧
      (Deque.new.moveAssign sampleFront).1.block_cnt_ = sampleFront.block_cnt_ ∧
      (Deque.new.moveAssign sampleFront).1.first_elem_ = sampleFront.first_elem_ ∧
      (Deque.new.moveAssign sampleFront).1.last_elem_ = sampleFront.last_elem_ ∧
      (∀ i, i < sampleFront.Size →
        ∃ v, sampleFront.index i = some v ∧
          (Deque.new.moveAssign sampleFront).1.index i = some v) ∧
      (Deque.new.moveAssign sampleFront).2.Size = 0) :=
  c9_move_transfer sampleFront
    (Reachable.pushBack 2 Deque.new sampleFront 1 Reachable.ctor (by rfl)) Deque.new

/-- C10 fails as stated: the deque left behind by a move from a
default-constructed deque is not a valid empty deque, it owns no block array. -/
theorem c10_moved_from_not_valid :
    ¬ (Deque.new : Deque Int).moveCtor.2.ValidEmpty ∧
      ¬ ((Deque.new : Deque Int).moveAssign Deque.new).2.ValidEmpty := by
  constructor <;> (intro h; exact h.2)

/-- C10 as amended.  After move construction from `s`, and after move assignment
of `s` into another object, `s` has `Size() == 0` and a null `content_`: it owns
no block array, while its block count and its head and tail indices keep the
values they had before the move. -/
theorem c10_moved_from_state {T : Type} (s self : Deque T) :
    (s.moveCtor.2.Size = 0 ∧ s.moveCtor.2.content_ = none ∧
      s.moveCtor.2.block_cnt_ = s.block_cnt_ ∧
      s.moveCtor.2.first_elem_ = s.first_elem_ ∧ s.moveCtor.2.last_elem_ = s.last_elem_ ∧
      ¬ s.moveCtor.2.ValidEmpty) ∧
    ((self.moveAssign s).2.Size = 0 ∧ (self.moveAssign s).2.content_ = none ∧
      (self.moveAssign s).2.block_cnt_ = s.block_cnt_ ∧
      (self.moveAssign s).2.first_elem_ = s.first_elem_ ∧
      (self.moveAssign s).2.last_elem_ = s.last_elem_ ∧
      ¬ (self.moveAssign s).2.ValidEmpty) :=
  ⟨⟨rfl, rfl, rfl, rfl, rfl, fun h => h.2⟩, ⟨rfl, rfl, rfl, rfl, rfl, fun h => h.2⟩⟩

namespace Heap

/-! ## Frame lemmas for the heap model -/

/-- The block keeps its pointers at or above the mark `nb`. -/
theorem Region.of_getBlk {T : Type} {na nb : Nat} {m : Mem T} (hr : m.Region na nb)
    {a i : Nat} {b : Block} (ha : na ≤ a) (hb : m.getBlk a i = some b) :
    b.Above nb := by
  unfold Mem.getBlk at hb
  cases hbs : m.arrs a with
  | none => rw [hbs] at hb; cases hb
  | some bs =>
    rw [hbs] at hb
    have hmem : b ∈ bs := by
      obtain ⟨hi, e⟩ := List.getElem?_eq_some.mp hb
      rw [← e]
      exact List.getElem_mem _
    exact hr.2.2 a ha bs hbs b hmem

theorem Frozen.rfl {T : Type} (na nb : Nat) (m : Mem T) : m.Frozen na nb m :=
  ⟨fun _ _ => Eq.refl _, fun _ _ => Eq.refl _, le_refl _, le_refl _⟩

theorem Frozen.trans {T : Type} {na nb : Nat} {m m1 m2 : Mem T}
    (h1 : m.Frozen na nb m1) (h2 : m1.Frozen na nb m2) : m.Frozen na nb m2 :=
  ⟨fun a ha => (h2.1 a ha).trans (h1.1 a ha), fun a ha => (h2.2.1 a ha).trans (h1.2.1 a ha),
    le_trans h1.2.2.1 h2.2.2.1, le_trans h1.2.2.2 h2.2.2.2⟩

theorem storeSlot_frame {T : Type} {na nb : Nat} {m m1 : Mem T} (hr : m.Region na nb)
    {a : Nat} {off : Int} {v : T} (ha : nb ≤ a) (h : m.storeSlot a off v = some m1) :
    m.Frozen na nb m1 ∧ m1.Region na nb := by
  cases hb : m.bufs a with
  | none => simp [Mem.storeSlot, hb] at h
  | some buf =>
    cases hs : BlockDeque.Block.store buf off v with
    | none => simp [Mem.storeSlot, hb, hs] at h
    | some buf1 =>
      simp only [Mem.storeSlot, hb, hs, Option.map_some', Option.some.injEq] at h
      subst h
      refine ⟨⟨fun _ _ => rfl, ?_, le_refl _, le_refl _⟩, hr⟩
      intro x hx
      exact Function.update_noteq (by omega) _ _

theorem deleteBuf_frame {T : Type} {na nb : Nat} {m m1 : Mem T} (hr : m.Region na nb)
    {p : Option Nat} (hp : ∀ x, p = some x → nb ≤ x) (h : m.deleteBuf p = some m1) :
    m.Frozen na nb m1 ∧ m1.Region na nb := by
  cases p with
  | none => cases h; exact ⟨Frozen.rfl na nb m, hr⟩
  | some a =>
    cases hb : m.bufs a with
    | none => simp [Mem.deleteBuf, hb] at h
    | some buf =>
      simp only [Mem.deleteBuf, hb, Option.some.injEq] at h
      subst h
      refine ⟨⟨fun _ _ => rfl, ?_, le_refl _, le_refl _⟩, hr⟩
      intro x hx
      have := hp a rfl
      exact Function.update_noteq (by omega) _ _

theorem newBuf_frame {T : Type} {na nb : Nat} {m : Mem T} (hr : m.Region na nb) :
    m.Frozen na nb (m.newBuf).1 ∧ (m.newBuf).1.Region na nb ∧ nb ≤ (m.newBuf).2 := by
  have hnb := hr.2.1
  refine ⟨⟨fun _ _ => rfl, ?_, le_refl _, Nat.le_succ _⟩, ⟨hr.1, ?_, hr.2.2⟩, hnb⟩
  · intro x hx
    exact Function.update_noteq (by omega) _ _
  · show nb ≤ m.nbuf + 1
    omega

theorem setBlk_frame {T : Type} {na nb : Nat} {m m1 : Mem T} (hr : m.Region na nb)
    {a i : Nat} {b : Block} (ha : na ≤ a)
    (hb : b.Above nb)
    (h : m.setBlk a i b = some m1) :
    m.Frozen na nb m1 ∧ m1.Region na nb := by
  cases hbs : m.arrs a with
  | none => simp [Mem.setBlk, hbs] at h
  | some bs =>
    simp only [Mem.setBlk, hbs] at h
    split at h
    · simp only [Option.some.injEq] at h
      subst h
      refine ⟨⟨?_, fun _ _ => rfl, le_refl _, le_refl _⟩, hr.1, hr.2.1, ?_⟩
      · intro x hx
        exact Function.update_noteq (by omega) _ _
      · intro a1 ha1 bs1 hbs1 b1 hb1
        change Function.update m.arrs a (some (bs.set i b)) a1 = some bs1 at hbs1
        by_cases e : a1 = a
        · subst e
          simp only [Function.update_same, Option.some.injEq] at hbs1
          subst hbs1
          rcases List.mem_or_eq_of_mem_set hb1 with h1 | h1
          · exact hr.2.2 a1 ha bs hbs b1 h1
          · rw [h1]; exact hb
        · rw [Function.update_noteq e] at hbs1
          exact hr.2.2 a1 ha1 bs1 hbs1 b1 hb1
    · cases h

theorem newBlocks_frame {T : Type} {na nb : Nat} (n : Nat) : ∀ {m : Mem T},
    m.Region na nb →
      m.Frozen na nb (m.newBlocks n).1 ∧ (m.newBlocks n).1.Region na nb ∧
      (m.newBlocks n).1.arrs = m.arrs ∧ (m.newBlocks n).1.narr = m.narr ∧
      ∀ b, b ∈ (m.newBlocks n).2 → b.Above nb := by
  induction n with
  | zero =>
    intro m hr
    exact ⟨Frozen.rfl na nb m, hr, rfl, rfl, fun b hb => by cases hb⟩
  | succ k ih =>
    intro m hr
    obtain ⟨h1, h2, h3⟩ := newBuf_frame hr
    obtain ⟨h4, h5, h6, h7, h8⟩ := @ih (Block.new m).1 h2
    refine ⟨Frozen.trans h1 h4, h5, h6, h7, ?_⟩
    intro b hb
    simp only [Mem.newBlocks, List.mem_cons] at hb
    rcases hb with e | hb
    · rw [e]
      refine ⟨h3, ?_⟩
      intro x hx
      simp only [Block.new, Option.some.injEq] at hx
      rw [← hx]
      exact h3
    · exact h8 b hb

theorem newArr_frame {T : Type} {na nb : Nat} {m : Mem T} (hr : m.Region na nb) (n : Nat) :
    m.Frozen na nb (m.newArr n).1 ∧ (m.newArr n).1.Region na nb ∧ na ≤ (m.newArr n).2 := by
  obtain ⟨h1, h2, h3, h4, h5⟩ := @newBlocks_frame T na nb n m hr
  have hna : na ≤ (m.newBlocks n).1.narr := h2.1
  refine ⟨⟨?_, h1.2.1, ?_, h1.2.2.2⟩, ⟨?_, h2.2.1, ?_⟩, hna⟩
  · intro x hx
    show Function.update (m.newBlocks n).1.arrs (m.newBlocks n).1.narr _ x = m.arrs x
    rw [Function.update_noteq (by omega)]
    exact h1.1 x hx
  · show m.narr ≤ (m.newBlocks n).1.narr + 1
    have := h1.2.2.1
    omega
  · show na ≤ (m.newBlocks n).1.narr + 1
    omega
  · intro a1 ha1 bs1 hbs1 b1 hb1
    change Function.update (m.newBlocks n).1.arrs (m.newBlocks n).1.narr _ a1 = some bs1 at hbs1
    by_cases e : a1 = (m.newBlocks n).1.narr
    · rw [e, Function.update_same] at hbs1
      cases hbs1
      exact h5 b1 hb1
    · rw [Function.update_noteq e] at hbs1
      exact h2.2.2 a1 ha1 bs1 hbs1 b1 hb1

theorem destroyBlocks_frame {T : Type} {na nb : Nat} (bs : List Block) : ∀ {m m1 : Mem T},
    m.Region na nb → (∀ b, b ∈ bs → ∀ x, b.content_ = some x → nb ≤ x) →
      Mem.destroyBlocks bs m = some m1 → m.Frozen na nb m1 ∧ m1.Region na nb := by
  induction bs with
  | nil =>
    intro m m1 hr _ h
    cases h
    exact ⟨Frozen.rfl na nb m, hr⟩
  | cons b t ih =>
    intro m m1 hr hb h
    cases hd : m.deleteBuf b.content_ with
    | none => simp [Mem.destroyBlocks, hd] at h
    | some m2 =>
      simp only [Mem.destroyBlocks, hd] at h
      obtain ⟨h1, h2⟩ := deleteBuf_frame hr (hb b (List.mem_cons_self _ _)) hd
      obtain ⟨h3, h4⟩ := ih h2 (fun x hx => hb x (List.mem_cons_of_mem _ hx)) h
      exact ⟨Frozen.trans h1 h3, h4⟩

theorem deleteArr_frame {T : Type} {na nb : Nat} {m m1 : Mem T} (hr : m.Region na nb)
    {a : Nat} (ha : na ≤ a) (h : m.deleteArr (some a) = some m1) :
    m.Frozen na nb m1 ∧ m1.Region na nb := by
  cases hbs : m.arrs a with
  | none => simp [Mem.deleteArr, hbs] at h
  | some bs =>
    cases hd : Mem.destroyBlocks bs m with
    | none => simp [Mem.deleteArr, hbs, hd] at h
    | some m2 =>
      simp only [Mem.deleteArr, hbs, hd, Option.map_some', Option.some.injEq] at h
      subst h
      obtain ⟨h1, h2⟩ := destroyBlocks_frame bs hr
        (fun b hb x hx => (hr.2.2 a ha bs hbs b hb).2 x hx) hd
      refine ⟨⟨?_, h1.2.1, h1.2.2.1, h1.2.2.2⟩, h2.1, h2.2.1, ?_⟩
      · intro x hx
        show Function.update m2.arrs a none x = m.arrs x
        rw [Function.update_noteq (by omega)]
        exact h1.1 x hx
      · intro a1 ha1 bs1 hbs1 b1 hb1
        change Function.update m2.arrs a none a1 = some bs1 at hbs1
        by_cases e : a1 = a
        · rw [e, Function.update_same] at hbs1
          cases hbs1
        · rw [Function.update_noteq e] at hbs1
          exact h2.2.2 a1 ha1 bs1 hbs1 b1 hb1

end Heap

namespace Heap

theorem Block.push_back_frame {T : Type} {na nb : Nat} {m m1 : Mem T} (hr : m.Region na nb)
    {b b1 : Block} {v : T} (hb : b.Above nb) (h : b.PushBack m v = some (m1, b1)) :
    m.Frozen na nb m1 ∧ m1.Region na nb ∧ b1.Above nb := by
  unfold Block.PushBack at h
  split at h
  · cases hs : m.storeSlot b.start_ BlockDeque.start_ v with
    | none => simp [hs] at h
    | some m2 =>
      simp only [hs, Option.map_some', Option.some.injEq, Prod.mk.injEq] at h
      obtain ⟨rfl, rfl⟩ := h
      obtain ⟨h1, h2⟩ := storeSlot_frame hr hb.1 hs
      exact ⟨h1, h2, hb⟩
  · cases hs : m.storeSlot b.start_ (b.last_elem_ + 1) v with
    | none => simp [hs] at h
    | some m2 =>
      simp only [hs, Option.map_some', Option.some.injEq, Prod.mk.injEq] at h
      obtain ⟨rfl, rfl⟩ := h
      obtain ⟨h1, h2⟩ := storeSlot_frame hr hb.1 hs
      exact ⟨h1, h2, hb⟩

theorem Block.push_front_frame {T : Type} {na nb : Nat} {m m1 : Mem T} (hr : m.Region na nb)
    {b b1 : Block} {v : T} (hb : b.Above nb) (h : b.PushFront m v = some (m1, b1)) :
    m.Frozen na nb m1 ∧ m1.Region na nb ∧ b1.Above nb := by
  unfold Block.PushFront at h
  split at h
  · cases hs : m.storeSlot b.start_ BlockDeque.end_ v with
    | none => simp [hs] at h
    | some m2 =>
      simp only [hs, Option.map_some', Option.some.injEq, Prod.mk.injEq] at h
      obtain ⟨rfl, rfl⟩ := h
      obtain ⟨h1, h2⟩ := storeSlot_frame hr hb.1 hs
      exact ⟨h1, h2, hb⟩
  · cases hs : m.storeSlot b.start_ (b.first_elem_ - 1) v with
    | none => simp [hs] at h
    | some m2 =>
      simp only [hs, Option.map_some', Option.some.injEq, Prod.mk.injEq] at h
      obtain ⟨rfl, rfl⟩ := h
      obtain ⟨h1, h2⟩ := storeSlot_frame hr hb.1 hs
      exact ⟨h1, h2, hb⟩

theorem Block.copy_frame {T : Type} {na nb : Nat} {m m1 : Mem T} (hr : m.Region na nb)
    {self rhs b1 : Block} (hb : self.Above nb) (h : self.Copy rhs m = some (m1, b1)) :
    m.Frozen na nb m1 ∧ m1.Region na nb ∧ b1.Above nb := by
  unfold Block.Copy at h
  cases hd : m.deleteBuf self.content_ with
  | none => simp [hd] at h
  | some m2 =>
    simp only [hd] at h
    cases hra : rhs.content_ with
    | none => simp [hra] at h
    | some ra =>
      simp only [hra] at h
      cases hsrc : (m2.newBuf).1.bufs ra with
      | none => simp [hsrc] at h
      | some src =>
        simp only [hsrc] at h
        cases hcp : BlockDeque.Block.copySlots max_size_ src with
        | none => simp [hcp] at h
        | some copied =>
          simp only [hcp, Option.map_some', Option.some.injEq, Prod.mk.injEq] at h
          obtain ⟨rfl, rfl⟩ := h
          obtain ⟨h1, h2⟩ := deleteBuf_frame hr hb.2 hd
          obtain ⟨h3, h4, h5⟩ := newBuf_frame h2
          have h6 := Frozen.trans h1 h3
          refine ⟨⟨h6.1, ?_, h6.2.2.1, h6.2.2.2⟩, ⟨h4.1, h4.2.1, h4.2.2⟩, h5, ?_⟩
          · intro x hx
            show Function.update (m2.newBuf).1.bufs (m2.newBuf).2 (some copied) x = m.bufs x
            rw [Function.update_noteq (by omega)]
            exact h6.2.1 x hx
          · intro x hx
            simp only [Option.some.injEq] at hx
            rw [← hx]
            exact h5

theorem Block.moveAssign_frame {T : Type} {na nb : Nat} {m m1 : Mem T} (hr : m.Region na nb)
    {self other s1 o1 : Block} (hs : self.Above nb) (ho : other.Above nb)
    (h : self.moveAssign other m = some (m1, s1, o1)) :
    m.Frozen na nb m1 ∧ m1.Region na nb ∧ s1.Above nb ∧ o1.Above nb := by
  unfold Block.moveAssign at h
  cases hd : m.deleteBuf self.content_ with
  | none => simp [hd] at h
  | some m2 =>
    simp only [hd, Option.map_some', Option.some.injEq, Prod.mk.injEq] at h
    obtain ⟨rfl, rfl, rfl⟩ := h
    obtain ⟨h1, h2⟩ := deleteBuf_frame hr hs.2 hd
    refine ⟨h1, h2, ho, ho.1, ?_⟩
    intro x hx
    cases hx

theorem moveBlocks_frame {T : Type} {na nb : Nat} (old fresh first cnt : Nat)
    (ho : na ≤ old) (hf : na ≤ fresh) (n : Nat) : ∀ (lo : Nat) {m m1 : Mem T},
    m.Region na nb → Deque.moveBlocks old fresh first cnt lo n m = some m1 →
      m.Frozen na nb m1 ∧ m1.Region na nb := by
  induction n with
  | zero =>
    intro lo m m1 hr h
    simp only [Deque.moveBlocks, Option.some.injEq] at h
    subst h
    exact ⟨Frozen.rfl na nb m, hr⟩
  | succ k ih =>
    intro lo m m1 hr h
    cases hsrc : m.getBlk old ((first + lo) % cnt) with
    | none => simp [Deque.moveBlocks, hsrc] at h
    | some src =>
      cases hdst : m.getBlk fresh lo with
      | none => simp [Deque.moveBlocks, hsrc, hdst] at h
      | some dst =>
        cases hmv : dst.moveAssign src m with
        | none => simp [Deque.moveBlocks, hsrc, hdst, hmv] at h
        | some r =>
          obtain ⟨m2, dst1, src1⟩ := r
          obtain ⟨h1, h2, h3, h4⟩ := Block.moveAssign_frame hr
            (Region.of_getBlk hr hf hdst) (Region.of_getBlk hr ho hsrc) hmv
          cases hs1 : m2.setBlk fresh lo dst1 with
          | none => simp [Deque.moveBlocks, hsrc, hdst, hmv, hs1] at h
          | some m3 =>
            obtain ⟨h5, h6⟩ := setBlk_frame h2 hf h3 hs1
            cases hs2 : m3.setBlk old ((first + lo) % cnt) src1 with
            | none => simp [Deque.moveBlocks, hsrc, hdst, hmv, hs1, hs2] at h
            | some m4 =>
              obtain ⟨h7, h8⟩ := setBlk_frame h6 ho h4 hs2
              simp only [Deque.moveBlocks, hsrc, hdst, hmv, hs1, hs2] at h
              obtain ⟨h9, h10⟩ := ih (lo + 1) h8 h
              exact ⟨Frozen.trans (Frozen.trans (Frozen.trans h1 h5) h7) h9, h10⟩

theorem Deque.Extend_frame {T : Type} {na nb : Nat} {m m1 : Mem T} {d d1 : Deque}
    (hr : m.Region na nb) (hd : d.Above na) (h : Deque.Extend m d = some (m1, d1)) :
    m.Frozen na nb m1 ∧ m1.Region na nb ∧ d1.Above na := by
  unfold Deque.Extend at h
  cases hc : d.content_ with
  | none => simp [hc] at h
  | some a =>
    simp only [hc] at h
    split at h
    · cases h
    · obtain ⟨h1, h2, h3⟩ := @newArr_frame T na nb m hr (d.block_cnt_ * 2)
      cases hm : Deque.moveBlocks a (m.newArr (d.block_cnt_ * 2)).2 d.first_elem_ d.block_cnt_
          0 d.block_cnt_ (m.newArr (d.block_cnt_ * 2)).1 with
      | none => simp [hm] at h
      | some m2 =>
        simp only [hm] at h
        obtain ⟨h4, h5⟩ := moveBlocks_frame a _ d.first_elem_ d.block_cnt_ (hd a hc) h3
          d.block_cnt_ 0 h2 hm
        cases hda : m2.deleteArr (some a) with
        | none => simp [hda] at h
        | some m3 =>
          simp only [hda, Option.map_some', Option.some.injEq, Prod.mk.injEq] at h
          obtain ⟨rfl, rfl⟩ := h
          obtain ⟨h6, h7⟩ := deleteArr_frame h5 (hd a hc) hda
          refine ⟨Frozen.trans (Frozen.trans h1 h4) h6, h7, ?_⟩
          intro x hx
          simp only [Option.some.injEq] at hx
          rw [← hx]
          exact h3

end Heap

namespace Heap

theorem above_of_content {na a : Nat} (ha : na ≤ a) (x : Deque) (hx : x.content_ = some a) :
    x.Above na := by
  intro y hy
  rw [hx] at hy
  cases hy
  exact ha

theorem Block.PopBack_above {nb : Nat} {b : Block} (h : b.Above nb) : b.PopBack.Above nb := h

theorem Block.PopFront_above {nb : Nat} {b : Block} (h : b.Above nb) : b.PopFront.Above nb := h

theorem Block.Clear_above {nb : Nat} {b : Block} (h : b.Above nb) : b.Clear.Above nb := h

theorem Deque.PushBack_frame {T : Type} {na nb : Nat} (fuel : Nat) :
    ∀ {m m1 : Mem T} {d d1 : Deque} {v : T}, m.Region na nb → d.Above na →
      Deque.PushBack fuel m d v = some (m1, d1) →
      m.Frozen na nb m1 ∧ m1.Region na nb ∧ d1.Above na := by
  induction fuel with
  | zero => intro m m1 d d1 v _ _ h; simp [Deque.PushBack] at h
  | succ k ih =>
    intro m m1 d d1 v hr hd h
    unfold Deque.PushBack at h
    cases hc : d.content_ with
    | none => simp [hc] at h
    | some a =>
      have ha := hd a hc
      simp only [hc] at h
      cases hl : m.getBlk a d.last_elem_ with
      | none => simp [hl] at h
      | some last =>
        simp only [hl] at h
        split at h
        · split at h
          · cases h
          · split at h
            · cases he : Deque.Extend m d with
              | none => simp [he] at h
              | some r =>
                obtain ⟨m2, d2⟩ := r
                simp only [he] at h
                obtain ⟨h1, h2, h3⟩ := Deque.Extend_frame hr hd he
                obtain ⟨h4, h5, h6⟩ := ih h2 h3 h
                exact ⟨Frozen.trans h1 h4, h5, h6⟩
            · cases hb : m.getBlk a ((d.last_elem_ + 1) % d.block_cnt_) with
              | none => simp [hb] at h
              | some b =>
                simp only [hb] at h
                cases hp : b.PushBack m v with
                | none => simp [hp] at h
                | some r =>
                  obtain ⟨m2, b1⟩ := r
                  simp only [hp] at h
                  obtain ⟨h1, h2, h3⟩ := Block.push_back_frame hr (Region.of_getBlk hr ha hb) hp
                  cases hs : m2.setBlk a ((d.last_elem_ + 1) % d.block_cnt_) b1 with
                  | none => simp [hs] at h
                  | some m3 =>
                    simp only [hs, Option.map_some', Option.some.injEq, Prod.mk.injEq] at h
                    obtain ⟨rfl, rfl⟩ := h
                    obtain ⟨h4, h5⟩ := setBlk_frame h2 ha h3 hs
                    exact ⟨Frozen.trans h1 h4, h5, above_of_content ha _ rfl⟩
        · cases hp : last.PushBack m v with
          | none => simp [hp] at h
          | some r =>
            obtain ⟨m2, b1⟩ := r
            simp only [hp] at h
            obtain ⟨h1, h2, h3⟩ := Block.push_back_frame hr (Region.of_getBlk hr ha hl) hp
            cases hs : m2.setBlk a d.last_elem_ b1 with
            | none => simp [hs] at h
            | some m3 =>
              simp only [hs, Option.map_some', Option.some.injEq, Prod.mk.injEq] at h
              obtain ⟨rfl, rfl⟩ := h
              obtain ⟨h4, h5⟩ := setBlk_frame h2 ha h3 hs
              exact ⟨Frozen.trans h1 h4, h5, above_of_content ha _ rfl⟩

theorem Deque.PushFront_frame {T : Type} {na nb : Nat} (fuel : Nat) :
    ∀ {m m1 : Mem T} {d d1 : Deque} {v : T}, m.Region na nb → d.Above na →
      Deque.PushFront fuel m d v = some (m1, d1) →
      m.Frozen na nb m1 ∧ m1.Region na nb ∧ d1.Above na := by
  induction fuel with
  | zero => intro m m1 d d1 v _ _ h; simp [Deque.PushFront] at h
  | succ k ih =>
    intro m m1 d d1 v hr hd h
    unfold Deque.PushFront at h
    cases hc : d.content_ with
    | none => simp [hc] at h
    | some a =>
      have ha := hd a hc
      simp only [hc] at h
      cases hl : m.getBlk a d.first_elem_ with
      | none => simp [hl] at h
      | some first =>
        simp only [hl] at h
        split at h
        · split at h
          · cases h
          · split at h
            · cases he : Deque.Extend m d with
              | none => simp [he] at h
              | some r =>
                obtain ⟨m2, d2⟩ := r
                simp only [he] at h
                obtain ⟨h1, h2, h3⟩ := Deque.Extend_frame hr hd he
                obtain ⟨h4, h5, h6⟩ := ih h2 h3 h
                exact ⟨Frozen.trans h1 h4, h5, h6⟩
            · cases hb : m.getBlk a ((d.first_elem_ + d.block_cnt_ - 1) % d.block_cnt_) with
              | none => simp [hb] at h
              | some b =>
                simp only [hb] at h
                cases hp : b.PushFront m v with
                | none => simp [hp] at h
                | some r =>
                  obtain ⟨m2, b1⟩ := r
                  simp only [hp] at h
                  obtain ⟨h1, h2, h3⟩ := Block.push_front_frame hr (Region.of_getBlk hr ha hb) hp
                  cases hs : m2.setBlk a ((d.first_elem_ + d.block_cnt_ - 1) % d.block_cnt_)
                      b1 with
                  | none => simp [hs] at h
                  | some m3 =>
                    simp only [hs, Option.map_some', Option.some.injEq, Prod.mk.injEq] at h
                    obtain ⟨rfl, rfl⟩ := h
                    obtain ⟨h4, h5⟩ := setBlk_frame h2 ha h3 hs
                    exact ⟨Frozen.trans h1 h4, h5, above_of_content ha _ rfl⟩
        · cases hp : first.PushFront m v with
          | none => simp [hp] at h
          | some r =>
            obtain ⟨m2, b1⟩ := r
            simp only [hp] at h
            obtain ⟨h1, h2, h3⟩ := Block.push_front_frame hr (Region.of_getBlk hr ha hl) hp
            cases hs : m2.setBlk a d.first_elem_ b1 with
            | none => simp [hs] at h
            | some m3 =>
              simp only [hs, Option.map_some', Option.some.injEq, Prod.mk.injEq] at h
              obtain ⟨rfl, rfl⟩ := h
              obtain ⟨h4, h5⟩ := setBlk_frame h2 ha h3 hs
              exact ⟨Frozen.trans h1 h4, h5, above_of_content ha _ rfl⟩

theorem Deque.PopBack_frame {T : Type} {na nb : Nat} {m m1 : Mem T} {d d1 : Deque}
    (hr : m.Region na nb) (hd : d.Above na) (h : Deque.PopBack m d = some (m1, d1)) :
    m.Frozen na nb m1 ∧ m1.Region na nb ∧ d1.Above na := by
  unfold Deque.PopBack at h
  cases hc : d.content_ with
  | none => simp [hc] at h
  | some a =>
    have ha := hd a hc
    simp only [hc] at h
    cases hl : m.getBlk a d.last_elem_ with
    | none => simp [hl] at h
    | some last =>
      simp only [hl] at h
      cases hs : m.setBlk a d.last_elem_ last.PopBack with
      | none => simp [hs] at h
      | some m2 =>
        simp only [hs] at h
        obtain ⟨h1, h2⟩ := setBlk_frame hr ha (Block.PopBack_above (Region.of_getBlk hr ha hl)) hs
        have hd1 : ∀ x : Deque, x.content_ = some a → x.Above na :=
          fun x hx => above_of_content ha x hx
        split at h
        · split at h
          · split at h
            · cases h
            · simp only [Option.some.injEq, Prod.mk.injEq] at h
              obtain ⟨rfl, rfl⟩ := h
              exact ⟨h1, h2, hd1 _ rfl⟩
          · simp only [Option.some.injEq, Prod.mk.injEq] at h
            obtain ⟨rfl, rfl⟩ := h
            exact ⟨h1, h2, hd1 _ rfl⟩
        · simp only [Option.some.injEq, Prod.mk.injEq] at h
          obtain ⟨rfl, rfl⟩ := h
          exact ⟨h1, h2, hd1 _ rfl⟩

theorem Deque.PopFront_frame {T : Type} {na nb : Nat} {m m1 : Mem T} {d d1 : Deque}
    (hr : m.Region na nb) (hd : d.Above na) (h : Deque.PopFront m d = some (m1, d1)) :
    m.Frozen na nb m1 ∧ m1.Region na nb ∧ d1.Above na := by
  unfold Deque.PopFront at h
  cases hc : d.content_ with
  | none => simp [hc] at h
  | some a =>
    have ha := hd a hc
    simp only [hc] at h
    cases hl : m.getBlk a d.first_elem_ with
    | none => simp [hl] at h
    | some first =>
      simp only [hl] at h
      cases hs : m.setBlk a d.first_elem_ first.PopFront with
      | none => simp [hs] at h
      | some m2 =>
        simp only [hs] at h
        obtain ⟨h1, h2⟩ := setBlk_frame hr ha (Block.PopFront_above (Region.of_getBlk hr ha hl)) hs
        have hd1 : ∀ x : Deque, x.content_ = some a → x.Above na :=
          fun x hx => above_of_content ha x hx
        split at h
        · split at h
          · split at h
            · cases h
            · simp only [Option.some.injEq, Prod.mk.injEq] at h
              obtain ⟨rfl, rfl⟩ := h
              exact ⟨h1, h2, hd1 _ rfl⟩
          · simp only [Option.some.injEq, Prod.mk.injEq] at h
            obtain ⟨rfl, rfl⟩ := h
            exact ⟨h1, h2, hd1 _ rfl⟩
        · simp only [Option.some.injEq, Prod.mk.injEq] at h
          obtain ⟨rfl, rfl⟩ := h
          exact ⟨h1, h2, hd1 _ rfl⟩

theorem clearBlocks_frame {T : Type} {na nb : Nat} (a : Nat) (ha : na ≤ a) (n : Nat) :
    ∀ (lo : Nat) {m m1 : Mem T}, m.Region na nb →
      Deque.clearBlocks a lo n m = some m1 → m.Frozen na nb m1 ∧ m1.Region na nb := by
  induction n with
  | zero =>
    intro lo m m1 hr h
    simp only [Deque.clearBlocks, Option.some.injEq] at h
    subst h
    exact ⟨Frozen.rfl na nb m, hr⟩
  | succ k ih =>
    intro lo m m1 hr h
    cases hb : m.getBlk a lo with
    | none => simp [Deque.clearBlocks, hb] at h
    | some b =>
      cases hs : m.setBlk a lo b.Clear with
      | none => simp [Deque.clearBlocks, hb, hs] at h
      | some m2 =>
        simp only [Deque.clearBlocks, hb, hs] at h
        obtain ⟨h1, h2⟩ := setBlk_frame hr ha (Block.Clear_above (Region.of_getBlk hr ha hb)) hs
        obtain ⟨h3, h4⟩ := ih (lo + 1) h2 h
        exact ⟨Frozen.trans h1 h3, h4⟩

theorem Deque.Clear_frame {T : Type} {na nb : Nat} {m m1 : Mem T} {d d1 : Deque}
    (hr : m.Region na nb) (hd : d.Above na) (h : Deque.Clear m d = some (m1, d1)) :
    m.Frozen na nb m1 ∧ m1.Region na nb ∧ d1.Above na := by
  unfold Deque.Clear at h
  cases hc : d.content_ with
  | none =>
    simp only [hc] at h
    split at h
    · simp only [Option.some.injEq, Prod.mk.injEq] at h
      obtain ⟨rfl, rfl⟩ := h
      refine ⟨Frozen.rfl na nb m, hr, ?_⟩
      intro x hx
      cases hx
    · cases h
  | some a =>
    simp only [hc] at h
    cases hcl : Deque.clearBlocks a 0 d.block_cnt_ m with
    | none => simp [hcl] at h
    | some m2 =>
      simp only [hcl, Option.map_some', Option.some.injEq, Prod.mk.injEq] at h
      obtain ⟨rfl, rfl⟩ := h
      obtain ⟨h1, h2⟩ := clearBlocks_frame a (hd a hc) d.block_cnt_ 0 hr hcl
      exact ⟨h1, h2, above_of_content (hd a hc) _ rfl⟩

theorem Deque.locate_above {T : Type} {na nb : Nat} {m : Mem T} {d : Deque}
    (hr : m.Region na nb) (hd : d.Above na) {ind k : Nat} {b : Block}
    (h : Deque.locate m d ind = some (b, k)) : b.Above nb := by
  unfold Deque.locate at h
  cases hc : d.content_ with
  | none => simp [hc] at h
  | some a =>
    have ha := hd a hc
    simp only [hc] at h
    cases hf : m.getBlk a d.first_elem_ with
    | none => simp [hf] at h
    | some first =>
      simp only [hf] at h
      split at h
      · simp only [Option.some.injEq, Prod.mk.injEq] at h
        rw [← h.1]
        exact Region.of_getBlk hr ha hf
      · cases hl : m.getBlk a d.last_elem_ with
        | none => simp [hl] at h
        | some last =>
          simp only [hl] at h
          split at h
          · simp only [Option.some.injEq, Prod.mk.injEq] at h
            rw [← h.1]
            exact Region.of_getBlk hr ha hl
          · split at h
            · cases h
            · cases hb : m.getBlk a ((d.first_elem_ + 1 + (ind - first.size_) / block_size_) %
                  d.block_cnt_) with
              | none => simp [hb] at h
              | some blk =>
                simp only [hb, Option.some.injEq, Prod.mk.injEq] at h
                rw [← h.1]
                exact Region.of_getBlk hr ha hb

theorem Deque.assign_frame {T : Type} {na nb : Nat} {m m1 : Mem T} {d : Deque}
    (hr : m.Region na nb) (hd : d.Above na) {ind : Nat} {v : T}
    (h : Deque.assign m d ind v = some m1) :
    m.Frozen na nb m1 ∧ m1.Region na nb := by
  unfold Deque.assign at h
  cases hl : Deque.locate m d ind with
  | none => simp [hl] at h
  | some r =>
    obtain ⟨b, k⟩ := r
    simp only [hl] at h
    exact storeSlot_frame hr (Deque.locate_above hr hd hl).1 h

theorem Deque.mutate_frame {T : Type} {na nb : Nat} (fuel : Nat) {m m1 : Mem T}
    {d d1 : Deque} (c : Mut T) (hr : m.Region na nb) (hd : d.Above na)
    (h : Deque.mutate fuel m d c = some (m1, d1)) :
    m.Frozen na nb m1 ∧ m1.Region na nb ∧ d1.Above na := by
  cases c with
  | pushBack v => exact Deque.PushBack_frame fuel hr hd h
  | pushFront v => exact Deque.PushFront_frame fuel hr hd h
  | popBack => exact Deque.PopBack_frame hr hd h
  | popFront => exact Deque.PopFront_frame hr hd h
  | clear => exact Deque.Clear_frame hr hd h
  | assign i v =>
    simp only [Deque.mutate] at h
    cases ha : Deque.assign m d i v with
    | none => simp [ha] at h
    | some m2 =>
      simp only [ha, Option.map_some', Option.some.injEq, Prod.mk.injEq] at h
      obtain ⟨rfl, rfl⟩ := h
      obtain ⟨h1, h2⟩ := Deque.assign_frame hr hd ha
      exact ⟨h1, h2, hd⟩

/-- A sequence of mutating calls on a deque object whose memory lies at or above
the marks changes no heap cell below the marks. -/
theorem Deque.mutateAll_frame {T : Type} {na nb : Nat} (fuel : Nat) (cs : List (Mut T)) :
    ∀ {m m1 : Mem T} {d d1 : Deque}, m.Region na nb → d.Above na →
      Deque.mutateAll fuel cs m d = some (m1, d1) →
      m.Frozen na nb m1 ∧ m1.Region na nb ∧ d1.Above na := by
  induction cs with
  | nil =>
    intro m m1 d d1 hr hd h
    simp only [Deque.mutateAll, Option.some.injEq, Prod.mk.injEq] at h
    obtain ⟨rfl, rfl⟩ := h
    exact ⟨Frozen.rfl na nb m, hr, hd⟩
  | cons c t ih =>
    intro m m1 d d1 hr hd h
    cases hm : Deque.mutate fuel m d c with
    | none => simp [Deque.mutateAll, hm] at h
    | some r =>
      obtain ⟨m2, d2⟩ := r
      simp only [Deque.mutateAll, hm] at h
      obtain ⟨h1, h2, h3⟩ := Deque.mutate_frame fuel c hr hd hm
      obtain ⟨h4, h5, h6⟩ := ih h2 h3 h
      exact ⟨Frozen.trans h1 h4, h5, h6⟩

end Heap

namespace Heap

theorem copyBlocks_frame {T : Type} {na nb : Nat} (self rhs : Nat) (hs : na ≤ self)
    (n : Nat) : ∀ (lo : Nat) {m m1 : Mem T}, m.Region na nb →
      Deque.copyBlocks self rhs lo n m = some m1 → m.Frozen na nb m1 ∧ m1.Region na nb := by
  induction n with
  | zero =>
    intro lo m m1 hr h
    simp only [Deque.copyBlocks, Option.some.injEq] at h
    subst h
    exact ⟨Frozen.rfl na nb m, hr⟩
  | succ k ih =>
    intro lo m m1 hr h
    cases hb : m.getBlk self lo with
    | none => simp [Deque.copyBlocks, hb] at h
    | some b =>
      cases hrb : m.getBlk rhs lo with
      | none => simp [Deque.copyBlocks, hb, hrb] at h
      | some r =>
        cases hcp : b.Copy r m with
        | none => simp [Deque.copyBlocks, hb, hrb, hcp] at h
        | some res =>
          obtain ⟨m2, b1⟩ := res
          obtain ⟨h1, h2, h3⟩ := Block.copy_frame hr (Region.of_getBlk hr hs hb) hcp
          cases hst : m2.setBlk self lo b1 with
          | none => simp [Deque.copyBlocks, hb, hrb, hcp, hst] at h
          | some m3 =>
            simp only [Deque.copyBlocks, hb, hrb, hcp, hst] at h
            obtain ⟨h4, h5⟩ := setBlk_frame h2 hs h3 hst
            obtain ⟨h6, h7⟩ := ih (lo + 1) h5 h
            exact ⟨Frozen.trans (Frozen.trans h1 h4) h6, h7⟩

theorem Fresh.region {T : Type} {m : Mem T} (hf : m.Fresh) : m.Region m.narr m.nbuf := by
  refine ⟨le_refl _, le_refl _, ?_⟩
  intro a ha bs hbs
  rw [hf a ha] at hbs
  cases hbs

/-- `Copy` allocates the new object above everything that was allocated before,
changes no cell that was allocated before, and hands the scalar fields over. -/
theorem Deque.Copy_frame {T : Type} {m m1 : Mem T} {rhs c : Deque} (hf : m.Fresh)
    (h : Deque.Copy m rhs = some (m1, c)) :
    m.Frozen m.narr m.nbuf m1 ∧ m1.Region m.narr m.nbuf ∧ c.Above m.narr ∧
      c.size_ = rhs.size_ ∧ c.block_cnt_ = rhs.block_cnt_ ∧
      c.first_elem_ = rhs.first_elem_ ∧ c.last_elem_ = rhs.last_elem_ := by
  unfold Deque.Copy at h
  cases hc : rhs.content_ with
  | none => simp [hc] at h
  | some ra =>
    simp only [hc] at h
    obtain ⟨h1, h2, h3⟩ := newArr_frame (Fresh.region hf) rhs.block_cnt_
    cases hcb : Deque.copyBlocks (m.newArr rhs.block_cnt_).2 ra 0 rhs.block_cnt_
        (m.newArr rhs.block_cnt_).1 with
    | none => simp [hcb] at h
    | some m2 =>
      simp only [hcb, Option.map_some', Option.some.injEq, Prod.mk.injEq] at h
      obtain ⟨rfl, rfl⟩ := h
      obtain ⟨h4, h5⟩ := copyBlocks_frame _ ra h3 rhs.block_cnt_ 0 h2 hcb
      exact ⟨Frozen.trans h1 h4, h5, above_of_content h3 _ rfl, rfl, rfl, rfl, rfl⟩

theorem getBlk_mem {T : Type} {m : Mem T} {a i : Nat} {b : Block}
    (h : m.getBlk a i = some b) : ∃ bs, m.arrs a = some bs ∧ b ∈ bs := by
  unfold Mem.getBlk at h
  cases hbs : m.arrs a with
  | none => rw [hbs] at h; cases h
  | some bs =>
    rw [hbs] at h
    obtain ⟨hi, e⟩ := List.getElem?_eq_some.mp h
    exact ⟨bs, rfl, by rw [← e]; exact List.getElem_mem _⟩

theorem Deque.locate_mem {T : Type} {m : Mem T} {d : Deque} {ind k : Nat} {b : Block}
    (h : Deque.locate m d ind = some (b, k)) :
    ∃ a bs, d.content_ = some a ∧ m.arrs a = some bs ∧ b ∈ bs := by
  unfold Deque.locate at h
  cases hc : d.content_ with
  | none => simp [hc] at h
  | some a =>
    simp only [hc] at h
    cases hf : m.getBlk a d.first_elem_ with
    | none => simp [hf] at h
    | some first =>
      simp only [hf] at h
      split at h
      · simp only [Option.some.injEq, Prod.mk.injEq] at h
        obtain ⟨bs, h1, h2⟩ := getBlk_mem hf
        exact ⟨a, bs, rfl, h1, by rw [← h.1]; exact h2⟩
      · cases hl : m.getBlk a d.last_elem_ with
        | none => simp [hl] at h
        | some last =>
          simp only [hl] at h
          split at h
          · simp only [Option.some.injEq, Prod.mk.injEq] at h
            obtain ⟨bs, h1, h2⟩ := getBlk_mem hl
            exact ⟨a, bs, rfl, h1, by rw [← h.1]; exact h2⟩
          · split at h
            · cases h
            · cases hb : m.getBlk a ((d.first_elem_ + 1 + (ind - first.size_) / block_size_) %
                  d.block_cnt_) with
              | none => simp [hb] at h
              | some blk =>
                simp only [hb, Option.some.injEq, Prod.mk.injEq] at h
                obtain ⟨bs, h1, h2⟩ := getBlk_mem hb
                exact ⟨a, bs, rfl, h1, by rw [← h.1]; exact h2⟩

theorem Deque.locate_frozen {T : Type} {na nb : Nat} {m m1 : Mem T} {d : Deque}
    (hb : d.Below na nb m) (hf : m.Frozen na nb m1) (i : Nat) :
    Deque.locate m1 d i = Deque.locate m d i := by
  unfold Deque.locate
  cases hc : d.content_ with
  | none => rfl
  | some a =>
    have harr : m1.arrs a = m.arrs a := hf.1 a (hb a hc).1
    simp only [Mem.getBlk, harr]

/-- A deque object whose memory lies below the marks reads the same elements
from any heap that agrees below the marks. -/
theorem Deque.index_frozen {T : Type} {na nb : Nat} {m m1 : Mem T} {d : Deque}
    (hb : d.Below na nb m) (hf : m.Frozen na nb m1) (i : Nat) :
    Deque.index m1 d i = Deque.index m d i := by
  unfold Deque.index
  rw [Deque.locate_frozen hb hf i]
  cases hl : Deque.locate m d i with
  | none => rfl
  | some r =>
    obtain ⟨b, k⟩ := r
    obtain ⟨a, bs, h1, h2, h3⟩ := Deque.locate_mem hl
    have hlt : b.start_ < nb := (hb a h1).2 bs h2 b h3
    simp only [Block.Get, Mem.loadSlot, hf.2.1 b.start_ hlt]

theorem sampleMem_fresh : sampleMem.Fresh := by
  intro a ha
  have : a ≠ 0 := by
    have h1 : sampleMem.narr = 1 := rfl
    rw [h1] at ha
    omega
  simp [sampleMem, this]

theorem sampleObj_below : sampleObj.Below sampleMem.narr sampleMem.nbuf sampleMem := by
  intro a ha
  have ha0 : a = 0 := by
    simp only [sampleObj, Option.some.injEq] at ha
    exact ha.symm
  subst ha0
  refine ⟨by decide, ?_⟩
  intro bs hbs b hb
  simp only [sampleMem, if_true, Option.some.injEq] at hbs
  subst hbs
  simp only [List.mem_singleton] at hb
  subst hb
  decide

set_option maxRecDepth 100000 in
theorem sampleCopy_eq : Deque.Copy sampleMem sampleObj = some (sampleCopy.1, sampleCopy.2) := by
  rfl

set_option maxRecDepth 100000 in
theorem sampleFinal_eq :
    Deque.mutateAll 2 sampleMuts sampleCopy.1 sampleCopy.2
      = some (sampleFinal.1, sampleFinal.2) := by
  rfl

end Heap

/-! ## The walk from head to tail under the invariant -/

theorem walkFrom_eq (h c : Nat) (hh : h < c) (m : Nat) : ∀ (j fuel : Nat),
    j + m < c → m ≤ fuel →
      walkFrom c ((h + (j + m)) % c) fuel ((h + j) % c) =
        (List.range' j (m + 1)).map (fun i => (h + i) % c) := by
  induction m with
  | zero =>
    intro j fuel _ _
    cases fuel with
    | zero => simp [walkFrom]
    | succ f => simp [walkFrom]
  | succ k ih =>
    intro j fuel hj hf
    obtain ⟨f, rfl⟩ : ∃ f, fuel = f + 1 := ⟨fuel - 1, by omega⟩
    have hne : (h + j) % c ≠ (h + (j + (k + 1))) % c := by
      intro e
      have := ring_inj h c _ _ hh (by omega) (by omega) e
      omega
    have hstep : ((h + j) % c + 1) % c = (h + (j + 1)) % c := ring_succ h c j hh (by omega)
    have htail : (h + (j + (k + 1))) % c = (h + (j + 1 + k)) % c := by
      congr 2; omega
    rw [walkFrom, if_neg hne, hstep, htail, ih (j + 1) f (by omega) (by omega)]
    rw [List.range'_succ j (k + 1)]
    rfl

theorem Deque.Rep.walk_eq {T : Type} {d : Deque T} {bs : List (Block T)}
    {seg : Nat → List T} {n : Nat} (h : d.Rep bs seg n) :
    d.walk = (List.range n).map (fun j => (d.first_elem_ + j) % d.block_cnt_) := by
  have hn := h.n_pos
  have hle := h.n_le
  have hfl := h.first_lt
  have e := walkFrom_eq d.first_elem_ d.block_cnt_ hfl (n - 1) 0 d.block_cnt_ (by omega)
    (by omega)
  rw [Nat.zero_add, ← h.last_eq, Nat.add_zero, Nat.mod_eq_of_lt hfl] at e
  unfold Deque.walk
  rw [e, List.range_eq_range']
  congr 2
  omega

theorem Deque.Rep.mem_walk {T : Type} {d : Deque T} {bs : List (Block T)}
    {seg : Nat → List T} {n : Nat} (h : d.Rep bs seg n) (p : Nat) :
    p ∈ d.walk ↔ ∃ j, j < n ∧ p = (d.first_elem_ + j) % d.block_cnt_ := by
  rw [h.walk_eq, List.mem_map]
  constructor
  · rintro ⟨j, hj, rfl⟩
    exact ⟨j, List.mem_range.mp hj, rfl⟩
  · rintro ⟨j, hj, rfl⟩
    exact ⟨j, List.mem_range.mpr hj, rfl⟩

theorem Deque.Rep.mem_interior {T : Type} {d : Deque T} {bs : List (Block T)}
    {seg : Nat → List T} {n : Nat} (h : d.Rep bs seg n) (p : Nat) (hp : p ∈ d.interior) :
    ∃ j, 0 < j ∧ j + 1 < n ∧ p = (d.first_elem_ + j) % d.block_cnt_ := by
  unfold Deque.interior at hp
  obtain ⟨i, hi⟩ := List.mem_iff_getElem?.mp hp
  rw [List.getElem?_dropLast] at hi
  split at hi
  · rename_i hlt
    rw [List.getElem?_tail, h.walk_eq, List.getElem?_map] at hi
    simp only [List.length_tail, h.walk_eq, List.length_map, List.length_range] at hlt
    rw [List.getElem?_range (by omega)] at hi
    simp only [Option.map_some', Option.some.injEq] at hi
    exact ⟨i + 1, by omega, by omega, hi.symm⟩
  · cases hi

theorem flat_length_sum {T : Type} (seg : Nat → List T) (n : Nat) :
    (flat seg n).length = ((List.range n).map (fun j => (seg j).length)).sum := by
  induction n with
  | zero => rfl
  | succ k ih =>
    simp only [flat, List.length_append, List.range_succ, List.map_append, List.sum_append,
      List.map_singleton, List.sum_singleton, ih]

theorem Deque.Rep.sizeAt_eq {T : Type} {d : Deque T} {bs : List (Block T)}
    {seg : Nat → List T} {n : Nat} (h : d.Rep bs seg n) (j : Nat) (hj : j < d.block_cnt_) :
    d.sizeAt ((d.first_elem_ + j) % d.block_cnt_) = (seg j).length := by
  obtain ⟨b, hb, hp⟩ := h.at j hj
  unfold Deque.sizeAt
  rw [h.blk_eq, hb]
  exact holds_size hp.1

theorem Deque.Rep.walkSum_eq {T : Type} {d : Deque T} {bs : List (Block T)}
    {seg : Nat → List T} {n : Nat} (h : d.Rep bs seg n) : d.walkSum = d.size_ := by
  unfold Deque.walkSum
  rw [h.walk_eq, h.size_eq, flat_length_sum, List.map_map]
  congr 1
  apply List.map_congr_left
  intro j hj
  have := h.n_le
  exact h.sizeAt_eq j (by have := List.mem_range.mp hj; omega)

/-- Under the invariant every slot of a block's occupied range is in the buffer
and holds a written value, and the range has the block's `size_`. -/
theorem holds_bounds {T : Type} {b : Block T} {xs : List T} (h : b.Holds xs) :
    b.size_ ≤ 128 ∧
      (b.size_ ≠ 0 → 0 ≤ b.first_elem_ ∧ b.first_elem_ ≤ b.last_elem_ ∧ b.last_elem_ ≤ 127 ∧
        b.last_elem_ - b.first_elem_ + 1 = b.size_) := by
  obtain ⟨_, hsz, hpos, _⟩ := h
  by_cases hx : xs = []
  · subst hx
    simp only [List.length_nil] at hsz
    exact ⟨by omega, fun hne => absurd hsz hne⟩
  · obtain ⟨h1, h2, h3⟩ := hpos hx
    have hl : 0 < xs.length := List.length_pos.mpr hx
    refine ⟨by omega, fun _ => ⟨h1, by omega, h2, by omega⟩⟩

theorem Deque.Rep.block_at {T : Type} {d : Deque T} {bs : List (Block T)}
    {seg : Nat → List T} {n : Nat} (h : d.Rep bs seg n) (p : Nat) (hp : p < d.block_cnt_) :
    ∃ j b, j < d.block_cnt_ ∧ p = (d.first_elem_ + j) % d.block_cnt_ ∧ d.blk p = some b ∧
      Placed n j b (seg j) := by
  obtain ⟨j, hj, e⟩ := ring_surj d.first_elem_ d.block_cnt_ p h.first_lt hp
  obtain ⟨b, hb, hpl⟩ := h.at j hj
  refine ⟨j, b, hj, e.symm, ?_, hpl⟩
  rw [h.blk_eq, ← e]
  exact hb

theorem Deque.Rep.blk_lt {T : Type} {d : Deque T} {bs : List (Block T)}
    {seg : Nat → List T} {n : Nat} (h : d.Rep bs seg n) (p : Nat) (b : Block T)
    (hb : d.blk p = some b) : p < d.block_cnt_ := by
  rw [h.blk_eq] at hb
  rw [← h.len]
  by_contra hcon
  rw [List.getElem?_eq_none (by omega)] at hb
  cases hb

/-- C11. The deque constructed with the element-count hint `n` has
`Size() == 0`, head and tail at block 0, `max(1, n / 128)` blocks, and every block
is a freshly constructed, empty block: the hint affects the capacity only. -/
theorem c11_size_hint_ctor {T : Type} (n : Nat) :
    (Deque.withSize n : Deque T).Size = 0 ∧
      (Deque.withSize n : Deque T).first_elem_ = 0 ∧
      (Deque.withSize n : Deque T).last_elem_ = 0 ∧
      (Deque.withSize n : Deque T).block_cnt_ = max 1 (n / 128) ∧
      (Deque.withSize n : Deque T).Models [] ∧
      ∃ bs, (Deque.withSize n : Deque T).content_ = some bs ∧
        bs.length = max 1 (n / 128) ∧ ∀ b, b ∈ bs → b = Block.new ∧ b.size_ = 0 := by
  refine ⟨rfl, rfl, rfl, rfl, models_withSize n, _, rfl, ?_, ?_⟩
  · simp [block_size_]
  · intro b hb
    have := List.eq_of_mem_replicate hb
    exact ⟨this, by rw [this]; rfl⟩

/-- C12. Packed interior: in a reachable deque every block strictly between the
head block and the tail block in circular order holds exactly 128 elements, in
slots 0..127, each slot holding a stored value. -/
theorem c12_packed_interior {T : Type} (d : Deque T) (hr : Reachable d) (p : Nat)
    (hp : p ∈ d.interior) :
    ∃ b, d.blk p = some b ∧ b.size_ = 128 ∧ b.first_elem_ = 0 ∧ b.last_elem_ = 127 ∧
      ∀ k, k < 128 → ∃ v, b.Get k = some v := by
  obtain ⟨l, bs, seg, n, h, _⟩ := hr.models
  obtain ⟨j, hj0, hjn, rfl⟩ := h.mem_interior p hp
  have hle := h.n_le
  obtain ⟨b, hb, hpl⟩ := h.at j (by omega)
  have hlen := hpl.2.2.2 hj0 hjn
  have hne : seg j ≠ [] := by
    intro e; rw [e] at hlen; simp at hlen
  obtain ⟨h1, h2, h3⟩ := hpl.1.2.2.1 hne
  refine ⟨b, by rw [h.blk_eq]; exact hb, by rw [holds_size hpl.1, hlen], by omega, by omega, ?_⟩
  intro k hk
  have hk2 : k < (seg j).length := by omega
  exact ⟨(seg j)[k], by rw [hpl.1.2.2.2 k hk2, List.getElem?_eq_getElem hk2]⟩

set_option maxRecDepth 100000 in
/-- C12 at the four-block deque `sampleWide`, whose block 1 lies between the
head block 0 and the tail block 2. -/
theorem c12_packed_interior_witness :
    ∃ b, sampleWide.blk 1 = some b ∧ b.size_ = 128 ∧ b.first_elem_ = 0 ∧ b.last_elem_ = 127 ∧
      ∀ k, k < 128 → ∃ v, b.Get k = some v :=
  c12_packed_interior sampleWide sampleWide_reachable 1 (by decide)

/-- C13. Size invariant: in a reachable deque `size_` is the sum of the blocks'
`size_` over the walk from the head block to the tail block, every block outside
the walk is empty, the head block holds the first `size_(head)` elements of the
deque and the tail block the last `size_(tail)` ones. -/
theorem c13_size_invariant {T : Type} (d : Deque T) (hr : Reachable d) :
    d.walkSum = d.Size ∧
    (∀ p, p < d.block_cnt_ → p ∉ d.walk → ∃ b, d.blk p = some b ∧ b.size_ = 0) ∧
    ∃ fb lb, d.blk d.first_elem_ = some fb ∧ d.blk d.last_elem_ = some lb ∧
      (∀ i, i < fb.size_ → ∃ v, fb.Get i = some v ∧ d.index i = some v) ∧
      (∀ i, i < lb.size_ →
        ∃ v, lb.Get i = some v ∧ d.index (d.Size - lb.size_ + i) = some v) := by
  obtain ⟨l, bs, seg, n, h, _⟩ := hr.models
  have hnpos := h.n_pos
  obtain ⟨fb, hfb, hfp⟩ := h.head
  obtain ⟨lb, hlb, hlp⟩ := h.tail
  refine ⟨h.walkSum_eq, ?_, fb, lb, hfb, hlb, ?_, ?_⟩
  · intro p hp hnot
    obtain ⟨j, b, hj, e, hb, hpl⟩ := h.block_at p hp
    have hjn : n ≤ j := by
      by_contra hcon
      exact hnot ((h.mem_walk p).mpr ⟨j, by omega, e⟩)
    refine ⟨b, hb, ?_⟩
    rw [holds_size hpl.1, h.seg_nil j hjn]
    rfl
  · intro i hi
    have hi2 : i < (seg 0).length := by rw [← holds_size hfp.1]; exact hi
    obtain ⟨m, rfl⟩ : ∃ m, n = m + 1 := ⟨n - 1, by omega⟩
    have hflat : flat seg (m + 1) = seg 0 ++ flat (fun j => seg (j + 1)) m := flat_shift seg m
    have hsz : i < d.size_ := by
      rw [h.size_eq, hflat, List.length_append]; omega
    refine ⟨(seg 0)[i], ?_, ?_⟩
    · rw [hfp.1.2.2.2 i hi2, List.getElem?_eq_getElem hi2]
    · rw [h.index_eq i hsz, hflat, List.getElem?_append_left hi2,
        List.getElem?_eq_getElem hi2]
  · intro i hi
    obtain ⟨m, rfl⟩ : ∃ m, n = m + 1 := ⟨n - 1, by omega⟩
    simp only [Nat.add_sub_cancel] at hlp
    have hi2 : i < (seg m).length := by rw [← holds_size hlp.1]; exact hi
    have hflat : flat seg (m + 1) = flat seg m ++ seg m := rfl
    have hsize : d.Size = (flat seg m).length + (seg m).length := by
      show d.size_ = _
      rw [h.size_eq, hflat, List.length_append]
    have hidx : d.Size - lb.size_ + i = (flat seg m).length + i := by
      rw [hsize, holds_size hlp.1]; omega
    refine ⟨(seg m)[i], ?_, ?_⟩
    · rw [hlp.1.2.2.2 i hi2, List.getElem?_eq_getElem hi2]
    · rw [hidx, h.index_eq _ (by show _ < d.Size; rw [hsize]; omega), hflat,
        List.getElem?_append_right (by omega)]
      simp only [Nat.add_sub_cancel_left]
      exact List.getElem?_eq_getElem hi2

set_option maxRecDepth 100000 in
/-- C13 at the four-block deque `sampleWide`. -/
theorem c13_size_invariant_witness :
    sampleWide.walkSum = sampleWide.Size ∧
    (∀ p, p < sampleWide.block_cnt_ → p ∉ sampleWide.walk →
      ∃ b, sampleWide.blk p = some b ∧ b.size_ = 0) ∧
    ∃ fb lb, sampleWide.blk sampleWide.first_elem_ = some fb ∧
      sampleWide.blk sampleWide.last_elem_ = some lb ∧
      (∀ i, i < fb.size_ → ∃ v, fb.Get i = some v ∧ sampleWide.index i = some v) ∧
      (∀ i, i < lb.size_ →
        ∃ v, lb.Get i = some v ∧ sampleWide.index (sampleWide.Size - lb.size_ + i) = some v) :=
  c13_size_invariant sampleWide sampleWide_reachable

/-! ## The blocks addressed by pushes and by `operator[]` -/

theorem Deque.Rep.next_free {T : Type} {d : Deque T} {bs : List (Block T)}
    {seg : Nat → List T} {n : Nat} (h : d.Rep bs seg n)
    (hnext : (d.last_elem_ + 1) % d.block_cnt_ ≠ d.first_elem_) :
    ∃ nb, d.blk ((d.last_elem_ + 1) % d.block_cnt_) = some nb ∧ nb.size_ = 0 := by
  have hnpos := h.n_pos
  have hnle := h.n_le
  have hfl := h.first_lt
  have hnx : (d.last_elem_ + 1) % d.block_cnt_ = (d.first_elem_ + n) % d.block_cnt_ := by
    rw [h.last_eq, ring_succ d.first_elem_ d.block_cnt_ (n - 1) hfl (by omega)]
    congr 2
    omega
  have hn : n < d.block_cnt_ := by
    by_contra hcon
    have e : n = d.block_cnt_ := by omega
    apply hnext
    rw [hnx, e]
    have : d.first_elem_ + d.block_cnt_ = d.first_elem_ + d.block_cnt_ * 1 := by omega
    rw [this, Nat.add_mul_mod_self_left, Nat.mod_eq_of_lt hfl]
  obtain ⟨nb, hnb, hnp⟩ := h.at n hn
  refine ⟨nb, by rw [h.blk_eq, hnx]; exact hnb, ?_⟩
  rw [holds_size hnp.1, h.seg_nil n (le_refl _)]
  rfl

theorem Deque.Rep.prev_free {T : Type} {d : Deque T} {bs : List (Block T)}
    {seg : Nat → List T} {n : Nat} (h : d.Rep bs seg n)
    (hprev : (d.first_elem_ + d.block_cnt_ - 1) % d.block_cnt_ ≠ d.last_elem_) :
    ∃ pb, d.blk ((d.first_elem_ + d.block_cnt_ - 1) % d.block_cnt_) = some pb ∧
      pb.size_ = 0 := by
  have hnpos := h.n_pos
  have hnle := h.n_le
  have hfl := h.first_lt
  have hpe := ring_prev_eq d.first_elem_ d.block_cnt_ hfl
  have hn : n < d.block_cnt_ := by
    by_contra hcon
    have e : n = d.block_cnt_ := by omega
    apply hprev
    rw [h.last_eq, hpe, e]
  obtain ⟨pb, hpb, hpp⟩ := h.at (d.block_cnt_ - 1) (by omega)
  refine ⟨pb, by rw [h.blk_eq, hpe]; exact hpb, ?_⟩
  rw [holds_size hpp.1, h.seg_nil _ (by omega)]
  rfl

theorem canPushBack_of_empty {T : Type} (b : Block T) (h : b.size_ = 0) :
    b.CanPushBack = true := by
  simp [Block.CanPushBack, h]

theorem canPushFront_of_empty {T : Type} (b : Block T) (h : b.size_ = 0) :
    b.CanPushFront = true := by
  simp [Block.CanPushFront, h]

/-- `Deque::PushBack` calls `Block::PushBack` only on a block that can take an
element at its back. -/
theorem Deque.Rep.pushBackTarget_ok {T : Type} {d : Deque T} {bs : List (Block T)}
    {seg : Nat → List T} {n : Nat} (h : d.Rep bs seg n) (fuel : Nat) :
    ∃ b, Deque.pushBackTarget (fuel + 2) d = some b ∧ b.CanPushBack = true := by
  obtain ⟨lb, hlb, _⟩ := h.tail
  have hc0 : d.block_cnt_ ≠ 0 := by have := h.first_lt; omega
  cases hc : lb.CanPushBack with
  | true =>
    refine ⟨lb, ?_, hc⟩
    simp only [Deque.pushBackTarget, hlb, hc, not_true_eq_false, if_false]
  | false =>
    by_cases hnext : (d.last_elem_ + 1) % d.block_cnt_ = d.first_elem_
    · have hfull : n = d.block_cnt_ := by
        have e := hnext
        rw [h.last_eq] at e
        exact ring_full _ _ _ h.first_lt h.n_pos h.n_le e
      obtain ⟨d1, bs1, he, hr1, hc1, _, hf1, hl1, hb1⟩ := h.extend hfull
      have hnext1 : (d1.last_elem_ + 1) % d1.block_cnt_ ≠ d1.first_elem_ := by
        rw [hl1, hc1, hf1, Nat.mod_eq_of_lt (by omega)]
        omega
      obtain ⟨nb, hnb, hnz⟩ := hr1.next_free hnext1
      have hc10 : d1.block_cnt_ ≠ 0 := by rw [hc1]; omega
      refine ⟨nb, ?_, canPushBack_of_empty nb hnz⟩
      conv_lhs => unfold Deque.pushBackTarget
      simp only [hlb, hc, hc0, hnext, he, Bool.false_eq_true, not_false_eq_true, if_true,
        if_false]
      unfold Deque.pushBackTarget
      rw [hb1, hlb]
      simp only [hc, hc10, hnext1, hnb, Bool.false_eq_true, not_false_eq_true, if_true,
        if_false]
    · obtain ⟨nb, hnb, hnz⟩ := h.next_free hnext
      refine ⟨nb, ?_, canPushBack_of_empty nb hnz⟩
      simp only [Deque.pushBackTarget, hlb, hc, hc0, hnext, hnb, Bool.false_eq_true,
        not_false_eq_true, if_true, if_false]

/-- `Deque::PushFront` calls `Block::PushFront` only on a block that can take an
element at its front. -/
theorem Deque.Rep.pushFrontTarget_ok {T : Type} {d : Deque T} {bs : List (Block T)}
    {seg : Nat → List T} {n : Nat} (h : d.Rep bs seg n) (fuel : Nat) :
    ∃ b, Deque.pushFrontTarget (fuel + 2) d = some b ∧ b.CanPushFront = true := by
  obtain ⟨fb, hfb, _⟩ := h.head
  have hfl := h.first_lt
  have hc0 : d.block_cnt_ ≠ 0 := by omega
  cases hc : fb.CanPushFront with
  | true =>
    refine ⟨fb, ?_, hc⟩
    simp only [Deque.pushFrontTarget, hfb, hc, not_true_eq_false, if_false]
  | false =>
    by_cases hprev : (d.first_elem_ + d.block_cnt_ - 1) % d.block_cnt_ = d.last_elem_
    · have hfull : n = d.block_cnt_ := by
        have e := hprev
        rw [h.last_eq, ring_prev_eq _ _ hfl] at e
        have hn := h.n_pos
        have hle := h.n_le
        have := ring_inj _ _ _ _ hfl (by omega) (by omega) e
        omega
      obtain ⟨d1, bs1, he, hr1, hc1, _, hf1, hl1, _⟩ := h.extend hfull
      have hfb1 : d1.blk d1.first_elem_ = some fb := by
        obtain ⟨bs1', he', _, hlo, _⟩ := Extend_spec d bs h.content h.len (by omega)
        rw [he] at he'
        cases he'
        simp only [Deque.blk]
        rw [hlo 0 (by omega), Nat.add_zero, Nat.mod_eq_of_lt hfl, ← h.blk_eq]
        exact hfb
      have hprev1 : (d1.first_elem_ + d1.block_cnt_ - 1) % d1.block_cnt_ ≠ d1.last_elem_ := by
        rw [hl1, hc1, hf1, Nat.mod_eq_of_lt (by omega)]
        omega
      obtain ⟨pb, hpb, hpz⟩ := hr1.prev_free hprev1
      have hc10 : d1.block_cnt_ ≠ 0 := by rw [hc1]; omega
      refine ⟨pb, ?_, canPushFront_of_empty pb hpz⟩
      conv_lhs => unfold Deque.pushFrontTarget
      simp only [hfb, hc, hc0, hprev, he, Bool.false_eq_true, not_false_eq_true, if_true,
        if_false]
      unfold Deque.pushFrontTarget
      rw [hfb1]
      simp only [hc, hc10, hprev1, hpb, Bool.false_eq_true, not_false_eq_true, if_true,
        if_false]
    · obtain ⟨pb, hpb, hpz⟩ := h.prev_free hprev
      refine ⟨pb, ?_, canPushFront_of_empty pb hpz⟩
      simp only [Deque.pushFrontTarget, hfb, hc, hc0, hprev, hpb, Bool.false_eq_true,
        not_false_eq_true, if_true, if_false]

/-- C14. Segment bounds: in a reachable deque every block has `size_ ≤ 128`, and
a non-empty block has `0 ≤ first ≤ last ≤ 127` with `last - first + 1 == size_`;
`PushBack` and `PushFront` call `Block::PushBack` / `Block::PushFront` only on a
block for which `CanPushBack()` / `CanPushFront()` holds, and they return without
an access outside the 128 slots. -/
theorem c14_segment_bounds {T : Type} (d : Deque T) (hr : Reachable d) (v : T)
    (fuel : Nat) (hf : 2 ≤ fuel) :
    (∀ p b, d.blk p = some b →
      b.size_ ≤ 128 ∧
        (b.size_ ≠ 0 → 0 ≤ b.first_elem_ ∧ b.first_elem_ ≤ b.last_elem_ ∧
          b.last_elem_ ≤ 127 ∧ b.last_elem_ - b.first_elem_ + 1 = b.size_)) ∧
    (∃ b r, Deque.pushBackTarget fuel d = some b ∧ b.CanPushBack = true ∧
      Deque.PushBack fuel d v = some r) ∧
    (∃ b r, Deque.pushFrontTarget fuel d = some b ∧ b.CanPushFront = true ∧
      Deque.PushFront fuel d v = some r) := by
  obtain ⟨l, bs, seg, n, h, hl⟩ := hr.models
  obtain ⟨k, rfl⟩ : ∃ k, fuel = k + 2 := ⟨fuel - 2, by omega⟩
  refine ⟨?_, ?_, ?_⟩
  · intro p b hb
    obtain ⟨j, b1, _, _, hb1, hpl⟩ := h.block_at p (h.blk_lt p b hb)
    rw [hb] at hb1
    cases hb1
    exact holds_bounds hpl.1
  · obtain ⟨b, h1, h2⟩ := h.pushBackTarget_ok k
    obtain ⟨r, _, _, _, h3, _⟩ := h.pushBack v k
    exact ⟨b, r, h1, h2, h3⟩
  · obtain ⟨b, h1, h2⟩ := h.pushFrontTarget_ok k
    obtain ⟨r, _, _, _, h3, _⟩ := h.pushFront v k
    exact ⟨b, r, h1, h2, h3⟩

set_option maxRecDepth 100000 in
/-- C14 at the four-block deque `sampleWide`. -/
theorem c14_segment_bounds_witness :
    (∀ p b, sampleWide.blk p = some b →
      b.size_ ≤ 128 ∧
        (b.size_ ≠ 0 → 0 ≤ b.first_elem_ ∧ b.first_elem_ ≤ b.last_elem_ ∧
          b.last_elem_ ≤ 127 ∧ b.last_elem_ - b.first_elem_ + 1 = b.size_)) ∧
    (∃ b r, Deque.pushBackTarget 2 sampleWide = some b ∧ b.CanPushBack = true ∧
      Deque.PushBack 2 sampleWide 5 = some r) ∧
    (∃ b r, Deque.pushFrontTarget 2 sampleWide = some b ∧ b.CanPushFront = true ∧
      Deque.PushFront 2 sampleWide 5 = some r) :=
  c14_segment_bounds sampleWide sampleWide_reachable 5 2 (by decide)

/-- `Deque::operator[]` is `Block::Get` at the block and offset given by
`Deque.locate`. -/
theorem index_eq_locate {T : Type} (d : Deque T) (ind : Nat) :
    d.index ind =
      (d.locate ind).bind (fun pk => (d.blk pk.1).bind (fun b => b.Get pk.2)) := by
  unfold Deque.index Deque.locate
  cases hfb : d.blk d.first_elem_ with
  | none => rfl
  | some fb =>
    simp only
    by_cases c1 : fb.size_ ≥ ind + 1
    · simp only [c1, if_true, Option.some_bind, hfb]
    · simp only [c1, if_false]
      cases hlb : d.blk d.last_elem_ with
      | none => rfl
      | some lb =>
        simp only
        by_cases c2 : sub64 d.size_ lb.size_ < ind + 1
        · simp only [c2, if_true, Option.some_bind, hlb]
        · simp only [c2, if_false]
          by_cases c3 : d.block_cnt_ = 0
          · simp only [c3, if_true, Option.none_bind]
          · simp only [c3, if_false, Option.some_bind]
            cases d.blk ((d.first_elem_ + 1 + (ind - fb.size_) / block_size_) % d.block_cnt_) <;>
              rfl

/-- Under the invariant `operator[]` resolves every index below `Size()` to an
active block and an offset below that block's element count; in its third
branch the block lies strictly between the head block and the tail block. -/
theorem Deque.Rep.locate_spec {T : Type} {d : Deque T} {bs : List (Block T)}
    {seg : Nat → List T} {n : Nat} (h : d.Rep bs seg n) (i : Nat) (hi : i < d.size_) :
    ∃ j k b, j < n ∧ d.locate i = some ((d.first_elem_ + j) % d.block_cnt_, k) ∧
      d.blk ((d.first_elem_ + j) % d.block_cnt_) = some b ∧ Placed n j b (seg j) ∧
      k < (seg j).length ∧ (d.thirdCase i = true → 0 < j ∧ j + 1 < n) := by
  obtain ⟨fb, hfb, hfp⟩ := h.head
  obtain ⟨lb, hlb, hlp⟩ := h.tail
  have hnpos := h.n_pos
  have hnle := h.n_le
  have hsz := h.size_eq
  have hfl := h.first_lt
  obtain ⟨m, rfl⟩ : ∃ m, n = m + 1 := ⟨n - 1, by omega⟩
  simp only [Nat.add_sub_cancel] at hlp
  have hfs := holds_size hfp.1
  have hls := holds_size hlp.1
  have hflat1 : flat seg (m + 1) = seg 0 ++ flat (fun j => seg (j + 1)) m := flat_shift seg m
  have hflat2 : flat seg (m + 1) = flat seg m ++ seg m := rfl
  have hsz2 : d.size_ = (flat seg m).length + (seg m).length := by
    rw [hsz, hflat2, List.length_append]
  have hsub : sub64 d.size_ lb.size_ = (flat seg m).length := by
    unfold sub64
    rw [if_pos (by omega)]
    omega
  by_cases c1 : fb.size_ ≥ i + 1
  · refine ⟨0, i, fb, by omega, ?_, ?_, hfp, by omega, ?_⟩
    · simp only [Deque.locate, hfb, c1, if_true, Nat.add_zero, Nat.mod_eq_of_lt hfl]
    · simp only [Nat.add_zero, Nat.mod_eq_of_lt hfl, hfb]
    · intro ht
      simp [Deque.thirdCase, hfb, hlb, c1] at ht
  · by_cases c2 : (flat seg m).length < i + 1
    · have hle : d.last_elem_ = (d.first_elem_ + m) % d.block_cnt_ := by
        rw [h.last_eq]; rfl
      refine ⟨m, i - (flat seg m).length, lb, by omega, ?_, ?_, hlp, by omega, ?_⟩
      · rw [← hle]
        simp only [Deque.locate, hfb, c1, if_false, hlb, hsub, c2, if_true]
      · rw [← hle, hlb]
      · intro ht
        simp [Deque.thirdCase, hfb, hlb, c1, hsub, c2] at ht
    · have hc0 : d.block_cnt_ ≠ 0 := by omega
      cases m with
      | zero => simp [flat] at c2
      | succ k =>
        have hmid : ∀ j, j < k → (seg (j + 1)).length = 128 := by
          intro j hj
          obtain ⟨b, _, hp⟩ := h.at (j + 1) (by omega)
          exact hp.2.2.2 (by omega) (by omega)
        have hflat3 : flat seg (k + 1) = seg 0 ++ flat (fun j => seg (j + 1)) k :=
          flat_shift seg k
        have hlen3 := flat_full_length (fun j => seg (j + 1)) k hmid
        have hlen4 : (flat seg (k + 1)).length = (seg 0).length + 128 * k := by
          rw [hflat3, List.length_append, hlen3]
        have hq : (i - fb.size_) / 128 < k := by omega
        obtain ⟨b, hb, hp⟩ := h.at (1 + (i - fb.size_) / 128) (by omega)
        have hidx : (d.first_elem_ + 1 + (i - fb.size_) / 128) % d.block_cnt_ =
            (d.first_elem_ + (1 + (i - fb.size_) / 128)) % d.block_cnt_ := by
          congr 1; omega
        have hl := hp.2.2.2 (by omega) (by omega)
        have hmodlt : (i - fb.size_) % 128 < 128 := Nat.mod_lt _ (by omega)
        refine ⟨1 + (i - fb.size_) / 128, (i - fb.size_) % 128, b, by omega, ?_, ?_, hp,
          by omega, fun _ => ⟨by omega, by omega⟩⟩
        · simp only [Deque.locate, hfb, c1, if_false, hlb, hsub, c2, hc0, block_size_, hidx]
        · rw [h.blk_eq]; exact hb

/-- C15. Index safety: for a reachable deque and every `ind < Size()`,
`operator[]` resolves `ind` to a block on the walk from the head block to the
tail block and to an offset below that block's `size_`, so the slot read lies
inside the 128 slots and holds an element; the read is defined. -/
theorem c15_index_safety {T : Type} (d : Deque T) (hr : Reachable d) (ind : Nat)
    (hi : ind < d.Size) :
    ∃ p k b v, d.locate ind = some (p, k) ∧ p ∈ d.walk ∧ p < d.block_cnt_ ∧
      d.blk p = some b ∧ k < b.size_ ∧
      0 ≤ b.first_elem_ + (k : Int) ∧ b.first_elem_ + (k : Int) ≤ 127 ∧
      b.first_elem_ + (k : Int) ≤ b.last_elem_ ∧
      b.Get k = some v ∧ d.index ind = some v := by
  obtain ⟨l, bs, seg, n, h, hl⟩ := hr.models
  obtain ⟨j, k, b, hj, hloc, hb, hp, hk, _⟩ := h.locate_spec ind hi
  have hne : seg j ≠ [] := by
    intro e; rw [e] at hk; simp at hk
  obtain ⟨h0, h127, hlen⟩ := hp.1.2.2.1 hne
  have hget := hp.1.2.2.2 k hk
  rw [List.getElem?_eq_getElem hk] at hget
  have hc0 : 0 < d.block_cnt_ := by have := h.first_lt; omega
  refine ⟨_, k, b, (seg j)[k], hloc, (h.mem_walk _).mpr ⟨j, hj, rfl⟩, Nat.mod_lt _ hc0, hb, ?_,
    by omega, by omega, by omega, hget, ?_⟩
  · rw [holds_size hp.1]; exact hk
  · rw [index_eq_locate, hloc, Option.some_bind, hb, Option.some_bind]
    exact hget

set_option maxRecDepth 100000 in
/-- C15 at the four-block deque `sampleWide`, index 129 (the last element). -/
theorem c15_index_safety_witness :
    ∃ p k b v, sampleWide.locate 129 = some (p, k) ∧ p ∈ sampleWide.walk ∧
      p < sampleWide.block_cnt_ ∧ sampleWide.blk p = some b ∧ k < b.size_ ∧
      0 ≤ b.first_elem_ + (k : Int) ∧ b.first_elem_ + (k : Int) ≤ 127 ∧
      b.first_elem_ + (k : Int) ≤ b.last_elem_ ∧
      b.Get k = some v ∧ sampleWide.index 129 = some v :=
  c15_index_safety sampleWide sampleWide_reachable 129 (by decide)

/-! ## Single retry and the postcondition of `Extend` -/

theorem pushBackExtends_zero {T : Type} (d : Deque T) (f : Nat)
    (h : d.block_cnt_ ≠ 0 → (d.last_elem_ + 1) % d.block_cnt_ ≠ d.first_elem_) :
    Deque.pushBackExtends f d = 0 := by
  cases f with
  | zero => rfl
  | succ f =>
    unfold Deque.pushBackExtends
    cases d.blk d.last_elem_ with
    | none => rfl
    | some last =>
      simp only
      by_cases hc : last.CanPushBack = true
      · simp only [hc, not_true_eq_false, if_false]
      · by_cases h0 : d.block_cnt_ = 0
        · simp [hc, h0]
        · simp [hc, h0, h h0]

theorem pushFrontExtends_zero {T : Type} (d : Deque T) (f : Nat)
    (h : d.block_cnt_ ≠ 0 →
      (d.first_elem_ + d.block_cnt_ - 1) % d.block_cnt_ ≠ d.last_elem_) :
    Deque.pushFrontExtends f d = 0 := by
  cases f with
  | zero => rfl
  | succ f =>
    unfold Deque.pushFrontExtends
    cases d.blk d.first_elem_ with
    | none => rfl
    | some first =>
      simp only
      by_cases hc : first.CanPushFront = true
      · simp only [hc, not_true_eq_false, if_false]
      · by_cases h0 : d.block_cnt_ = 0
        · simp [hc, h0]
        · simp [hc, h0, h h0]

/-- One call of `PushBack` calls `Extend` at most once, in every state. -/
theorem pushBackExtends_le_one {T : Type} (d : Deque T) (f : Nat) :
    Deque.pushBackExtends f d ≤ 1 := by
  cases f with
  | zero => exact Nat.zero_le _
  | succ f =>
    unfold Deque.pushBackExtends
    cases d.blk d.last_elem_ with
    | none => exact Nat.zero_le _
    | some last =>
      simp only
      split
      · split
        · exact Nat.zero_le _
        · split
          · cases he : d.Extend with
            | none => exact le_refl _
            | some d1 =>
              simp only
              rw [pushBackExtends_zero d1 f (fun _ => (Extend_next_ne d d1 he).2)]
          · exact Nat.zero_le _
      · exact Nat.zero_le _

/-- One call of `PushFront` calls `Extend` at most once, in every state. -/
theorem pushFrontExtends_le_one {T : Type} (d : Deque T) (f : Nat) :
    Deque.pushFrontExtends f d ≤ 1 := by
  cases f with
  | zero => exact Nat.zero_le _
  | succ f =>
    unfold Deque.pushFrontExtends
    cases d.blk d.first_elem_ with
    | none => exact Nat.zero_le _
    | some first =>
      simp only
      split
      · split
        · exact Nat.zero_le _
        · split
          · cases he : d.Extend with
            | none => exact le_refl _
            | some d1 =>
              simp only
              rw [pushFrontExtends_zero d1 f (fun _ => (Extend_prev_ne d d1 he).2)]
          · exact Nat.zero_le _
      · exact Nat.zero_le _

/-- C16. Single retry: on every reachable deque and for every value, `PushBack`
and `PushFront` return with recursion depth at most two (one retry), whatever
larger depth is allowed; one call makes at most one call of `Extend`; and in the
state right after `Extend()` the block after the tail is not the head block and
the block before the head is not the tail block, so the retried push calls
`Extend` zero times. -/
theorem c16_single_retry {T : Type} (d : Deque T) (hr : Reachable d) (v : T) :
    (∃ r, Deque.PushBack 2 d v = some r ∧ ∀ f, Deque.PushBack (f + 2) d v = some r) ∧
    (∃ r, Deque.PushFront 2 d v = some r ∧ ∀ f, Deque.PushFront (f + 2) d v = some r) ∧
    (∀ f, Deque.pushBackExtends f d ≤ 1 ∧ Deque.pushFrontExtends f d ≤ 1) ∧
    (∀ d1, d.Extend = some d1 →
      d1.block_cnt_ ≠ 0 ∧
      (d1.last_elem_ + 1) % d1.block_cnt_ ≠ d1.first_elem_ ∧
      (d1.first_elem_ + d1.block_cnt_ - 1) % d1.block_cnt_ ≠ d1.last_elem_ ∧
      ∀ f, Deque.pushBackExtends f d1 = 0 ∧ Deque.pushFrontExtends f d1 = 0 ∧
        Deque.PushBack (f + 1) d1 v = Deque.PushBack 1 d1 v ∧
        Deque.PushFront (f + 1) d1 v = Deque.PushFront 1 d1 v) := by
  obtain ⟨l, bs, seg, n, h, hl⟩ := hr.models
  refine ⟨?_, ?_, fun f => ⟨pushBackExtends_le_one d f, pushFrontExtends_le_one d f⟩, ?_⟩
  · obtain ⟨r, _, _, _, h3, _⟩ := h.pushBack v 0
    exact ⟨r, h3, fun f => by rw [PushBack_fuel_irrelevant]; exact h3⟩
  · obtain ⟨r, _, _, _, h3, _⟩ := h.pushFront v 0
    exact ⟨r, h3, fun f => by rw [PushFront_fuel_irrelevant]; exact h3⟩
  · intro d1 he
    have hn := Extend_next_ne d d1 he
    have hp := Extend_prev_ne d d1 he
    exact ⟨hn.1, hn.2, hp.2, fun f =>
      ⟨pushBackExtends_zero d1 f (fun _ => hn.2), pushFrontExtends_zero d1 f (fun _ => hp.2),
        PushBack_no_retry d1 v f 0 (fun _ => hn.2),
        PushFront_no_retry d1 v f 0 (fun _ => hp.2)⟩⟩

set_option maxRecDepth 100000 in
/-- C16 at `sampleBack`, whose only block is full at the back, so that `PushBack`
calls `Extend`. -/
theorem c16_single_retry_witness :
    (∃ r, Deque.PushBack 2 sampleBack 5 = some r ∧
      ∀ f, Deque.PushBack (f + 2) sampleBack 5 = some r) ∧
    (∃ r, Deque.PushFront 2 sampleBack 5 = some r ∧
      ∀ f, Deque.PushFront (f + 2) sampleBack 5 = some r) ∧
    (∀ f, Deque.pushBackExtends f sampleBack ≤ 1 ∧ Deque.pushFrontExtends f sampleBack ≤ 1) ∧
    (∀ d1, sampleBack.Extend = some d1 →
      d1.block_cnt_ ≠ 0 ∧
      (d1.last_elem_ + 1) % d1.block_cnt_ ≠ d1.first_elem_ ∧
      (d1.first_elem_ + d1.block_cnt_ - 1) % d1.block_cnt_ ≠ d1.last_elem_ ∧
      ∀ f, Deque.pushBackExtends f d1 = 0 ∧ Deque.pushFrontExtends f d1 = 0 ∧
        Deque.PushBack (f + 1) d1 5 = Deque.PushBack 1 d1 5 ∧
        Deque.PushFront (f + 1) d1 5 = Deque.PushFront 1 d1 5) :=
  c16_single_retry sampleBack
    (Reachable.pushFront 2 Deque.new sampleBack 1 Reachable.ctor (by rfl)) 5

/-- C17. Postcondition of `Extend()`: on a deque whose block array has
`block_cnt_ = c ≥ 1` blocks and whose head index is `h`, `Extend()` returns a
state with block count `2c`, head index 0, tail index `c - 1` and the same
`size_`, whose block `i` is the old block `(h + i) mod c` for every `i < c` and
whose blocks `c .. 2c-1` are freshly constructed, empty blocks. -/
theorem c17_extend_postcondition {T : Type} (d : Deque T) (bs : List (Block T))
    (hcont : d.content_ = some bs) (hlen : bs.length = d.block_cnt_)
    (hc : 1 ≤ d.block_cnt_) :
    ∃ d1 bs1, d.Extend = some d1 ∧ d1.content_ = some bs1 ∧
      bs1.length = 2 * d.block_cnt_ ∧
      d1.block_cnt_ = 2 * d.block_cnt_ ∧ d1.first_elem_ = 0 ∧
      d1.last_elem_ = d.block_cnt_ - 1 ∧ d1.size_ = d.size_ ∧
      (∀ i, i < d.block_cnt_ →
        ∃ b, d.blk ((d.first_elem_ + i) % d.block_cnt_) = some b ∧ d1.blk i = some b) ∧
      (∀ i, d.block_cnt_ ≤ i → i < 2 * d.block_cnt_ →
        ∃ b, d1.blk i = some b ∧ b = Block.new ∧ b.size_ = 0) := by
  obtain ⟨bs1, he, hl1, hlo, hhi⟩ := Extend_spec d bs hcont hlen hc
  refine ⟨_, bs1, he, rfl, by omega, by dsimp only; omega, rfl, rfl, rfl, ?_, ?_⟩
  · intro i hi
    have hlt : (d.first_elem_ + i) % d.block_cnt_ < bs.length := by
      rw [hlen]; exact Nat.mod_lt _ hc
    refine ⟨bs[(d.first_elem_ + i) % d.block_cnt_], ?_, ?_⟩
    · simp only [Deque.blk, hcont, List.getElem?_eq_getElem hlt]
    · simp only [Deque.blk]
      rw [hlo i hi, List.getElem?_eq_getElem hlt]
  · intro i h1 h2
    exact ⟨Block.new, by simp only [Deque.blk]; exact hhi i h1 (by omega), rfl, rfl⟩

set_option maxRecDepth 100000 in
/-- C17 at the four-block deque `sampleWide`. -/
theorem c17_extend_postcondition_witness :
    ∃ d1 bs1, sampleWide.Extend = some d1 ∧ d1.content_ = some bs1 ∧
      bs1.length = 2 * sampleWide.block_cnt_ ∧
      d1.block_cnt_ = 2 * sampleWide.block_cnt_ ∧ d1.first_elem_ = 0 ∧
      d1.last_elem_ = sampleWide.block_cnt_ - 1 ∧ d1.size_ = sampleWide.size_ ∧
      (∀ i, i < sampleWide.block_cnt_ →
        ∃ b, sampleWide.blk ((sampleWide.first_elem_ + i) % sampleWide.block_cnt_) = some b ∧
          d1.blk i = some b) ∧
      (∀ i, sampleWide.block_cnt_ ≤ i → i < 2 * sampleWide.block_cnt_ →
        ∃ b, d1.blk i = some b ∧ b = Block.new ∧ b.size_ = 0) :=
  c17_extend_postcondition sampleWide _ rfl (by decide) (by decide)

/-! ## The block count -/

/-- Under the invariant `PushBack` keeps the block count or doubles it. -/
theorem Deque.Rep.pushBack_cnt {T : Type} {d : Deque T} {bs : List (Block T)}
    {seg : Nat → List T} {n : Nat} (h : d.Rep bs seg n) (v : T) (fuel : Nat) :
    ∃ r, Deque.PushBack (fuel + 2) d v = some r ∧
      (r.block_cnt_ = d.block_cnt_ ∨ r.block_cnt_ = 2 * d.block_cnt_) := by
  obtain ⟨lb, hlb, _⟩ := h.tail
  cases hc : lb.CanPushBack with
  | true =>
    obtain ⟨d1, _, _, h1, _, _, h4⟩ := h.pushBack_here lb hlb hc v (fuel + 1)
    exact ⟨d1, h1, Or.inl h4⟩
  | false =>
    by_cases hnext : (d.last_elem_ + 1) % d.block_cnt_ = d.first_elem_
    · obtain ⟨d1, _, _, h1, _, _, h4⟩ := h.pushBack_extend lb hlb hc hnext v fuel
      exact ⟨d1, h1, Or.inr (by omega)⟩
    · obtain ⟨d1, _, _, h1, _, _, h4⟩ := h.pushBack_next lb hlb hc hnext v (fuel + 1)
      exact ⟨d1, h1, Or.inl h4⟩

/-- Under the invariant `PushFront` keeps the block count or doubles it. -/
theorem Deque.Rep.pushFront_cnt {T : Type} {d : Deque T} {bs : List (Block T)}
    {seg : Nat → List T} {n : Nat} (h : d.Rep bs seg n) (v : T) (fuel : Nat) :
    ∃ r, Deque.PushFront (fuel + 2) d v = some r ∧
      (r.block_cnt_ = d.block_cnt_ ∨ r.block_cnt_ = 2 * d.block_cnt_) := by
  obtain ⟨fb, hfb, _⟩ := h.head
  cases hc : fb.CanPushFront with
  | true =>
    obtain ⟨d1, _, _, h1, _, _, h4⟩ := h.pushFront_here fb hfb hc v (fuel + 1)
    exact ⟨d1, h1, Or.inl h4⟩
  | false =>
    by_cases hprev : (d.first_elem_ + d.block_cnt_ - 1) % d.block_cnt_ = d.last_elem_
    · obtain ⟨d1, _, _, h1, _, _, h4⟩ := h.pushFront_extend fb hfb hc hprev v fuel
      exact ⟨d1, h1, Or.inr (by omega)⟩
    · obtain ⟨d1, _, _, h1, _, _, h4⟩ := h.pushFront_next fb hfb hc hprev v (fuel + 1)
      exact ⟨d1, h1, Or.inl h4⟩

set_option maxRecDepth 100000 in
/-- C18, counterexample.  A deque built by `Deque(1000)` has 7 blocks; after
`Swap` with, copy assignment from, or move assignment from a default-constructed
deque it has 1 block: the block count is neither unchanged nor doubled, it has
decreased. -/
theorem c18_assignment_lowers_block_count :
    Reachable (Deque.withSize 1000 : Deque Int) ∧ Reachable (Deque.new : Deque Int) ∧
    (Deque.withSize 1000 : Deque Int).block_cnt_ = 7 ∧
    ((Deque.withSize 1000 : Deque Int).Swap Deque.new).1.block_cnt_ = 1 ∧
    (∃ r, (Deque.withSize 1000 : Deque Int).copyAssign Deque.new = some r ∧
      r.block_cnt_ = 1) ∧
    ((Deque.withSize 1000 : Deque Int).moveAssign Deque.new).1.block_cnt_ = 1 ∧
    ¬ (∀ a b : Deque Int, Reachable a → Reachable b →
        (a.Swap b).1.block_cnt_ = a.block_cnt_ ∨
          (a.Swap b).1.block_cnt_ = 2 * a.block_cnt_) ∧
    ¬ (∀ a b : Deque Int, Reachable a → Reachable b →
        a.block_cnt_ ≤ (a.Swap b).1.block_cnt_) := by
  refine ⟨Reachable.ctorSize 1000, Reachable.ctor, by decide, by decide, ⟨_, rfl, rfl⟩,
    by decide, ?_, ?_⟩
  · intro hall
    have := hall (Deque.withSize 1000) Deque.new (Reachable.ctorSize 1000) Reachable.ctor
    revert this
    decide
  · intro hall
    have := hall (Deque.withSize 1000) Deque.new (Reachable.ctorSize 1000) Reachable.ctor
    revert this
    decide

/-- C18, amended.  In every reachable deque state the block count is at least 1;
`PushBack` and `PushFront` leave it unchanged or exactly double it; `PopBack`,
`PopFront`, `Clear`, copy construction and move construction leave it unchanged
(also in the moved-from object); `Swap`, copy assignment and move assignment
give the deque the block count of the other operand. -/
theorem c18_block_count {T : Type} (d o : Deque T) (hr : Reachable d) (ho : Reachable o)
    (v : T) (fuel : Nat) (hf : 2 ≤ fuel) :
    1 ≤ d.block_cnt_ ∧
    (∃ r, Deque.PushBack fuel d v = some r ∧
      (r.block_cnt_ = d.block_cnt_ ∨ r.block_cnt_ = 2 * d.block_cnt_)) ∧
    (∃ r, Deque.PushFront fuel d v = some r ∧
      (r.block_cnt_ = d.block_cnt_ ∨ r.block_cnt_ = 2 * d.block_cnt_)) ∧
    (d.Size ≠ 0 → ∃ r, d.PopBack = some r ∧ r.block_cnt_ = d.block_cnt_) ∧
    (d.Size ≠ 0 → ∃ r, d.PopFront = some r ∧ r.block_cnt_ = d.block_cnt_) ∧
    (∃ r, d.Clear = some r ∧ r.block_cnt_ = d.block_cnt_) ∧
    (∃ r, d.copyCtor = some r ∧ r.block_cnt_ = d.block_cnt_) ∧
    (d.moveCtor.1.block_cnt_ = d.block_cnt_ ∧ d.moveCtor.2.block_cnt_ = d.block_cnt_) ∧
    ((d.Swap o).1.block_cnt_ = o.block_cnt_ ∧ (d.Swap o).2.block_cnt_ = d.block_cnt_) ∧
    (∃ r, d.copyAssign o = some r ∧ r.block_cnt_ = o.block_cnt_) ∧
    ((d.moveAssign o).1.block_cnt_ = o.block_cnt_ ∧
      (d.moveAssign o).2.block_cnt_ = o.block_cnt_) := by
  obtain ⟨l, bs, seg, n, h, hl⟩ := hr.models
  obtain ⟨lo, bso, sego, no, h2, hlo⟩ := ho.models
  obtain ⟨k, rfl⟩ : ∃ k, fuel = k + 2 := ⟨fuel - 2, by omega⟩
  refine ⟨?_, h.pushBack_cnt v k, h.pushFront_cnt v k, ?_, ?_, ?_, ⟨d, h.copy, rfl⟩,
    ⟨rfl, rfl⟩, ⟨rfl, rfl⟩, ⟨o, h2.copy, rfl⟩, ⟨rfl, rfl⟩⟩
  · have := h.first_lt; omega
  · intro hs
    obtain ⟨r, _, _, _, h1, _, _, h4⟩ := h.popBack hs
    exact ⟨r, h1, h4⟩
  · intro hs
    obtain ⟨r, _, _, _, h1, _, _, h4⟩ := h.popFront hs
    exact ⟨r, h1, h4⟩
  · obtain ⟨r, _, h1, _, h4, _⟩ := h.clear
    exact ⟨r, h1, h4⟩

set_option maxRecDepth 100000 in
/-- C18 (amended) at `sampleBack`, with a default-constructed other operand. -/
theorem c18_block_count_witness :
    1 ≤ sampleBack.block_cnt_ ∧
    (∃ r, Deque.PushBack 2 sampleBack 5 = some r ∧
      (r.block_cnt_ = sampleBack.block_cnt_ ∨ r.block_cnt_ = 2 * sampleBack.block_cnt_)) ∧
    (∃ r, Deque.PushFront 2 sampleBack 5 = some r ∧
      (r.block_cnt_ = sampleBack.block_cnt_ ∨ r.block_cnt_ = 2 * sampleBack.block_cnt_)) ∧
    (sampleBack.Size ≠ 0 → ∃ r, sampleBack.PopBack = some r ∧
      r.block_cnt_ = sampleBack.block_cnt_) ∧
    (sampleBack.Size ≠ 0 → ∃ r, sampleBack.PopFront = some r ∧
      r.block_cnt_ = sampleBack.block_cnt_) ∧
    (∃ r, sampleBack.Clear = some r ∧ r.block_cnt_ = sampleBack.block_cnt_) ∧
    (∃ r, sampleBack.copyCtor = some r ∧ r.block_cnt_ = sampleBack.block_cnt_) ∧
    (sampleBack.moveCtor.1.block_cnt_ = sampleBack.block_cnt_ ∧
      sampleBack.moveCtor.2.block_cnt_ = sampleBack.block_cnt_) ∧
    ((sampleBack.Swap Deque.new).1.block_cnt_ = (Deque.new : Deque Int).block_cnt_ ∧
      (sampleBack.Swap Deque.new).2.block_cnt_ = sampleBack.block_cnt_) ∧
    (∃ r, sampleBack.copyAssign Deque.new = some r ∧
      r.block_cnt_ = (Deque.new : Deque Int).block_cnt_) ∧
    ((sampleBack.moveAssign Deque.new).1.block_cnt_ = (Deque.new : Deque Int).block_cnt_ ∧
      (sampleBack.moveAssign Deque.new).2.block_cnt_ =
        (Deque.new : Deque Int).block_cnt_) :=
  c18_block_count sampleBack Deque.new
    (Reachable.pushFront 2 Deque.new sampleBack 1 Reachable.ctor (by rfl)) Reachable.ctor
    5 2 (by decide)

/-! ## The third branch of `operator[]` -/

theorem Deque.Rep.mem_interior_of {T : Type} {d : Deque T} {bs : List (Block T)}
    {seg : Nat → List T} {n : Nat} (h : d.Rep bs seg n) (j : Nat) (h0 : 0 < j)
    (h1 : j + 1 < n) : (d.first_elem_ + j) % d.block_cnt_ ∈ d.interior := by
  unfold Deque.interior
  refine List.mem_iff_getElem?.mpr ⟨j - 1, ?_⟩
  have hlt : j - 1 < d.walk.tail.length - 1 := by
    simp only [List.length_tail, h.walk_eq, List.length_map, List.length_range]
    omega
  rw [List.getElem?_dropLast, if_pos hlt, List.getElem?_tail, h.walk_eq, List.getElem?_map,
    List.getElem?_range (by omega)]
  simp only [Option.map_some', Option.some.injEq]
  congr 2
  omega

set_option maxRecDepth 100000 in
/-- C19, counterexample.  In `sampleWide` (head block 0 with one element, block 1
full, tail block 2) index 1 falls in the third branch of `operator[]`; the block
read is block 1 at offset 0, which yields the element `7`, whereas ring position
`(head_index + (1 - 1) / 128) mod 4` is block 0, the head block, whose offset 0
holds the element `1`. -/
theorem c19_third_case_reads_next_block :
    Reachable sampleWide ∧ sampleWide.thirdCase 1 = true ∧
    (∃ fb, sampleWide.blk sampleWide.first_elem_ = some fb ∧ fb.size_ = 1 ∧
      (sampleWide.first_elem_ + (1 - fb.size_) / 128) % sampleWide.block_cnt_ = 0 ∧
      (1 - fb.size_) % 128 = 0 ∧ fb.Get 0 = some 1) ∧
    sampleWide.locate 1 = some (1, 0) ∧
    sampleWide.index 1 = some 7 := by
  refine ⟨sampleWide_reachable, by decide, ⟨_, rfl, by decide, by decide, by decide, by decide⟩,
    by decide, by decide⟩

/-- C19, amended.  In the third branch of `operator[]` on a reachable deque (the
index lies neither in the head block's range nor in the tail block's), the
block read is the one at ring position
`(head_index + 1 + (index - head_block_size) / 128) mod block_count`, a full block
strictly between the head block and the tail block whose elements start at slot
0, and the slot read in it is offset `(index - head_block_size) mod 128` from that
block's front; it holds the element `operator[]` returns. -/
theorem c19_third_case {T : Type} (d : Deque T) (hr : Reachable d) (ind : Nat)
    (ht : d.thirdCase ind = true) :
    ∃ fb b v, d.blk d.first_elem_ = some fb ∧ ind < d.Size ∧
      d.locate ind =
        some ((d.first_elem_ + 1 + (ind - fb.size_) / 128) % d.block_cnt_,
          (ind - fb.size_) % 128) ∧
      (d.first_elem_ + 1 + (ind - fb.size_) / 128) % d.block_cnt_ ∈ d.interior ∧
      d.blk ((d.first_elem_ + 1 + (ind - fb.size_) / 128) % d.block_cnt_) = some b ∧
      b.size_ = 128 ∧ b.first_elem_ = 0 ∧
      b.Get ((ind - fb.size_) % 128) = some v ∧
      Block.load b.content_ (b.first_elem_ + (((ind - fb.size_) % 128 : Nat) : Int)) = some v ∧
      d.index ind = some v := by
  obtain ⟨l, bs, seg, n, h, hl⟩ := hr.models
  obtain ⟨fb, hfb, hfp⟩ := h.head
  obtain ⟨lb, hlb, hlp⟩ := h.tail
  have hfl := h.first_lt
  have hc0 : d.block_cnt_ ≠ 0 := by omega
  have hnpos := h.n_pos
  simp only [Deque.thirdCase, hfb, hlb, Bool.and_eq_true, Bool.not_eq_true',
    decide_eq_false_iff_not] at ht
  obtain ⟨c1, c2⟩ := ht
  have hls := holds_size hlp.1
  have hsz : d.size_ = (flat seg (n - 1 + 1)).length := by
    rw [h.size_eq]; congr 2; omega
  have hsz2 : d.size_ = (flat seg (n - 1)).length + (seg (n - 1)).length := by
    rw [hsz]; simp only [flat, List.length_append]
  have hsub : sub64 d.size_ lb.size_ = d.size_ - lb.size_ := by
    unfold sub64
    rw [if_pos (by omega)]
  have hi : ind < d.size_ := by rw [hsub] at c2; omega
  have hloc : d.locate ind =
      some ((d.first_elem_ + 1 + (ind - fb.size_) / 128) % d.block_cnt_,
        (ind - fb.size_) % 128) := by
    simp only [Deque.locate, hfb, c1, if_false, hlb, c2, hc0, block_size_]
  have ht2 : d.thirdCase ind = true := by
    simp only [Deque.thirdCase, hfb, hlb, Bool.and_eq_true, Bool.not_eq_true',
      decide_eq_false_iff_not]
    exact ⟨c1, c2⟩
  obtain ⟨j, k, b, hj, hloc2, hb, hp, hk, hmid⟩ := h.locate_spec ind hi
  obtain ⟨hj0, hj1⟩ := hmid ht2
  rw [hloc] at hloc2
  have hpk := Option.some.inj hloc2
  have hp1 := congrArg Prod.fst hpk
  have hp2 := congrArg Prod.snd hpk
  simp only at hp1 hp2
  have hlen := hp.2.2.2 hj0 hj1
  have hne : seg j ≠ [] := by
    intro e; rw [e] at hlen; simp at hlen
  obtain ⟨h0, h127, hle⟩ := hp.1.2.2.1 hne
  have hget := hp.1.2.2.2 k hk
  rw [List.getElem?_eq_getElem hk] at hget
  have hbs : b.size_ = 128 := by rw [holds_size hp.1, hlen]
  have hbf : b.first_elem_ = 0 := by rw [hlen] at hle; push_cast at hle; omega
  refine ⟨fb, b, (seg j)[k], hfb, hi, hloc, ?_, ?_, hbs, hbf, ?_, ?_, ?_⟩
  · rw [hp1]
    exact h.mem_interior_of j hj0 hj1
  · rw [hp1]; exact hb
  · rw [hp2]; exact hget
  · rw [hp2]; exact hget
  · rw [index_eq_locate, hloc, hp1, Option.some_bind, hb, Option.some_bind, hp2]
    exact hget

set_option maxRecDepth 100000 in
/-- C19 (amended) at the four-block deque `sampleWide`, index 1. -/
theorem c19_third_case_witness :
    ∃ fb b v, sampleWide.blk sampleWide.first_elem_ = some fb ∧ 1 < sampleWide.Size ∧
      sampleWide.locate 1 =
        some ((sampleWide.first_elem_ + 1 + (1 - fb.size_) / 128) % sampleWide.block_cnt_,
          (1 - fb.size_) % 128) ∧
      (sampleWide.first_elem_ + 1 + (1 - fb.size_) / 128) % sampleWide.block_cnt_ ∈
        sampleWide.interior ∧
      sampleWide.blk
        ((sampleWide.first_elem_ + 1 + (1 - fb.size_) / 128) % sampleWide.block_cnt_) =
          some b ∧
      b.size_ = 128 ∧ b.first_elem_ = 0 ∧
      b.Get ((1 - fb.size_) % 128) = some v ∧
      Block.load b.content_ (b.first_elem_ + (((1 - fb.size_) % 128 : Nat) : Int)) = some v ∧
      sampleWide.index 1 = some v :=
  c19_third_case sampleWide sampleWide_reachable 1 (by decide)

/-! ## The active ends -/

/-- An empty deque under the invariant has a single active block. -/
theorem Deque.Rep.one_of_empty {T : Type} {d : Deque T} {bs : List (Block T)}
    {seg : Nat → List T} {n : Nat} (h : d.Rep bs seg n) (hs : d.size_ = 0) : n = 1 := by
  have hnpos := h.n_pos
  by_contra hn
  obtain ⟨fb, _, hfp⟩ := h.head
  have hne := (hfp.2.1 (by omega) rfl).1
  have hle := flat_ends_le seg n (by omega)
  have hsz := h.size_eq
  have : 0 < (seg 0).length := List.length_pos.mpr hne
  omega

/-- In a non-empty deque under the invariant the head block and the tail block
are non-empty. -/
theorem Deque.Rep.ends_ne {T : Type} {d : Deque T} {bs : List (Block T)}
    {seg : Nat → List T} {n : Nat} (h : d.Rep bs seg n) (hs : d.size_ ≠ 0) :
    ∃ fb lb, d.blk d.first_elem_ = some fb ∧ d.blk d.last_elem_ = some lb ∧
      fb.size_ ≠ 0 ∧ lb.size_ ≠ 0 := by
  obtain ⟨fb, hfb, hfp⟩ := h.head
  obtain ⟨lb, hlb, hlp⟩ := h.tail
  refine ⟨fb, lb, hfb, hlb, ?_, ?_⟩
  · rw [holds_size hfp.1]
    exact fun e => h.head_ne hs (List.length_eq_zero.mp e)
  · rw [holds_size hlp.1]
    exact fun e => h.tail_ne hs (List.length_eq_zero.mp e)

/-- C20. Active-end invariant: in every reachable deque state, if `Size() > 0`
then the head block and the tail block are both non-empty, and if `Size() == 0`
then the head index equals the tail index; a `PopBack` that empties the tail
block while the deque stays non-empty moves the tail index to
`(tail + block_count - 1) mod block_count`, a `PopFront` that empties the head
block moves the head index to `(head + 1) mod block_count`, and the block at the
new index is non-empty. -/
theorem c20_active_end {T : Type} (d : Deque T) (hr : Reachable d) :
    (d.Size ≠ 0 → ∃ fb lb, d.blk d.first_elem_ = some fb ∧ d.blk d.last_elem_ = some lb ∧
      fb.size_ ≠ 0 ∧ lb.size_ ≠ 0) ∧
    (d.Size = 0 → d.first_elem_ = d.last_elem_) ∧
    (∀ lb, d.blk d.last_elem_ = some lb → lb.PopBack.IsEmpty = true → 1 < d.Size →
      ∃ r nb, d.PopBack = some r ∧ r.Size = d.Size - 1 ∧
        r.last_elem_ = (d.last_elem_ + d.block_cnt_ - 1) % d.block_cnt_ ∧
        r.first_elem_ = d.first_elem_ ∧
        r.blk r.last_elem_ = some nb ∧ nb.size_ ≠ 0) ∧
    (∀ fb, d.blk d.first_elem_ = some fb → fb.PopFront.IsEmpty = true → 1 < d.Size →
      ∃ r nb, d.PopFront = some r ∧ r.Size = d.Size - 1 ∧
        r.first_elem_ = (d.first_elem_ + 1) % d.block_cnt_ ∧
        r.last_elem_ = d.last_elem_ ∧
        r.blk r.first_elem_ = some nb ∧ nb.size_ ≠ 0) := by
  obtain ⟨l, bs, seg, n, h, hl⟩ := hr.models
  have hfl := h.first_lt
  have hc0 : d.block_cnt_ ≠ 0 := by omega
  refine ⟨fun hs => h.ends_ne hs, ?_, ?_, ?_⟩
  · intro hs
    have hn := h.one_of_empty hs
    rw [h.last_eq, hn, Nat.sub_self, Nat.add_zero, Nat.mod_eq_of_lt hfl]
  · intro lb hlb hemp hsz
    have hsz1 : 1 < d.size_ := hsz
    have hs : d.size_ ≠ 0 := by omega
    obtain ⟨r, bs1, seg1, n1, hpop, hrep, _, _⟩ := h.popBack hs
    have hlt : d.last_elem_ < bs.length := by rw [h.len]; exact h.last_lt
    have hdec : decr d.size_ = d.size_ - 1 := by unfold decr; rw [if_neg hs]
    have hpos : decr d.size_ > 0 := by rw [hdec]; omega
    have hr1 : r = { d with content_ := some (bs.set d.last_elem_ lb.PopBack),
                            size_ := decr d.size_,
                            last_elem_ := (d.last_elem_ + d.block_cnt_ - 1) % d.block_cnt_ } := by
      have e := hpop
      simp only [Deque.PopBack, hlb, setBlk_eq d bs d.last_elem_ lb.PopBack h.content hlt, hemp,
        if_true, hpos, hc0, if_false] at e
      exact (Option.some.inj e).symm
    have hrs : r.size_ ≠ 0 := by rw [hr1]; dsimp only; omega
    obtain ⟨_, nb, _, hnb, _, hnz⟩ := hrep.ends_ne hrs
    refine ⟨r, nb, hpop, ?_, ?_, ?_, hnb, hnz⟩
    · rw [hr1]; exact hdec
    · rw [hr1]
    · rw [hr1]
  · intro fb hfb hemp hsz
    have hsz1 : 1 < d.size_ := hsz
    have hs : d.size_ ≠ 0 := by omega
    obtain ⟨r, bs1, seg1, n1, hpop, hrep, _, _⟩ := h.popFront hs
    have hlt : d.first_elem_ < bs.length := by rw [h.len]; exact hfl
    have hdec : decr d.size_ = d.size_ - 1 := by unfold decr; rw [if_neg hs]
    have hpos : decr d.size_ > 0 := by rw [hdec]; omega
    have hr1 : r = { d with content_ := some (bs.set d.first_elem_ fb.PopFront),
                            size_ := decr d.size_,
                            first_elem_ := (d.first_elem_ + 1) % d.block_cnt_ } := by
      have e := hpop
      simp only [Deque.PopFront, hfb, setBlk_eq d bs d.first_elem_ fb.PopFront h.content hlt,
        hemp, if_true, hpos, hc0, if_false] at e
      exact (Option.some.inj e).symm
    have hrs : r.size_ ≠ 0 := by rw [hr1]; dsimp only; omega
    obtain ⟨nb, _, hnb, _, hnz, _⟩ := hrep.ends_ne hrs
    refine ⟨r, nb, hpop, ?_, ?_, ?_, hnb, hnz⟩
    · rw [hr1]; exact hdec
    · rw [hr1]
    · rw [hr1]

set_option maxRecDepth 100000 in
/-- C20 at the four-block deque `sampleWide`, whose head block and tail block
hold one element each. -/
theorem c20_active_end_witness :
    (sampleWide.Size ≠ 0 → ∃ fb lb, sampleWide.blk sampleWide.first_elem_ = some fb ∧
      sampleWide.blk sampleWide.last_elem_ = some lb ∧ fb.size_ ≠ 0 ∧ lb.size_ ≠ 0) ∧
    (sampleWide.Size = 0 → sampleWide.first_elem_ = sampleWide.last_elem_) ∧
    (∀ lb, sampleWide.blk sampleWide.last_elem_ = some lb → lb.PopBack.IsEmpty = true →
      1 < sampleWide.Size →
      ∃ r nb, sampleWide.PopBack = some r ∧ r.Size = sampleWide.Size - 1 ∧
        r.last_elem_ =
          (sampleWide.last_elem_ + sampleWide.block_cnt_ - 1) % sampleWide.block_cnt_ ∧
        r.first_elem_ = sampleWide.first_elem_ ∧
        r.blk r.last_elem_ = some nb ∧ nb.size_ ≠ 0) ∧
    (∀ fb, sampleWide.blk sampleWide.first_elem_ = some fb → fb.PopFront.IsEmpty = true →
      1 < sampleWide.Size →
      ∃ r nb, sampleWide.PopFront = some r ∧ r.Size = sampleWide.Size - 1 ∧
        r.first_elem_ = (sampleWide.first_elem_ + 1) % sampleWide.block_cnt_ ∧
        r.last_elem_ = sampleWide.last_elem_ ∧
        r.blk r.first_elem_ = some nb ∧ nb.size_ ≠ 0) :=
  c20_active_end sampleWide sampleWide_reachable

namespace Heap

/-! ## Reading a heap object that holds a value -/

theorem Block.Reps.get {T : Type} {m : Mem T} {hb : Block} {vb : BlockDeque.Block T}
    (h : hb.Reps m vb) (k : Nat) : hb.Get m k = vb.Get k := by
  obtain ⟨_, _, h3, _, h5, _⟩ := h
  simp only [Block.Get, Mem.loadSlot, h3, BlockDeque.Block.Get, h5]

/-- The blocks of a heap object and of the value it holds correspond index by
index. -/
theorem Deque.Reps.blk {T : Type} {m : Mem T} {d : Deque} {dv : BlockDeque.Deque T}
    (h : d.Reps m dv) (a : Nat) (ha : d.content_ = some a) (i : Nat) :
    (m.getBlk a i = none ∧ dv.blk i = none) ∨
      ∃ hb vb, m.getBlk a i = some hb ∧ dv.blk i = some vb ∧ hb.Reps m vb := by
  obtain ⟨_, _, _, _, a1, hbs, vbs, h1, _, h3, h4, h5, h6, _⟩ := h
  rw [h1] at ha
  cases ha
  simp only [Mem.getBlk, h3, BlockDeque.Deque.blk, h4]
  by_cases hi : i < hbs.length
  · right
    have hi2 : i < vbs.length := by omega
    exact ⟨hbs[i], vbs[i], List.getElem?_eq_getElem hi, List.getElem?_eq_getElem hi2,
      h6 i _ _ (List.getElem?_eq_getElem hi) (List.getElem?_eq_getElem hi2)⟩
  · left
    exact ⟨List.getElem?_eq_none (by omega), List.getElem?_eq_none (by omega)⟩

/-- `operator[]` on a heap object reads what `operator[]` reads on the value it
holds. -/
theorem Deque.Reps.index_value {T : Type} {m : Mem T} {d : Deque} {dv : BlockDeque.Deque T}
    (h : d.Reps m dv) (ind : Nat) : Deque.index m d ind = dv.index ind := by
  have hh := h
  obtain ⟨e1, e2, e3, e4, a, hbs, vbs, h1, _, _, _, _, _, _⟩ := hh
  unfold Deque.index Deque.locate BlockDeque.Deque.index
  simp only [h1, e1, e2, e3, e4]
  rcases h.blk a h1 dv.first_elem_ with ⟨hn, vn⟩ | ⟨fb, vfb, hfb, hvfb, hrf⟩
  · simp only [hn, vn]
  · simp only [hfb, hvfb]
    have hfs : fb.size_ = vfb.size_ := hrf.2.2.2.1
    rw [hfs]
    by_cases c1 : vfb.size_ ≥ ind + 1
    · simp only [c1, if_true]
      exact hrf.get ind
    · simp only [c1, if_false]
      rcases h.blk a h1 dv.last_elem_ with ⟨hn, vn⟩ | ⟨lb, vlb, hlb, hvlb, hrl⟩
      · simp only [hn, vn]
      · simp only [hlb, hvlb]
        have hls : lb.size_ = vlb.size_ := hrl.2.2.2.1
        rw [hls]
        by_cases c2 : sub64 dv.size_ vlb.size_ < ind + 1
        · simp only [c2, if_true]
          exact hrl.get _
        · simp only [c2, if_false]
          by_cases c3 : dv.block_cnt_ = 0
          · simp only [c3, if_true]
          · simp only [c3, if_false]
            rcases h.blk a h1
                ((dv.first_elem_ + 1 + (ind - vfb.size_) / block_size_) % dv.block_cnt_)
              with ⟨hn, vn⟩ | ⟨b, vb, hb, hvb, hrb⟩
            · simp only [hn, vn]
            · simp only [hb, hvb]
              exact hrb.get _

end Heap

namespace Heap

/-! ## Allocation -/

/-- The block constructed by `Block::Block()` at buffer address `x`. -/
theorem newBlocks_spec {T : Type} (n : Nat) : ∀ (m : Mem T),
    (m.newBlocks n).1.narr = m.narr ∧ (m.newBlocks n).1.arrs = m.arrs ∧
      (m.newBlocks n).1.nbuf = m.nbuf + n ∧ (m.newBlocks n).2.length = n ∧
      (∀ i, i < n → (m.newBlocks n).2[i]? =
        some { size_ := 0, first_elem_ := BlockDeque.start_, last_elem_ := BlockDeque.start_,
               start_ := m.nbuf + i, content_ := some (m.nbuf + i) }) ∧
      (∀ x, x < m.nbuf → (m.newBlocks n).1.bufs x = m.bufs x) ∧
      (∀ i, i < n → (m.newBlocks n).1.bufs (m.nbuf + i) =
        some (List.replicate max_size_ none)) := by
  induction n with
  | zero =>
    intro m
    exact ⟨rfl, rfl, rfl, rfl, fun i hi => by omega, fun x _ => rfl, fun i hi => by omega⟩
  | succ k ih =>
    intro m
    obtain ⟨h1, h2, h3, h4, h5, h6, h7⟩ := ih (Block.new m).1
    have hnb : (Block.new m).1.nbuf = m.nbuf + 1 := rfl
    have hbufs : ∀ x, x ≠ m.nbuf → (Block.new m).1.bufs x = m.bufs x := by
      intro x hx
      simp only [Block.new, Mem.newBuf, Function.update_apply, hx, if_false]
    have hbuf0 : (Block.new m).1.bufs m.nbuf = some (List.replicate max_size_ none) := by
      simp only [Block.new, Mem.newBuf, Function.update_same]
    refine ⟨h1, h2, ?_, ?_, ?_, ?_, ?_⟩
    · show ((Block.new m).1.newBlocks k).1.nbuf = _
      rw [h3, hnb]; omega
    · show (_ :: ((Block.new m).1.newBlocks k).2).length = _
      rw [List.length_cons, h4]
    · intro i hi
      show (_ :: ((Block.new m).1.newBlocks k).2)[i]? = _
      cases i with
      | zero =>
        rw [List.getElem?_cons_zero, Nat.add_zero]
        rfl
      | succ j =>
        rw [List.getElem?_cons_succ, h5 j (by omega), hnb]
        have e : m.nbuf + 1 + j = m.nbuf + (j + 1) := by omega
        rw [e]
    · intro x hx
      show ((Block.new m).1.newBlocks k).1.bufs x = _
      rw [h6 x (by rw [hnb]; omega), hbufs x (by omega)]
    · intro i hi
      show ((Block.new m).1.newBlocks k).1.bufs (m.nbuf + i) = _
      cases i with
      | zero => rw [Nat.add_zero, h6 _ (by rw [hnb]; omega), hbuf0]
      | succ j =>
        have e : m.nbuf + (j + 1) = (Block.new m).1.nbuf + j := by rw [hnb]; omega
        rw [e, h7 j (by omega)]

/-- What `new Block<T>[n]` leaves in the heap. -/
theorem newArr_spec {T : Type} (m : Mem T) (n : Nat) :
    (m.newArr n).2 = m.narr ∧ (m.newArr n).1.narr = m.narr + 1 ∧
      (m.newArr n).1.nbuf = m.nbuf + n ∧
      (m.newArr n).1.arrs m.narr = some (m.newBlocks n).2 ∧
      (∀ x, x ≠ m.narr → (m.newArr n).1.arrs x = m.arrs x) ∧
      (∀ x, x < m.nbuf → (m.newArr n).1.bufs x = m.bufs x) ∧
      (∀ i, i < n → (m.newArr n).1.bufs (m.nbuf + i) =
        some (List.replicate max_size_ none)) := by
  obtain ⟨h1, h2, h3, h4, h5, h6, h7⟩ := newBlocks_spec n m
  refine ⟨h1, ?_, h3, ?_, ?_, h6, h7⟩
  · show (m.newBlocks n).1.narr + 1 = _
    rw [h1]
  · show Function.update (m.newBlocks n).1.arrs (m.newBlocks n).1.narr _ m.narr = _
    rw [h1, Function.update_same]
  · intro x hx
    show Function.update (m.newBlocks n).1.arrs (m.newBlocks n).1.narr _ x = _
    rw [h1, Function.update_noteq hx, h2]

/-- One call of `Block::Copy` on a block that owns an allocated buffer, from a
block whose buffer has at least `max_size_` slots. -/
theorem Block.Copy_spec {T : Type} (m : Mem T) (b r : Block) (src cbuf : List (Option T))
    (hb : b.content_ = some b.start_) (hba : (m.bufs b.start_).isSome = true)
    (hr : r.content_ = some r.start_) (hne : r.start_ ≠ b.start_) (hlt : r.start_ < m.nbuf)
    (hsrc : m.bufs r.start_ = some src)
    (hcp : BlockDeque.Block.copySlots max_size_ src = some cbuf) :
    ∃ mA, b.Copy r m = some (mA,
        { size_ := r.size_, first_elem_ := r.first_elem_, last_elem_ := r.last_elem_,
          start_ := m.nbuf, content_ := some m.nbuf }) ∧
      mA.arrs = m.arrs ∧ mA.narr = m.narr ∧ mA.nbuf = m.nbuf + 1 ∧
      mA.bufs m.nbuf = some cbuf ∧
      ∀ x, x ≠ m.nbuf → x ≠ b.start_ → mA.bufs x = m.bufs x := by
  obtain ⟨old, hold⟩ := Option.isSome_iff_exists.mp hba
  have hdel : m.deleteBuf b.content_ =
      some { m with bufs := Function.update m.bufs b.start_ none } := by
    rw [hb]
    simp only [Mem.deleteBuf, hold]
  have hread : (({ m with bufs := Function.update m.bufs b.start_ none } : Mem T).newBuf).1.bufs
      r.start_ = some src := by
    simp only [Mem.newBuf]
    rw [Function.update_noteq (by omega), Function.update_noteq hne, hsrc]
  refine ⟨{ bufs := Function.update (Function.update (Function.update m.bufs b.start_ none)
                m.nbuf (some (List.replicate max_size_ none))) m.nbuf (some cbuf),
            nbuf := m.nbuf + 1, arrs := m.arrs, narr := m.narr }, ?_, ?_, ?_, ?_, ?_, ?_⟩
  · unfold Block.Copy
    rw [hdel]
    simp only [hr, hread, hcp, Option.map_some']
    rfl
  · rfl
  · rfl
  · rfl
  · simp only [Function.update_same]
  · intro x h1 h2
    simp only
    rw [Function.update_noteq h1, Function.update_noteq h1, Function.update_noteq h2]

end Heap

namespace Heap

/-! ## The loop of `Deque::Copy` -/

/-- The loop of `Deque::Copy` runs to its end and leaves, in each block of the
new array, a fresh buffer filled from the buffer of the corresponding block of
`rhs`, together with that block's element count and element pointers. -/
theorem copyBlocks_spec {T : Type} (self rhs nb0 : Nat) (hne : rhs ≠ self) (hbs : List Block)
    (vbs : List (BlockDeque.Block T)) (n : Nat) :
    ∀ (lo : Nat) (m : Mem T) (sbs : List Block),
      m.arrs rhs = some hbs → m.arrs self = some sbs → nb0 ≤ m.nbuf →
      (∀ (i : Nat) (hb : Block), hbs[i]? = some hb →
        hb.content_ = some hb.start_ ∧ hb.start_ < nb0 ∧
          ∃ vb cbuf, vbs[i]? = some vb ∧ m.bufs hb.start_ = some vb.content_ ∧
            BlockDeque.Block.copySlots max_size_ vb.content_ = some cbuf) →
      lo + n ≤ hbs.length →
      (∀ i, lo ≤ i → i < lo + n → ∃ sb, sbs[i]? = some sb ∧ sb.content_ = some sb.start_ ∧
        nb0 ≤ sb.start_ ∧ sb.start_ < m.nbuf ∧ (m.bufs sb.start_).isSome = true) →
      (∀ (i j : Nat) (sb sb2 : Block), lo ≤ i → i < lo + n → lo ≤ j → j < lo + n →
        sbs[i]? = some sb → sbs[j]? = some sb2 → sb.start_ = sb2.start_ → i = j) →
      ∃ m1 sbs1, Deque.copyBlocks self rhs lo n m = some m1 ∧ m1.arrs self = some sbs1 ∧
        sbs1.length = sbs.length ∧ m1.narr = m.narr ∧ m.nbuf ≤ m1.nbuf ∧
        (∀ x, x ≠ self → m1.arrs x = m.arrs x) ∧
        (∀ i, ¬ (lo ≤ i ∧ i < lo + n) → sbs1[i]? = sbs[i]?) ∧
        (∀ x, x < m.nbuf →
          (∀ (i : Nat) (sb : Block), lo ≤ i → i < lo + n → sbs[i]? = some sb → sb.start_ ≠ x) →
          m1.bufs x = m.bufs x) ∧
        (∀ i, lo ≤ i → i < lo + n → ∃ sb hb vb cbuf, sbs1[i]? = some sb ∧ hbs[i]? = some hb ∧
          vbs[i]? = some vb ∧ BlockDeque.Block.copySlots max_size_ vb.content_ = some cbuf ∧
          sb.content_ = some sb.start_ ∧ m.nbuf ≤ sb.start_ ∧ sb.start_ < m1.nbuf ∧
          m1.bufs sb.start_ = some cbuf ∧ sb.size_ = hb.size_ ∧
          sb.first_elem_ = hb.first_elem_ ∧ sb.last_elem_ = hb.last_elem_) ∧
        (∀ (i j : Nat) (sb sb2 : Block), lo ≤ i → i < lo + n → lo ≤ j → j < lo + n →
          sbs1[i]? = some sb → sbs1[j]? = some sb2 → sb.start_ = sb2.start_ → i = j) := by
  induction n with
  | zero =>
    intro lo m sbs hrhs hself hnb hsrc hlen hpend hdist
    exact ⟨m, sbs, rfl, hself, rfl, rfl, le_refl _, fun x _ => rfl, fun i _ => rfl,
      fun x _ _ => rfl, fun i h1 h2 => by omega, fun i j _ _ h1 h2 => by omega⟩
  | succ k ih =>
    intro lo m sbs hrhs hself hnb hsrc hlen hpend hdist
    obtain ⟨b, hbget, hbc, hbnb, hblt, hba⟩ := hpend lo (le_refl _) (by omega)
    have hlo : lo < hbs.length := by omega
    have hr : hbs[lo]? = some hbs[lo] := List.getElem?_eq_getElem hlo
    obtain ⟨hrc, hrlt, vb, cbuf, hvb, hbuf, hcp⟩ := hsrc lo _ hr
    obtain ⟨mA, hcopy, a1, a2, a3, a4, a5⟩ :=
      Block.Copy_spec m b hbs[lo] vb.content_ cbuf hbc hba hrc (by omega) (by omega) hbuf hcp
    have hloS : lo < sbs.length := (List.getElem?_eq_some.mp hbget).1
    have hset : mA.setBlk self lo
        { size_ := hbs[lo].size_, first_elem_ := hbs[lo].first_elem_,
          last_elem_ := hbs[lo].last_elem_, start_ := m.nbuf, content_ := some m.nbuf } =
        some { mA with arrs := Function.update mA.arrs self (some (sbs.set lo
          { size_ := hbs[lo].size_, first_elem_ := hbs[lo].first_elem_,
            last_elem_ := hbs[lo].last_elem_, start_ := m.nbuf, content_ := some m.nbuf })) } := by
      simp only [Mem.setBlk, a1, hself, hloS, if_true]
    have hstep : Deque.copyBlocks self rhs lo (k + 1) m =
        Deque.copyBlocks self rhs (lo + 1) k
          { mA with arrs := Function.update mA.arrs self (some (sbs.set lo
            { size_ := hbs[lo].size_, first_elem_ := hbs[lo].first_elem_,
              last_elem_ := hbs[lo].last_elem_, start_ := m.nbuf,
              content_ := some m.nbuf })) } := by
      simp only [Deque.copyBlocks, Mem.getBlk, hself, hrhs, hbget, hr, hcopy, hset]
    have hbufB : ∀ x, x ≠ m.nbuf → x ≠ b.start_ → mA.bufs x = m.bufs x := a5
    obtain ⟨m1, sbs1, c1, c2, c3, c4, c5, c6, c7, c8, c9, c10⟩ :=
      ih (lo + 1) { mA with arrs := Function.update mA.arrs self (some (sbs.set lo
            { size_ := hbs[lo].size_, first_elem_ := hbs[lo].first_elem_,
              last_elem_ := hbs[lo].last_elem_, start_ := m.nbuf,
              content_ := some m.nbuf })) } (sbs.set lo
            { size_ := hbs[lo].size_, first_elem_ := hbs[lo].first_elem_,
              last_elem_ := hbs[lo].last_elem_, start_ := m.nbuf, content_ := some m.nbuf })
        (by simp only; rw [Function.update_noteq hne, a1]; exact hrhs)
        (by simp only [Function.update_same])
        (by simp only; omega)
        (by
          intro i hb hi
          obtain ⟨s1, s2, vb2, cb2, s3, s4, s5⟩ := hsrc i hb hi
          refine ⟨s1, s2, vb2, cb2, s3, ?_, s5⟩
          simp only
          rw [hbufB _ (by omega) (by omega)]
          exact s4)
        (by omega)
        (by
          intro i h1 h2
          obtain ⟨sb, p1, p2, p3, p4, p5⟩ := hpend i (by omega) (by omega)
          refine ⟨sb, ?_, p2, p3, by simp only; omega, ?_⟩
          · rw [List.getElem?_set_ne (by omega)]; exact p1
          · simp only
            have hd : sb.start_ ≠ b.start_ := by
              intro e
              have := hdist i lo sb b (by omega) (by omega) (le_refl _) (by omega) p1 hbget e
              omega
            rw [hbufB _ (by omega) hd]
            exact p5)
        (by
          intro i j sb sb2 h1 h2 h3 h4 g1 g2 e
          rw [List.getElem?_set_ne (by omega)] at g1 g2
          exact hdist i j sb sb2 (by omega) (by omega) (by omega) (by omega) g1 g2 e)
    simp only at c2 c4 c5 c6 c8 c9
    refine ⟨m1, sbs1, by rw [hstep]; exact c1, c2, ?_, by rw [c4, a2], by omega, ?_, ?_, ?_, ?_,
      ?_⟩
    · rw [c3, List.length_set]
    · intro x hx
      rw [c6 x hx, Function.update_noteq hx, a1]
    · intro i hi
      rw [c7 i (by omega), List.getElem?_set_ne (by omega)]
    · intro x hx hnp
      have hxb : x ≠ b.start_ := fun e => hnp lo b (le_refl _) (by omega) hbget e.symm
      rw [c8 x (by omega) ?_, hbufB x (by omega) hxb]
      intro i sb h1 h2 g
      rw [List.getElem?_set_ne (by omega)] at g
      exact hnp i sb (by omega) (by omega) g
    · intro i h1 h2
      by_cases hi : i = lo
      · rw [hi]
        refine ⟨{ size_ := hbs[lo].size_, first_elem_ := hbs[lo].first_elem_,
                  last_elem_ := hbs[lo].last_elem_, start_ := m.nbuf,
                  content_ := some m.nbuf }, hbs[lo], vb, cbuf, ?_, hr, hvb, hcp, rfl,
          le_refl _, ?_, ?_, rfl, rfl, rfl⟩
        · rw [c7 lo (by omega), List.getElem?_set_self hloS]
        · show m.nbuf < m1.nbuf
          omega
        · show m1.bufs m.nbuf = some cbuf
          rw [c8 m.nbuf (by omega) ?_, a4]
          intro j sb g1 g2 g
          rw [List.getElem?_set_ne (by omega)] at g
          obtain ⟨sb', p1, _, _, p4, _⟩ := hpend j (by omega) (by omega)
          rw [g] at p1
          cases p1
          omega
      · obtain ⟨sb, hb, vb2, cb2, q1, q2, q3, q4, q5, q6, q7, q8, q9⟩ :=
          c9 i (by omega) (by omega)
        exact ⟨sb, hb, vb2, cb2, q1, q2, q3, q4, q5, by omega, q7, q8, q9⟩
    · have hfirst : sbs1[lo]? = some
          { size_ := hbs[lo].size_, first_elem_ := hbs[lo].first_elem_,
            last_elem_ := hbs[lo].last_elem_, start_ := m.nbuf, content_ := some m.nbuf } := by
        rw [c7 lo (by omega), List.getElem?_set_self hloS]
      have hlater : ∀ (j : Nat) (sb : Block), lo < j → j < lo + (k + 1) → sbs1[j]? = some sb →
          m.nbuf + 1 ≤ sb.start_ := by
        intro j sb h1 h2 g
        obtain ⟨sb', _, _, _, q1, _, _, _, _, q6, _⟩ := c9 j (by omega) (by omega)
        rw [g] at q1
        cases q1
        omega
      intro i j sb sb2 h1 h2 h3 h4 g1 g2 e
      by_cases hi : i = lo
      · by_cases hj : j = lo
        · omega
        · rw [hi, hfirst] at g1
          cases g1
          have := hlater j sb2 (by omega) h4 g2
          simp only at e
          omega
      · by_cases hj : j = lo
        · rw [hj, hfirst] at g2
          cases g2
          have := hlater i sb (by omega) h2 g1
          simp only at e
          omega
        · exact c10 i j sb sb2 (by omega) (by omega) (by omega) (by omega) g1 g2 e

end Heap

namespace Heap

/-! ## `Deque::Copy` on the heap -/

theorem Block.Reps.frame {T : Type} {m m1 : Mem T} {hb : Block} {vb : BlockDeque.Block T}
    (h : hb.Reps m vb) (hn : m.nbuf ≤ m1.nbuf) (hbuf : m1.bufs hb.start_ = m.bufs hb.start_) :
    hb.Reps m1 vb := by
  obtain ⟨h1, h2, h3, h4, h5, h6⟩ := h
  exact ⟨h1, by omega, by rw [hbuf]; exact h3, h4, h5, h6⟩

/-- Copy construction from a heap object that holds a deque value satisfying
the invariant returns, and the new object holds the same value in memory of its
own; the source object still holds its value. -/
theorem Deque.Copy_reps {T : Type} {m : Mem T} {d : Deque} {dv : BlockDeque.Deque T}
    {bs : List (BlockDeque.Block T)} {seg : Nat → List T} {n : Nat}
    (h : d.Reps m dv) (hrep : dv.Rep bs seg n) :
    ∃ m1 c, Deque.Copy m d = some (m1, c) ∧ c.Reps m1 dv ∧ d.Reps m1 dv ∧
      c.size_ = d.size_ ∧ c.block_cnt_ = d.block_cnt_ ∧ c.first_elem_ = d.first_elem_ ∧
      c.last_elem_ = d.last_elem_ := by
  obtain ⟨e1, e2, e3, e4, a, hbs, vbs, h1, h2, h3, h4, h5, h6, h7⟩ := h
  have hvb : vbs = bs := by
    have := hrep.content
    rw [h4] at this
    exact Option.some.inj this
  subst hvb
  have hlen : hbs.length = d.block_cnt_ := by rw [h5, hrep.len, e2]
  obtain ⟨n1, n2, n3, n4, n5, n6, n7⟩ := newArr_spec m d.block_cnt_
  obtain ⟨b1, b2, b3, b4, b5, b6, b7⟩ := newBlocks_spec d.block_cnt_ m
  have hane : a ≠ m.narr := by omega
  obtain ⟨m1, sbs1, c1, c2, c3, c4, c5, c6, c7, c8, c9, c10⟩ :=
    copyBlocks_spec m.narr a m.nbuf hane hbs vbs d.block_cnt_ 0 (m.newArr d.block_cnt_).1
      (m.newBlocks d.block_cnt_).2
      (by rw [n5 a hane]; exact h3) n4 (by omega)
      (by
        intro i hb hi
        have hi1 : i < hbs.length := (List.getElem?_eq_some.mp hi).1
        have hi2 : i < vbs.length := by omega
        have hv : vbs[i]? = some vbs[i] := List.getElem?_eq_getElem hi2
        obtain ⟨r1, r2, r3, _, _, _⟩ := h6 i hb _ hi hv
        refine ⟨r1, r2, vbs[i], vbs[i].content_, hv, by rw [n6 _ r2]; exact r3, ?_⟩
        have hl := hrep.block_len i _ hv
        have := copySlots_eq vbs[i].content_
        rw [hl] at this
        exact this)
      (by omega)
      (by
        intro i _ hi
        rw [Nat.zero_add] at hi
        refine ⟨_, b5 i hi, rfl, by simp only; omega, by simp only; omega, ?_⟩
        simp only
        rw [n7 i hi]
        rfl)
      (by
        intro i j sb sb2 _ hi _ hj g1 g2 e
        rw [Nat.zero_add] at hi hj
        rw [b5 i hi] at g1
        rw [b5 j hj] at g2
        cases g1
        cases g2
        simp only at e
        omega)
  have hcopy : Deque.Copy m d = some (m1,
      { size_ := d.size_, block_cnt_ := d.block_cnt_, first_elem_ := d.first_elem_,
        last_elem_ := d.last_elem_, content_ := some m.narr }) := by
    unfold Deque.Copy
    simp only [h1, n1, c1, Option.map_some']
  have hdreps : ∀ (i : Nat) (hb : Block) (vb : BlockDeque.Block T),
      hbs[i]? = some hb → vbs[i]? = some vb → hb.Reps m1 vb := by
    intro i hb vb g1 g2
    have r := h6 i hb vb g1 g2
    refine r.frame (by omega) ?_
    rw [c8 _ (by have := r.2.1; omega) ?_, n6 _ r.2.1]
    intro j sb _ hj g
    rw [Nat.zero_add] at hj
    rw [b5 j hj] at g
    cases g
    have := r.2.1
    simp only
    omega
  refine ⟨m1, _, hcopy, ?_, ?_, rfl, rfl, rfl, rfl⟩
  · refine ⟨e1, e2, e3, e4, m.narr, sbs1, vbs, rfl, by omega, c2, h4, by rw [c3, b4, ← hlen, h5],
      ?_, ?_⟩
    · intro i sb vb g1 g2
      have hi : i < d.block_cnt_ := by
        have := (List.getElem?_eq_some.mp g2).1
        omega
      obtain ⟨sb', hb, vb', cbuf, q1, q2, q3, q4, q5, q6, q7, q8, q9, q10, q11⟩ :=
        c9 i (by omega) (by omega)
      rw [g1] at q1
      cases q1
      rw [g2] at q3
      cases q3
      obtain ⟨_, _, _, r4, r5, r6⟩ := h6 i hb vb q2 g2
      have hl := hrep.block_len i _ g2
      have hcs := copySlots_eq vb.content_
      rw [hl] at hcs
      have hmax : (max_size_ : Nat) = 128 := rfl
      rw [hmax, hcs] at q4
      cases q4
      exact ⟨q5, q7, q8, by rw [q9, r4], by rw [q10, r5], by rw [q11, r6]⟩
    · intro i j sb sb2 g1 g2 e
      have hi : i < d.block_cnt_ := by
        have := (List.getElem?_eq_some.mp g1).1
        omega
      have hj : j < d.block_cnt_ := by
        have := (List.getElem?_eq_some.mp g2).1
        omega
      exact c10 i j sb sb2 (by omega) (by omega) (by omega) (by omega) g1 g2 e
  · exact ⟨e1, e2, e3, e4, a, hbs, vbs, h1, by omega, by rw [c6 a hane, n5 a hane]; exact h3, h4,
      h5, hdreps, h7⟩

end Heap

namespace Heap

/-! ## Operations on a heap object follow the operations on its value -/

/-- Overwriting one block object, after a change confined to that block's
buffer, keeps the heap object in step with its value. -/
theorem Deque.Reps.set_block {T : Type} {m m1 : Mem T} {d : Deque}
    {dv : BlockDeque.Deque T} (h : d.Reps m dv) (a : Nat) (ha : d.content_ = some a)
    (p : Nat) (hb hb1 : Block) (vb1 : BlockDeque.Block T)
    (hget : m.getBlk a p = some hb)
    (harr : m1.arrs = m.arrs) (hnarr : m1.narr = m.narr) (hnbuf : m1.nbuf = m.nbuf)
    (hbufs : ∀ x, x ≠ hb.start_ → m1.bufs x = m.bufs x)
    (hst : hb1.start_ = hb.start_) (hr1 : hb1.Reps m1 vb1) :
    ∃ m2 vbs, m1.setBlk a p hb1 = some m2 ∧ dv.content_ = some vbs ∧ p < vbs.length ∧
      ∀ (d2 : Deque) (dv2 : BlockDeque.Deque T), d2.content_ = some a →
        dv2.content_ = some (vbs.set p vb1) → d2.size_ = dv2.size_ →
        d2.block_cnt_ = dv2.block_cnt_ → d2.first_elem_ = dv2.first_elem_ →
        d2.last_elem_ = dv2.last_elem_ → d2.Reps m2 dv2 := by
  obtain ⟨_, _, _, _, a1, hbs, vbs, h1, h2, h3, h4, h5, h6, h7⟩ := h
  rw [h1] at ha
  cases ha
  have hg : hbs[p]? = some hb := by simpa only [Mem.getBlk, h3] using hget
  have hp : p < hbs.length := (List.getElem?_eq_some.mp hg).1
  refine ⟨{ m1 with arrs := Function.update m1.arrs a (some (hbs.set p hb1)) }, vbs, ?_, h4,
    by omega, ?_⟩
  · simp only [Mem.setBlk, harr, h3, hp, if_true]
  · intro d2 dv2 g1 g2 g3 g4 g5 g6
    refine ⟨g3, g4, g5, g6, a, hbs.set p hb1, vbs.set p vb1, g1, by simp only; omega,
      by simp only [Function.update_same], g2, by simp only [List.length_set, h5], ?_, ?_⟩
    · intro i x vx q1 q2
      by_cases hi : i = p
      · rw [hi, List.getElem?_set_self hp] at q1
        rw [hi, List.getElem?_set_self (by omega)] at q2
        cases q1
        cases q2
        obtain ⟨r1, r2, r3, r4, r5, r6⟩ := hr1
        exact ⟨r1, r2, r3, r4, r5, r6⟩
      · rw [List.getElem?_set_ne (fun e => hi e.symm)] at q1 q2
        have r := h6 i x vx q1 q2
        have hne : x.start_ ≠ hb.start_ := fun e => hi (h7 i p x hb q1 hg e)
        have hlt := r.2.1
        exact ⟨r.1, by simp only; omega, by simp only; rw [hbufs _ hne]; exact r.2.2.1,
          r.2.2.2.1, r.2.2.2.2.1, r.2.2.2.2.2⟩
    · intro i j x y q1 q2 e
      have hx : ∃ x0, hbs[i]? = some x0 ∧ x0.start_ = x.start_ := by
        by_cases hi : i = p
        · rw [hi, List.getElem?_set_self hp] at q1
          cases q1
          exact ⟨hb, by rw [hi]; exact hg, hst.symm⟩
        · rw [List.getElem?_set_ne (fun e => hi e.symm)] at q1
          exact ⟨x, q1, rfl⟩
      have hy : ∃ y0, hbs[j]? = some y0 ∧ y0.start_ = y.start_ := by
        by_cases hj : j = p
        · rw [hj, List.getElem?_set_self hp] at q2
          cases q2
          exact ⟨hb, by rw [hj]; exact hg, hst.symm⟩
        · rw [List.getElem?_set_ne (fun e => hj e.symm)] at q2
          exact ⟨y, q2, rfl⟩
      obtain ⟨x0, hx1, hx2⟩ := hx
      obtain ⟨y0, hy1, hy2⟩ := hy
      exact h7 i j x0 y0 hx1 hy1 (by rw [hx2, hy2, e])

/-- `PopBack` on a heap object follows `PopBack` on its value. -/
theorem Deque.PopBack_sim {T : Type} {m : Mem T} {d : Deque} {dv dv1 : BlockDeque.Deque T}
    (h : d.Reps m dv) (hv : dv.PopBack = some dv1) :
    ∃ m1 d1, Deque.PopBack m d = some (m1, d1) ∧ d1.Reps m1 dv1 := by
  have hh := h
  obtain ⟨e1, e2, e3, e4, a, hbs, vbs0, h1, _, _, _, _, _, _⟩ := hh
  rcases h.blk a h1 dv.last_elem_ with ⟨_, vn⟩ | ⟨lb, vlb, hlb, hvlb, hrl⟩
  · simp [BlockDeque.Deque.PopBack, vn] at hv
  · have hrp : (lb.PopBack).Reps m vlb.PopBack := by
      obtain ⟨r1, r2, r3, r4, r5, r6⟩ := hrl
      exact ⟨r1, r2, r3, by simp only [Block.PopBack, BlockDeque.Block.PopBack, r4],
        by simp only [Block.PopBack, BlockDeque.Block.PopBack, r5],
        by simp only [Block.PopBack, BlockDeque.Block.PopBack, r6]⟩
    obtain ⟨m2, vbs, hset, hvc, hp, hfin⟩ :=
      h.set_block a h1 dv.last_elem_ lb lb.PopBack vlb.PopBack hlb rfl rfl rfl
        (fun _ _ => rfl) rfl hrp
    have hvset := setBlk_eq dv vbs dv.last_elem_ vlb.PopBack hvc hp
    have hemp : lb.PopBack.IsEmpty = vlb.PopBack.IsEmpty := by
      simp only [Block.IsEmpty, BlockDeque.Block.IsEmpty, Block.PopBack,
        BlockDeque.Block.PopBack, hrl.2.2.2.1]
    simp only [BlockDeque.Deque.PopBack, hvlb, hvset] at hv
    unfold Deque.PopBack
    simp only [h1, e4, hlb, hset, hemp, e1, e2]
    by_cases c1 : vlb.PopBack.IsEmpty = true
    · simp only [c1, if_true] at hv ⊢
      by_cases c2 : decr dv.size_ > 0
      · simp only [c2, if_true] at hv ⊢
        by_cases c3 : dv.block_cnt_ = 0
        · simp only [c3, if_true] at hv
          cases hv
        · simp only [c3, if_false, Option.some.injEq] at hv ⊢
          subst hv
          exact ⟨_, _, rfl, hfin _ _ rfl rfl rfl rfl e3 rfl⟩
      · simp only [c2, if_false, Option.some.injEq] at hv ⊢
        subst hv
        exact ⟨_, _, rfl, hfin _ _ rfl rfl rfl rfl e3 rfl⟩
    · simp only [c1, Bool.false_eq_true, if_false, Option.some.injEq] at hv ⊢
      subst hv
      exact ⟨_, _, rfl, hfin _ _ rfl rfl rfl rfl e3 rfl⟩

/-- `PopFront` on a heap object follows `PopFront` on its value. -/
theorem Deque.PopFront_sim {T : Type} {m : Mem T} {d : Deque} {dv dv1 : BlockDeque.Deque T}
    (h : d.Reps m dv) (hv : dv.PopFront = some dv1) :
    ∃ m1 d1, Deque.PopFront m d = some (m1, d1) ∧ d1.Reps m1 dv1 := by
  have hh := h
  obtain ⟨e1, e2, e3, e4, a, hbs, vbs0, h1, _, _, _, _, _, _⟩ := hh
  rcases h.blk a h1 dv.first_elem_ with ⟨_, vn⟩ | ⟨fb, vfb, hfb, hvfb, hrf⟩
  · simp [BlockDeque.Deque.PopFront, vn] at hv
  · have hrp : (fb.PopFront).Reps m vfb.PopFront := by
      obtain ⟨r1, r2, r3, r4, r5, r6⟩ := hrf
      exact ⟨r1, r2, r3, by simp only [Block.PopFront, BlockDeque.Block.PopFront, r4],
        by simp only [Block.PopFront, BlockDeque.Block.PopFront, r5],
        by simp only [Block.PopFront, BlockDeque.Block.PopFront, r6]⟩
    obtain ⟨m2, vbs, hset, hvc, hp, hfin⟩ :=
      h.set_block a h1 dv.first_elem_ fb fb.PopFront vfb.PopFront hfb rfl rfl rfl
        (fun _ _ => rfl) rfl hrp
    have hvset := setBlk_eq dv vbs dv.first_elem_ vfb.PopFront hvc hp
    have hemp : fb.PopFront.IsEmpty = vfb.PopFront.IsEmpty := by
      simp only [Block.IsEmpty, BlockDeque.Block.IsEmpty, Block.PopFront,
        BlockDeque.Block.PopFront, hrf.2.2.2.1]
    simp only [BlockDeque.Deque.PopFront, hvfb, hvset] at hv
    unfold Deque.PopFront
    simp only [h1, e3, hfb, hset, hemp, e1, e2]
    by_cases c1 : vfb.PopFront.IsEmpty = true
    · simp only [c1, if_true] at hv ⊢
      by_cases c2 : decr dv.size_ > 0
      · simp only [c2, if_true] at hv ⊢
        by_cases c3 : dv.block_cnt_ = 0
        · simp only [c3, if_true] at hv
          cases hv
        · simp only [c3, if_false, Option.some.injEq] at hv ⊢
          subst hv
          exact ⟨_, _, rfl, hfin _ _ rfl rfl rfl rfl rfl e4⟩
      · simp only [c2, if_false, Option.some.injEq] at hv ⊢
        subst hv
        exact ⟨_, _, rfl, hfin _ _ rfl rfl rfl rfl rfl e4⟩
    · simp only [c1, Bool.false_eq_true, if_false, Option.some.injEq] at hv ⊢
      subst hv
      exact ⟨_, _, rfl, hfin _ _ rfl rfl rfl rfl rfl e4⟩

end Heap

namespace Heap

/-! ## Pushes that do not grow the block array -/

theorem storeSlot_sim {T : Type} (m : Mem T) (x : Nat) (buf buf1 : List (Option T))
    (off : Int) (v : T) (hb : m.bufs x = some buf)
    (hs : BlockDeque.Block.store buf off v = some buf1) :
    ∃ m1, m.storeSlot x off v = some m1 ∧ m1.arrs = m.arrs ∧ m1.narr = m.narr ∧
      m1.nbuf = m.nbuf ∧ m1.bufs x = some buf1 ∧ ∀ y, y ≠ x → m1.bufs y = m.bufs y := by
  refine ⟨{ m with bufs := Function.update m.bufs x (some buf1) }, ?_, rfl, rfl, rfl, ?_, ?_⟩
  · simp only [Mem.storeSlot, hb, hs, Option.map_some']
  · simp only [Function.update_same]
  · intro y hy
    simp only [Function.update_noteq hy]

/-- `Block::PushBack` on a heap block follows `Block::PushBack` on its value and
touches only that block's buffer. -/
theorem Block.push_back_sim {T : Type} {m : Mem T} {hb : Block}
    {vb vb1 : BlockDeque.Block T} (v : T) (h : hb.Reps m vb)
    (hv : vb.PushBack v = some vb1) :
    ∃ m1 hb1, hb.PushBack m v = some (m1, hb1) ∧ m1.arrs = m.arrs ∧ m1.narr = m.narr ∧
      m1.nbuf = m.nbuf ∧ (∀ y, y ≠ hb.start_ → m1.bufs y = m.bufs y) ∧
      hb1.start_ = hb.start_ ∧ hb1.Reps m1 vb1 := by
  obtain ⟨r1, r2, r3, r4, r5, r6⟩ := h
  unfold BlockDeque.Block.PushBack at hv
  unfold Block.PushBack
  rw [r4]
  by_cases c : vb.size_ = 0
  · simp only [c, if_true] at hv ⊢
    cases hs : BlockDeque.Block.store vb.content_ BlockDeque.start_ v with
    | none => simp [hs] at hv
    | some buf1 =>
      simp only [hs, Option.map_some', Option.some.injEq] at hv
      obtain ⟨m1, s1, s2, s3, s4, s5, s6⟩ := storeSlot_sim m hb.start_ _ _ _ v r3 hs
      subst hv
      simp only [s1, Option.map_some']
      exact ⟨_, _, rfl, s2, s3, s4, s6, rfl, r1, by simp only; omega, s5,
        by simp only [r4, c], rfl, rfl⟩
  · simp only [c, if_false] at hv ⊢
    cases hs : BlockDeque.Block.store vb.content_ (vb.last_elem_ + 1) v with
    | none => simp [hs] at hv
    | some buf1 =>
      simp only [hs, Option.map_some', Option.some.injEq] at hv
      obtain ⟨m1, s1, s2, s3, s4, s5, s6⟩ := storeSlot_sim m hb.start_ _ _ _ v r3 hs
      subst hv
      simp only [r6, s1, Option.map_some']
      exact ⟨_, _, rfl, s2, s3, s4, s6, rfl, r1, by simp only; omega, s5,
        by simp only [r4], r5, by simp only [r6]⟩

/-- `Block::PushFront` on a heap block follows `Block::PushFront` on its value
and touches only that block's buffer. -/
theorem Block.push_front_sim {T : Type} {m : Mem T} {hb : Block}
    {vb vb1 : BlockDeque.Block T} (v : T) (h : hb.Reps m vb)
    (hv : vb.PushFront v = some vb1) :
    ∃ m1 hb1, hb.PushFront m v = some (m1, hb1) ∧ m1.arrs = m.arrs ∧ m1.narr = m.narr ∧
      m1.nbuf = m.nbuf ∧ (∀ y, y ≠ hb.start_ → m1.bufs y = m.bufs y) ∧
      hb1.start_ = hb.start_ ∧ hb1.Reps m1 vb1 := by
  obtain ⟨r1, r2, r3, r4, r5, r6⟩ := h
  unfold BlockDeque.Block.PushFront at hv
  unfold Block.PushFront
  rw [r4]
  by_cases c : vb.size_ = 0
  · simp only [c, if_true] at hv ⊢
    cases hs : BlockDeque.Block.store vb.content_ BlockDeque.end_ v with
    | none => simp [hs] at hv
    | some buf1 =>
      simp only [hs, Option.map_some', Option.some.injEq] at hv
      obtain ⟨m1, s1, s2, s3, s4, s5, s6⟩ := storeSlot_sim m hb.start_ _ _ _ v r3 hs
      subst hv
      simp only [s1, Option.map_some']
      exact ⟨_, _, rfl, s2, s3, s4, s6, rfl, r1, by simp only; omega, s5,
        by simp only [r4, c], rfl, rfl⟩
  · simp only [c, if_false] at hv ⊢
    cases hs : BlockDeque.Block.store vb.content_ (vb.first_elem_ - 1) v with
    | none => simp [hs] at hv
    | some buf1 =>
      simp only [hs, Option.map_some', Option.some.injEq] at hv
      obtain ⟨m1, s1, s2, s3, s4, s5, s6⟩ := storeSlot_sim m hb.start_ _ _ _ v r3 hs
      subst hv
      simp only [r5, s1, Option.map_some']
      exact ⟨_, _, rfl, s2, s3, s4, s6, rfl, r1, by simp only; omega, s5,
        by simp only [r4], by simp only [r5], r6⟩

theorem Block.Reps.canPushBack {T : Type} {m : Mem T} {hb : Block}
    {vb : BlockDeque.Block T} (h : hb.Reps m vb) : hb.CanPushBack = vb.CanPushBack := by
  obtain ⟨_, _, _, r4, _, r6⟩ := h
  simp only [Block.CanPushBack, BlockDeque.Block.CanPushBack, r4, r6]

theorem Block.Reps.canPushFront {T : Type} {m : Mem T} {hb : Block}
    {vb : BlockDeque.Block T} (h : hb.Reps m vb) : hb.CanPushFront = vb.CanPushFront := by
  obtain ⟨_, _, _, r4, r5, _⟩ := h
  simp only [Block.CanPushFront, BlockDeque.Block.CanPushFront, r4, r5]

/-- A `PushBack` that does not call `Extend` on a heap object follows
`PushBack` on its value. -/
theorem Deque.PushBack_sim_same {T : Type} {m : Mem T} {d : Deque}
    {dv dv1 : BlockDeque.Deque T} (v : T) (f : Nat) (h : d.Reps m dv)
    (hne : ∀ vlb, dv.blk dv.last_elem_ = some vlb → vlb.CanPushBack = false →
      dv.block_cnt_ ≠ 0 → (dv.last_elem_ + 1) % dv.block_cnt_ ≠ dv.first_elem_)
    (hv : BlockDeque.Deque.PushBack (f + 1) dv v = some dv1) :
    ∃ m1 d1, Deque.PushBack (f + 1) m d v = some (m1, d1) ∧ d1.Reps m1 dv1 := by
  have hh := h
  obtain ⟨e1, e2, e3, e4, a, hbs, vbs0, h1, _, _, _, _, _, _⟩ := hh
  unfold BlockDeque.Deque.PushBack at hv
  unfold Deque.PushBack
  simp only [h1, e1, e2, e3, e4]
  rcases h.blk a h1 dv.last_elem_ with ⟨_, vn⟩ | ⟨lb, vlb, hlb, hvlb, hrl⟩
  · simp [vn] at hv
  · simp only [hvlb] at hv
    simp only [hlb, hrl.canPushBack]
    by_cases c1 : vlb.CanPushBack = true
    · simp only [c1, not_true_eq_false, if_false] at hv ⊢
      cases hp : vlb.PushBack v with
      | none => simp [hp] at hv
      | some vb1 =>
        obtain ⟨m1, hb1, p1, p2, p3, p4, p5, p6, p7⟩ := Block.push_back_sim v hrl hp
        obtain ⟨m2, vbs, hset, hvc, hlt, hfin⟩ :=
          h.set_block a h1 dv.last_elem_ lb hb1 vb1 hlb p2 p3 p4 p5 p6 p7
        have hvset := setBlk_eq dv vbs dv.last_elem_ vb1 hvc hlt
        simp only [hp, hvset, Option.map_some', Option.some.injEq] at hv
        subst hv
        simp only [p1, hset, Option.map_some']
        exact ⟨_, _, rfl, hfin _ _ rfl rfl rfl rfl rfl rfl⟩
    · have c1f : vlb.CanPushBack = false := by simpa using c1
      simp only [c1f, Bool.false_eq_true, not_false_eq_true, if_true] at hv ⊢
      by_cases c0 : dv.block_cnt_ = 0
      · simp [c0] at hv
      · simp only [c0, hne vlb hvlb c1f c0, if_false] at hv ⊢
        rcases h.blk a h1 ((dv.last_elem_ + 1) % dv.block_cnt_) with
          ⟨_, vn⟩ | ⟨nb, vnb, hnb, hvnb, hrn⟩
        · simp [vn] at hv
        · simp only [hvnb] at hv
          simp only [hnb]
          cases hp : vnb.PushBack v with
          | none => simp [hp] at hv
          | some vb1 =>
            obtain ⟨m1, hb1, p1, p2, p3, p4, p5, p6, p7⟩ := Block.push_back_sim v hrn hp
            obtain ⟨m2, vbs, hset, hvc, hlt, hfin⟩ :=
              h.set_block a h1 ((dv.last_elem_ + 1) % dv.block_cnt_) nb hb1 vb1 hnb p2 p3 p4
                p5 p6 p7
            have hvset := setBlk_eq
              ({ dv with last_elem_ := (dv.last_elem_ + 1) % dv.block_cnt_ } :
                BlockDeque.Deque T) vbs ((dv.last_elem_ + 1) % dv.block_cnt_) vb1 hvc hlt
            simp only [hp, hvset, Option.map_some', Option.some.injEq] at hv
            subst hv
            simp only [p1, hset, Option.map_some']
            exact ⟨_, _, rfl, hfin _ _ rfl rfl rfl rfl rfl rfl⟩

/-- A `PushFront` that does not call `Extend` on a heap object follows
`PushFront` on its value. -/
theorem Deque.PushFront_sim_same {T : Type} {m : Mem T} {d : Deque}
    {dv dv1 : BlockDeque.Deque T} (v : T) (f : Nat) (h : d.Reps m dv)
    (hne : ∀ vlb, dv.blk dv.first_elem_ = some vlb → vlb.CanPushFront = false →
      dv.block_cnt_ ≠ 0 →
      (dv.first_elem_ + dv.block_cnt_ - 1) % dv.block_cnt_ ≠ dv.last_elem_)
    (hv : BlockDeque.Deque.PushFront (f + 1) dv v = some dv1) :
    ∃ m1 d1, Deque.PushFront (f + 1) m d v = some (m1, d1) ∧ d1.Reps m1 dv1 := by
  have hh := h
  obtain ⟨e1, e2, e3, e4, a, hbs, vbs0, h1, _, _, _, _, _, _⟩ := hh
  unfold BlockDeque.Deque.PushFront at hv
  unfold Deque.PushFront
  simp only [h1, e1, e2, e3, e4]
  rcases h.blk a h1 dv.first_elem_ with ⟨_, vn⟩ | ⟨lb, vlb, hlb, hvlb, hrl⟩
  · simp [vn] at hv
  · simp only [hvlb] at hv
    simp only [hlb, hrl.canPushFront]
    by_cases c1 : vlb.CanPushFront = true
    · simp only [c1, not_true_eq_false, if_false] at hv ⊢
      cases hp : vlb.PushFront v with
      | none => simp [hp] at hv
      | some vb1 =>
        obtain ⟨m1, hb1, p1, p2, p3, p4, p5, p6, p7⟩ := Block.push_front_sim v hrl hp
        obtain ⟨m2, vbs, hset, hvc, hlt, hfin⟩ :=
          h.set_block a h1 dv.first_elem_ lb hb1 vb1 hlb p2 p3 p4 p5 p6 p7
        have hvset := setBlk_eq dv vbs dv.first_elem_ vb1 hvc hlt
        simp only [hp, hvset, Option.map_some', Option.some.injEq] at hv
        subst hv
        simp only [p1, hset, Option.map_some']
        exact ⟨_, _, rfl, hfin _ _ rfl rfl rfl rfl rfl rfl⟩
    · have c1f : vlb.CanPushFront = false := by simpa using c1
      simp only [c1f, Bool.false_eq_true, not_false_eq_true, if_true] at hv ⊢
      by_cases c0 : dv.block_cnt_ = 0
      · simp [c0] at hv
      · simp only [c0, hne vlb hvlb c1f c0, if_false] at hv ⊢
        rcases h.blk a h1 ((dv.first_elem_ + dv.block_cnt_ - 1) % dv.block_cnt_) with
          ⟨_, vn⟩ | ⟨nb, vnb, hnb, hvnb, hrn⟩
        · simp [vn] at hv
        · simp only [hvnb] at hv
          simp only [hnb]
          cases hp : vnb.PushFront v with
          | none => simp [hp] at hv
          | some vb1 =>
            obtain ⟨m1, hb1, p1, p2, p3, p4, p5, p6, p7⟩ := Block.push_front_sim v hrn hp
            obtain ⟨m2, vbs, hset, hvc, hlt, hfin⟩ :=
              h.set_block a h1 ((dv.first_elem_ + dv.block_cnt_ - 1) % dv.block_cnt_) nb hb1 vb1 hnb p2 p3 p4
                p5 p6 p7
            have hvset := setBlk_eq
              ({ dv with first_elem_ := (dv.first_elem_ + dv.block_cnt_ - 1) % dv.block_cnt_ } :
                BlockDeque.Deque T) vbs ((dv.first_elem_ + dv.block_cnt_ - 1) % dv.block_cnt_) vb1 hvc hlt
            simp only [hp, hvset, Option.map_some', Option.some.injEq] at hv
            subst hv
            simp only [p1, hset, Option.map_some']
            exact ⟨_, _, rfl, hfin _ _ rfl rfl rfl rfl rfl rfl⟩

end Heap

namespace Heap

/-! ## The loop of `Deque::Extend` -/

theorem destroyBlocks_moved {T : Type} (bs : List Block) (m : Mem T)
    (h : ∀ b, b ∈ bs → b.content_ = none) : Mem.destroyBlocks bs m = some m := by
  induction bs with
  | nil => rfl
  | cons b t ih =>
    have hb := h b (List.mem_cons_self _ _)
    simp only [Mem.destroyBlocks, hb, Mem.deleteBuf]
    exact ih (fun x hx => h x (List.mem_cons_of_mem _ hx))

set_option maxHeartbeats 1600000 in
/-- The loop of `Deque::Extend` runs to its end: block `i` of the new array
becomes the old block `(first + i) mod c`, whose object in the old array is left
without a buffer; only the buffers of the overwritten new blocks are freed. -/
theorem moveBlocks_spec {T : Type} (old fresh first c nb0 : Nat) (hof : old ≠ fresh)
    (hfc : first < c) (hbs : List Block) (hlen : hbs.length = c) (n : Nat) :
    ∀ (lo : Nat) (m : Mem T) (obs nbs : List Block),
      lo + n ≤ c → m.arrs old = some obs → obs.length = c → m.arrs fresh = some nbs →
      (∀ i, lo ≤ i → i < lo + n → obs[(first + i) % c]? = hbs[(first + i) % c]?) →
      (∀ i, lo ≤ i → i < lo + n → ∃ nb, nbs[i]? = some nb ∧ nb.content_ = some (nb0 + i) ∧
        (m.bufs (nb0 + i)).isSome = true) →
      ∃ m1 obs1 nbs1, Deque.moveBlocks old fresh first c lo n m = some m1 ∧
        m1.arrs old = some obs1 ∧ obs1.length = c ∧ m1.arrs fresh = some nbs1 ∧
        nbs1.length = nbs.length ∧ m1.narr = m.narr ∧ m1.nbuf = m.nbuf ∧
        (∀ x, x ≠ old → x ≠ fresh → m1.arrs x = m.arrs x) ∧
        (∀ i, lo ≤ i → i < lo + n → nbs1[i]? = hbs[(first + i) % c]?) ∧
        (∀ i, ¬ (lo ≤ i ∧ i < lo + n) → nbs1[i]? = nbs[i]?) ∧
        (∀ i, lo ≤ i → i < lo + n → ∃ hb, hbs[(first + i) % c]? = some hb ∧
          obs1[(first + i) % c]? = some { hb with content_ := none }) ∧
        (∀ j, (∀ i, lo ≤ i → i < lo + n → (first + i) % c ≠ j) → obs1[j]? = obs[j]?) ∧
        (∀ x, (∀ i, lo ≤ i → i < lo + n → x ≠ nb0 + i) → m1.bufs x = m.bufs x) := by
  induction n with
  | zero =>
    intro lo m obs nbs _ ho hol hn _ _
    exact ⟨m, obs, nbs, rfl, ho, hol, hn, rfl, rfl, rfl, fun _ _ _ => rfl,
      fun i h1 h2 => by omega, fun _ _ => rfl, fun i h1 h2 => by omega, fun _ _ => rfl,
      fun _ _ => rfl⟩
  | succ k ih =>
    intro lo m obs nbs hle ho hol hn hsame hpend
    have hc : 0 < c := by omega
    have hidx : (first + lo) % c < c := Nat.mod_lt _ hc
    have hsrc : obs[(first + lo) % c]? = some hbs[(first + lo) % c] := by
      rw [hsame lo (le_refl _) (by omega)]
      exact List.getElem?_eq_getElem (by omega)
    obtain ⟨dst, hdst, hdc, hda⟩ := hpend lo (le_refl _) (by omega)
    obtain ⟨oldbuf, hob⟩ := Option.isSome_iff_exists.mp hda
    have hloN : lo < nbs.length := (List.getElem?_eq_some.mp hdst).1
    have hmove : dst.moveAssign hbs[(first + lo) % c] m =
        some ({ m with bufs := Function.update m.bufs (nb0 + lo) none },
          hbs[(first + lo) % c], { hbs[(first + lo) % c] with content_ := none }) := by
      simp only [Block.moveAssign, hdc, Mem.deleteBuf, hob, Option.map_some']
    have hstep : Deque.moveBlocks old fresh first c lo (k + 1) m =
        Deque.moveBlocks old fresh first c (lo + 1) k
          { bufs := Function.update m.bufs (nb0 + lo) none, nbuf := m.nbuf,
            arrs := Function.update
              (Function.update m.arrs fresh (some (nbs.set lo hbs[(first + lo) % c])))
              old (some (obs.set ((first + lo) % c)
                { hbs[(first + lo) % c] with content_ := none })),
            narr := m.narr } := by
      simp only [Deque.moveBlocks, Mem.getBlk, ho, hn, hsrc, hdst, hmove, Mem.setBlk, hloN,
        if_true, Function.update_noteq hof, hol, hidx]
    have hinj : ∀ i, lo + 1 ≤ i → i < lo + 1 + k → (first + i) % c ≠ (first + lo) % c := by
      intro i h1 h2 e
      have := ring_inj first c i lo hfc (by omega) (by omega) e
      omega
    have key :=
      ih (lo + 1)
          { bufs := Function.update m.bufs (nb0 + lo) none, nbuf := m.nbuf,
            arrs := Function.update
              (Function.update m.arrs fresh (some (nbs.set lo hbs[(first + lo) % c])))
              old (some (obs.set ((first + lo) % c)
                { hbs[(first + lo) % c] with content_ := none })),
            narr := m.narr }
        (obs.set ((first + lo) % c) { hbs[(first + lo) % c] with content_ := none })
        (nbs.set lo hbs[(first + lo) % c]) (by omega)
        (by simp only [Function.update_same])
        (by rw [List.length_set, hol])
        (by simp only [Function.update_noteq hof.symm, Function.update_same])
        (by
          intro i h1 h2
          rw [List.getElem?_set_ne (fun e => hinj i h1 h2 e.symm)]
          exact hsame i (by omega) (by omega))
        (by
          intro i h1 h2
          obtain ⟨nb, q1, q2, q3⟩ := hpend i (by omega) (by omega)
          refine ⟨nb, ?_, q2, ?_⟩
          · rw [List.getElem?_set_ne (by omega)]; exact q1
          · simp only
            rw [Function.update_noteq (by omega)]
            exact q3)
    obtain ⟨m1, obs1, nbs1, c1, c2, c3, c4, c5, c6, c7, c8, c9, c10, c11, c12, c13⟩ := key
    simp only at c2 c4 c6 c7 c8 c13
    refine ⟨m1, obs1, nbs1, by rw [hstep]; exact c1, c2, c3, c4, ?_, c6, c7, ?_, ?_, ?_, ?_, ?_,
      ?_⟩
    · rw [c5, List.length_set]
    · intro x h1 h2
      rw [c8 x h1 h2, Function.update_noteq h1, Function.update_noteq h2]
    · intro i h1 h2
      by_cases hi : i = lo
      · rw [hi, c10 lo (by omega), List.getElem?_set_self hloN]
        exact (List.getElem?_eq_getElem (by omega)).symm
      · exact c9 i (by omega) (by omega)
    · intro i hi
      rw [c10 i (by omega), List.getElem?_set_ne (by omega)]
    · intro i h1 h2
      by_cases hi : i = lo
      · rw [hi]
        refine ⟨hbs[(first + lo) % c], List.getElem?_eq_getElem (by omega), ?_⟩
        rw [c12 _ (fun j g1 g2 => hinj j g1 g2), List.getElem?_set_self (by omega)]
      · exact c11 i (by omega) (by omega)
    · intro j hj
      rw [c12 j (fun i g1 g2 => hj i (by omega) (by omega)),
        List.getElem?_set_ne (hj lo (le_refl _) (by omega))]
    · intro x hx
      rw [c13 x (fun i g1 g2 => hx i (by omega) (by omega)),
        Function.update_noteq (hx lo (le_refl _) (by omega))]

end Heap

namespace Heap

/-! ## `Deque::Extend` and the growing pushes on the heap -/

set_option maxHeartbeats 1600000 in
/-- `Extend` on a heap object that holds a value satisfying the invariant
follows `Extend` on that value. -/
theorem Deque.Extend_sim {T : Type} {m : Mem T} {d : Deque} {dv dv1 : BlockDeque.Deque T}
    {bs : List (BlockDeque.Block T)} {seg : Nat → List T} {n : Nat}
    (h : d.Reps m dv) (hrep : dv.Rep bs seg n) (hv : dv.Extend = some dv1) :
    ∃ m1 d1, Deque.Extend m d = some (m1, d1) ∧ d1.Reps m1 dv1 := by
  obtain ⟨e1, e2, e3, e4, a, hbs, vbs, h1, h2, h3, h4, h5, h6, h7⟩ := h
  have hvb : vbs = bs := by
    have := hrep.content
    rw [h4] at this
    exact Option.some.inj this
  subst hvb
  have hfl := hrep.first_lt
  have hc0 : dv.block_cnt_ ≠ 0 := by omega
  have hlen : hbs.length = dv.block_cnt_ := by rw [h5, hrep.len]
  obtain ⟨bs1, hE, hl1, hlo, hhi⟩ := Extend_spec dv vbs hrep.content hrep.len (by omega)
  rw [hE] at hv
  have hdv1 := (Option.some.inj hv).symm
  obtain ⟨n1, n2, n3, n4, n5, n6, n7⟩ := newArr_spec m (dv.block_cnt_ * 2)
  obtain ⟨b1, b2, b3, b4, b5, b6, b7⟩ := newBlocks_spec (dv.block_cnt_ * 2) m
  have hane : a ≠ m.narr := by omega
  obtain ⟨m1, obs1, nbs1, c1, c2, c3, c4, c5, c6, c7, c8, c9, c10, c11, c12, c13⟩ :=
    moveBlocks_spec a m.narr dv.first_elem_ dv.block_cnt_ m.nbuf hane hfl hbs hlen
      dv.block_cnt_ 0 (m.newArr (dv.block_cnt_ * 2)).1 hbs (m.newBlocks (dv.block_cnt_ * 2)).2
      (by omega) (by rw [n5 a hane]; exact h3) hlen n4 (fun _ _ _ => rfl)
      (by
        intro i _ hi
        rw [Nat.zero_add] at hi
        refine ⟨_, b5 i (by omega), rfl, ?_⟩
        rw [n7 i (by omega)]
        rfl)
  have hmoved : ∀ b, b ∈ obs1 → b.content_ = none := by
    intro b hb
    obtain ⟨j, hj, hjb⟩ := List.getElem_of_mem hb
    rw [c3] at hj
    obtain ⟨i, hi, e⟩ := ring_surj dv.first_elem_ dv.block_cnt_ j hfl hj
    obtain ⟨x, _, q2⟩ := c11 i (by omega) (by omega)
    rw [e] at q2
    have : obs1[j]? = some b := by rw [← hjb]; exact List.getElem?_eq_getElem (by omega)
    rw [this] at q2
    cases q2
    rfl
  have hdel : m1.deleteArr (some a) =
      some { m1 with arrs := Function.update m1.arrs a none } := by
    simp only [Mem.deleteArr, c2, destroyBlocks_moved obs1 m1 hmoved, Option.map_some']
  have hext : Deque.Extend m d = some ({ m1 with arrs := Function.update m1.arrs a none },
      { size_ := d.size_, block_cnt_ := d.block_cnt_ * 2, first_elem_ := 0,
        last_elem_ := d.block_cnt_ - 1, content_ := some m.narr }) := by
    unfold Deque.Extend
    simp only [h1, e2, hc0, if_false, e3, n1, c1, hdel, Option.map_some']
  refine ⟨_, _, hext, ?_⟩
  rw [hdv1]
  refine ⟨e1, by simp only [e2], rfl, by simp only [e2], m.narr, nbs1, bs1, rfl,
    by simp only; omega, by simp only [Function.update_noteq hane.symm, c4], rfl,
    by rw [c5, b4, hl1], ?_, ?_⟩
  · intro i x vx q1 q2
    have hi : i < dv.block_cnt_ * 2 := by
      have := (List.getElem?_eq_some.mp q2).1
      omega
    by_cases hic : i < dv.block_cnt_
    · rw [c9 i (by omega) (by omega)] at q1
      rw [hlo i hic] at q2
      have r := h6 _ x vx q1 q2
      have hlt := r.2.1
      refine r.frame (by simp only; omega) ?_
      simp only
      rw [c13 _ (fun j _ _ e => by omega), n6 _ hlt]
    · rw [c10 i (by omega), b5 i hi] at q1
      rw [hhi i (by omega) hi] at q2
      cases q1
      cases q2
      refine ⟨rfl, by simp only; omega, ?_, rfl, rfl, rfl⟩
      simp only
      rw [c13 _ (fun j _ hj e => by omega)]
      obtain ⟨k, hk⟩ : ∃ k, i = k := ⟨i, rfl⟩
      rw [n7 i hi]
      rfl
  · intro i j x y q1 q2 e
    have hi : i < dv.block_cnt_ * 2 := by
      have := (List.getElem?_eq_some.mp q1).1
      omega
    have hj : j < dv.block_cnt_ * 2 := by
      have := (List.getElem?_eq_some.mp q2).1
      omega
    have hold : ∀ (k : Nat) (z : Block), k < dv.block_cnt_ → nbs1[k]? = some z →
        hbs[(dv.first_elem_ + k) % dv.block_cnt_]? = some z ∧ z.start_ < m.nbuf := by
      intro k z hk q
      rw [c9 k (by omega) (by omega)] at q
      have hk2 : (dv.first_elem_ + k) % dv.block_cnt_ < vbs.length := by
        rw [← h5, hlen]; exact Nat.mod_lt _ (by omega)
      exact ⟨q, (h6 _ z _ q (List.getElem?_eq_getElem hk2)).2.1⟩
    have hnew : ∀ (k : Nat) (z : Block), dv.block_cnt_ ≤ k → k < dv.block_cnt_ * 2 →
        nbs1[k]? = some z → z.start_ = m.nbuf + k := by
      intro k z hk1 hk2 q
      rw [c10 k (by omega), b5 k hk2] at q
      cases q
      rfl
    by_cases hic : i < dv.block_cnt_
    · obtain ⟨g1, g2⟩ := hold i x hic q1
      by_cases hjc : j < dv.block_cnt_
      · obtain ⟨g3, g4⟩ := hold j y hjc q2
        exact ring_inj _ _ _ _ hfl hic hjc (h7 _ _ x y g1 g3 e)
      · have := hnew j y (by omega) hj q2
        omega
    · have g1 := hnew i x (by omega) hi q1
      by_cases hjc : j < dv.block_cnt_
      · obtain ⟨g3, g4⟩ := hold j y hjc q2
        omega
      · have := hnew j y (by omega) hj q2
        omega

end Heap

namespace Heap

/-- `PushBack` on a heap object that holds a value satisfying the invariant
follows `PushBack` on that value, whether or not the block array grows. -/
theorem Deque.PushBack_sim {T : Type} {m : Mem T} {d : Deque} {dv dv1 : BlockDeque.Deque T}
    {bs : List (BlockDeque.Block T)} {seg : Nat → List T} {n : Nat} (v : T) (f : Nat)
    (h : d.Reps m dv) (hrep : dv.Rep bs seg n)
    (hv : BlockDeque.Deque.PushBack f dv v = some dv1) :
    ∃ m1 d1, Deque.PushBack f m d v = some (m1, d1) ∧ d1.Reps m1 dv1 := by
  cases f with
  | zero => simp [BlockDeque.Deque.PushBack] at hv
  | succ f =>
    by_cases hE : ∀ vlb, dv.blk dv.last_elem_ = some vlb → vlb.CanPushBack = false →
        dv.block_cnt_ ≠ 0 → (dv.last_elem_ + 1) % dv.block_cnt_ ≠ dv.first_elem_
    · exact Deque.PushBack_sim_same v f h hE hv
    · push_neg at hE
      obtain ⟨vlb, hvlb, c1f, c0, hnext⟩ := hE
      have hh := h
      obtain ⟨e1, e2, e3, e4, a, hbs, vbs0, h1, _, _, _, _, _, _⟩ := hh
      rcases h.blk a h1 dv.last_elem_ with ⟨_, vn⟩ | ⟨lb, vlb2, hlb, hvlb2, hrl⟩
      · rw [hvlb] at vn; cases vn
      · rw [hvlb] at hvlb2
        cases hvlb2
        unfold BlockDeque.Deque.PushBack at hv
        simp only [hvlb, c1f, Bool.false_eq_true, not_false_eq_true, if_true, c0, if_false,
          hnext] at hv
        cases hx : dv.Extend with
        | none => simp [hx] at hv
        | some dvE =>
          simp only [hx] at hv
          obtain ⟨mE, dE, hext, hrE⟩ := Deque.Extend_sim h hrep hx
          cases f with
          | zero => simp [BlockDeque.Deque.PushBack] at hv
          | succ g =>
            obtain ⟨m1, d1, p1, p2⟩ := Deque.PushBack_sim_same v g hrE
              (fun _ _ _ _ => (Extend_next_ne dv dvE hx).2) hv
            refine ⟨m1, d1, ?_, p2⟩
            conv_lhs => unfold Deque.PushBack
            simp only [h1, e4, hlb, hrl.canPushBack, c1f, Bool.false_eq_true,
              not_false_eq_true, if_true, e2, c0, if_false, e3, hnext, hext]
            exact p1

/-- `PushFront` on a heap object that holds a value satisfying the invariant
follows `PushFront` on that value, whether or not the block array grows. -/
theorem Deque.PushFront_sim {T : Type} {m : Mem T} {d : Deque} {dv dv1 : BlockDeque.Deque T}
    {bs : List (BlockDeque.Block T)} {seg : Nat → List T} {n : Nat} (v : T) (f : Nat)
    (h : d.Reps m dv) (hrep : dv.Rep bs seg n)
    (hv : BlockDeque.Deque.PushFront f dv v = some dv1) :
    ∃ m1 d1, Deque.PushFront f m d v = some (m1, d1) ∧ d1.Reps m1 dv1 := by
  cases f with
  | zero => simp [BlockDeque.Deque.PushFront] at hv
  | succ f =>
    by_cases hE : ∀ vfb, dv.blk dv.first_elem_ = some vfb → vfb.CanPushFront = false →
        dv.block_cnt_ ≠ 0 →
        (dv.first_elem_ + dv.block_cnt_ - 1) % dv.block_cnt_ ≠ dv.last_elem_
    · exact Deque.PushFront_sim_same v f h hE hv
    · push_neg at hE
      obtain ⟨vfb, hvfb, c1f, c0, hprev⟩ := hE
      have hh := h
      obtain ⟨e1, e2, e3, e4, a, hbs, vbs0, h1, _, _, _, _, _, _⟩ := hh
      rcases h.blk a h1 dv.first_elem_ with ⟨_, vn⟩ | ⟨fb, vfb2, hfb, hvfb2, hrf⟩
      · rw [hvfb] at vn; cases vn
      · rw [hvfb] at hvfb2
        cases hvfb2
        unfold BlockDeque.Deque.PushFront at hv
        simp only [hvfb, c1f, Bool.false_eq_true, not_false_eq_true, if_true, c0, if_false,
          hprev] at hv
        cases hx : dv.Extend with
        | none => simp [hx] at hv
        | some dvE =>
          simp only [hx] at hv
          obtain ⟨mE, dE, hext, hrE⟩ := Deque.Extend_sim h hrep hx
          cases f with
          | zero => simp [BlockDeque.Deque.PushFront] at hv
          | succ g =>
            obtain ⟨m1, d1, p1, p2⟩ := Deque.PushFront_sim_same v g hrE
              (fun _ _ _ _ => (Extend_prev_ne dv dvE hx).2) hv
            refine ⟨m1, d1, ?_, p2⟩
            conv_lhs => unfold Deque.PushFront
            simp only [h1, e3, hfb, hrf.canPushFront, c1f, Bool.false_eq_true,
              not_false_eq_true, if_true, e2, c0, if_false, e4, hprev, hext]
            exact p1

end Heap

namespace Heap

/-! ## `Deque::Clear` on the heap -/

/-- The loop of `Deque::Clear` runs to its end and clears the block objects
`lo .. lo + n - 1` in place; no buffer is touched. -/
theorem clearBlocks_spec {T : Type} (a : Nat) (n : Nat) :
    ∀ (lo : Nat) (m : Mem T) (hbs : List Block), m.arrs a = some hbs → lo + n ≤ hbs.length →
      ∃ m1 hbs1, Deque.clearBlocks a lo n m = some m1 ∧ m1.bufs = m.bufs ∧
        m1.nbuf = m.nbuf ∧ m1.narr = m.narr ∧ m1.arrs a = some hbs1 ∧
        hbs1.length = hbs.length ∧
        (∀ i, lo ≤ i → i < lo + n → hbs1[i]? = (hbs[i]?).map Block.Clear) ∧
        (∀ i, ¬ (lo ≤ i ∧ i < lo + n) → hbs1[i]? = hbs[i]?) := by
  induction n with
  | zero =>
    intro lo m hbs h1 _
    exact ⟨m, hbs, rfl, rfl, rfl, rfl, h1, rfl, fun i h2 h3 => by omega, fun _ _ => rfl⟩
  | succ k ih =>
    intro lo m hbs h1 h2
    have hlo : lo < hbs.length := by omega
    have hg : hbs[lo]? = some hbs[lo] := List.getElem?_eq_getElem hlo
    have key := ih (lo + 1)
      { m with arrs := Function.update m.arrs a (some (hbs.set lo hbs[lo].Clear)) }
      (hbs.set lo hbs[lo].Clear) (by simp only [Function.update_same])
      (by rw [List.length_set]; omega)
    obtain ⟨m1, hbs1, c1, c2, c3, c4, c5, c6, c7, c8⟩ := key
    refine ⟨m1, hbs1, ?_, c2, c3, c4, c5, by rw [c6, List.length_set], ?_, ?_⟩
    · simp only [Deque.clearBlocks, Mem.getBlk, h1, hg, Mem.setBlk, hlo, if_true]
      exact c1
    · intro i g1 g2
      by_cases hi : i = lo
      · rw [hi, c8 lo (by omega), List.getElem?_set_self hlo, hg]
        rfl
      · rw [c7 i (by omega) (by omega), List.getElem?_set_ne (fun e => hi e.symm)]
    · intro i hi
      rw [c8 i (by omega), List.getElem?_set_ne (by omega)]

/-- `Clear` on a heap object that holds a value satisfying the invariant follows
`Clear` on that value. -/
theorem Deque.Clear_sim {T : Type} {m : Mem T} {d : Deque} {dv dv1 : BlockDeque.Deque T}
    {bs : List (BlockDeque.Block T)} {seg : Nat → List T} {n : Nat}
    (h : d.Reps m dv) (hrep : dv.Rep bs seg n) (hv : dv.Clear = some dv1) :
    ∃ m1 d1, Deque.Clear m d = some (m1, d1) ∧ d1.Reps m1 dv1 := by
  obtain ⟨e1, e2, e3, e4, a, hbs, vbs, h1, h2, h3, h4, h5, h6, h7⟩ := h
  have hvb : vbs = bs := by
    have := hrep.content
    rw [h4] at this
    exact Option.some.inj this
  subst hvb
  have hlen : hbs.length = dv.block_cnt_ := by rw [h5, hrep.len]
  have hvc : dv.Clear =
      some { dv with
        size_ := 0, first_elem_ := 0, last_elem_ := 0,
        content_ := some (vbs.map BlockDeque.Block.Clear) } := by
    simp only [BlockDeque.Deque.Clear, hrep.content, ← hrep.len, clearBlocks_eq,
      Option.map_some']
  rw [hvc] at hv
  have hdv1 := (Option.some.inj hv).symm
  obtain ⟨m1, hbs1, c1, c2, c3, c4, c5, c6, c7, c8⟩ :=
    clearBlocks_spec a dv.block_cnt_ 0 m hbs h3 (by omega)
  have hcl : Deque.Clear m d =
      some (m1, { d with size_ := 0, first_elem_ := 0, last_elem_ := 0 }) := by
    simp only [Deque.Clear, h1, e2, c1, Option.map_some']
  refine ⟨_, _, hcl, ?_⟩
  rw [hdv1]
  refine ⟨rfl, e2, rfl, rfl, a, hbs1, vbs.map BlockDeque.Block.Clear, h1, by omega, c5, rfl,
    by rw [c6, List.length_map, h5], ?_, ?_⟩
  · intro i x vx q1 q2
    have hi : i < hbs.length := by
      have := (List.getElem?_eq_some.mp q1).1
      omega
    rw [c7 i (by omega) (by omega), List.getElem?_eq_getElem hi] at q1
    rw [List.getElem?_map, List.getElem?_eq_getElem (by omega)] at q2
    simp only [Option.map_some', Option.some.injEq] at q1 q2
    obtain ⟨r1, r2, r3, r4, r5, r6⟩ :=
      h6 i hbs[i] vbs[i] (List.getElem?_eq_getElem hi) (List.getElem?_eq_getElem (by omega))
    subst q1
    subst q2
    exact ⟨r1, by simp only [Block.Clear]; omega, by rw [c2]; exact r3, rfl, rfl, rfl⟩
  · intro i j x y q1 q2 e
    have hi : i < hbs.length := by
      have := (List.getElem?_eq_some.mp q1).1
      omega
    have hj : j < hbs.length := by
      have := (List.getElem?_eq_some.mp q2).1
      omega
    rw [c7 i (by omega) (by omega), List.getElem?_eq_getElem hi] at q1
    rw [c7 j (by omega) (by omega), List.getElem?_eq_getElem hj] at q2
    simp only [Option.map_some', Option.some.injEq] at q1 q2
    subst q1
    subst q2
    exact h7 i j _ _ (List.getElem?_eq_getElem hi) (List.getElem?_eq_getElem hj) e

end Heap

/-! ## Indexed writes -/

theorem flat_length_congr {T : Type} (seg seg1 : Nat → List T) (n : Nat)
    (h : ∀ j, j < n → (seg1 j).length = (seg j).length) :
    (flat seg1 n).length = (flat seg n).length := by
  induction n with
  | zero => rfl
  | succ k ih =>
    simp only [flat, List.length_append]
    rw [ih (fun j hj => h j (by omega)), h k (by omega)]

/-- Overwriting the slot of element `k` keeps the block holding its elements,
with element `k` replaced. -/
theorem holds_assign {T : Type} (b : Block T) (xs : List T) (k : Nat) (v : T)
    (h : b.Holds xs) (hk : k < xs.length) :
    ∃ buf, Block.store b.content_ (b.first_elem_ + k) v = some buf ∧
      ({ b with content_ := buf } : Block T).Holds (xs.set k v) := by
  obtain ⟨h1, h2, h3, h4⟩ := h
  have hne : xs ≠ [] := by
    intro e; rw [e] at hk; simp at hk
  obtain ⟨g1, g2, g3⟩ := h3 hne
  obtain ⟨buf, hbuf⟩ := store_some b.content_ (b.first_elem_ + k) v (by omega)
    (by rw [h1]; push_cast; omega)
  refine ⟨buf, hbuf, ?_, ?_, ?_, ?_⟩
  · show buf.length = 128
    rw [store_length _ _ _ _ hbuf, h1]
  · show b.size_ = (xs.set k v).length
    rw [List.length_set, h2]
  · intro _
    show 0 ≤ b.first_elem_ ∧ b.last_elem_ ≤ 127 ∧
      b.last_elem_ + 1 = b.first_elem_ + ((xs.set k v).length : Nat)
    rw [List.length_set]
    exact ⟨g1, g2, g3⟩
  · intro i hi
    rw [List.length_set] at hi
    show Block.load buf (b.first_elem_ + i) = (xs.set k v)[i]?
    rw [load_store _ _ _ _ _ hbuf]
    by_cases hik : i = k
    · subst hik
      simp only [if_true, List.getElem?_set_self hi]
    · have hne2 : b.first_elem_ + (i : Int) ≠ b.first_elem_ + (k : Int) := by omega
      rw [if_neg hne2, List.getElem?_set_ne (fun e => hik e.symm)]
      exact h4 i hi

namespace Heap

/-- An indexed write below `Size()` on a deque value satisfying the invariant
returns and keeps the invariant, the block count and the size. -/
theorem assignValue_rep {T : Type} {dv : BlockDeque.Deque T} {bs : List (BlockDeque.Block T)}
    {seg : Nat → List T} {n : Nat} (h : dv.Rep bs seg n) (i : Nat) (hi : i < dv.size_)
    (v : T) :
    ∃ dv1 bs1 seg1, assignValue dv i v = some dv1 ∧ dv1.Rep bs1 seg1 n ∧
      dv1.size_ = dv.size_ := by
  obtain ⟨j, k, b, hj, hloc, hb, hp, hk, _⟩ := h.locate_spec i hi
  obtain ⟨buf, hbuf, hholds⟩ := holds_assign b (seg j) k v hp.1 hk
  have hfl := h.first_lt
  have hnle := h.n_le
  have hplt : (dv.first_elem_ + j) % dv.block_cnt_ < bs.length := by
    rw [h.len]; exact Nat.mod_lt _ (by omega)
  have hset := setBlk_eq dv bs ((dv.first_elem_ + j) % dv.block_cnt_)
    { b with content_ := buf } h.content hplt
  refine ⟨{ dv with content_ := some (bs.set ((dv.first_elem_ + j) % dv.block_cnt_)
      { b with content_ := buf }) },
    bs.set ((dv.first_elem_ + j) % dv.block_cnt_) { b with content_ := buf },
    Function.update seg j ((seg j).set k v), ?_, ?_, rfl⟩
  · simp only [assignValue, hloc, hb, hbuf]
    exact hset
  · refine ⟨rfl, by rw [List.length_set]; exact h.len, hfl, h.n_pos, hnle, h.last_eq, ?_, ?_, ?_⟩
    · show dv.size_ = _
      rw [h.size_eq]
      symm
      apply flat_length_congr
      intro j1 _
      by_cases e : j1 = j
      · rw [e, Function.update_same, List.length_set]
      · rw [Function.update_noteq e]
    · intro j1 hj1
      rw [Function.update_noteq (by omega)]
      exact h.seg_nil j1 hj1
    · intro j1 hj1 b1 hb1
      show Placed n j1 b1 (Function.update seg j ((seg j).set k v) j1)
      by_cases e : j1 = j
      · subst e
        rw [List.getElem?_set_self hplt] at hb1
        cases hb1
        rw [Function.update_same]
        refine ⟨hholds, ?_, ?_, ?_⟩
        · intro g1 g2
          obtain ⟨q1, q2⟩ := hp.2.1 g1 g2
          exact ⟨fun e => q1 (by
            have := congrArg List.length e
            rw [List.length_set] at this
            exact List.length_eq_zero.mp this), q2⟩
        · intro g1 g2
          obtain ⟨q1, q2⟩ := hp.2.2.1 g1 g2
          exact ⟨fun e => q1 (by
            have := congrArg List.length e
            rw [List.length_set] at this
            exact List.length_eq_zero.mp this), q2⟩
        · intro g1 g2
          rw [List.length_set]
          exact hp.2.2.2 g1 g2
      · have hidx : (dv.first_elem_ + j) % dv.block_cnt_ ≠
            (dv.first_elem_ + j1) % dv.block_cnt_ := by
          intro e2
          exact e (ring_inj _ _ _ _ hfl hj1 (by omega) e2.symm)
        rw [List.getElem?_set_ne hidx] at hb1
        rw [Function.update_noteq e]
        exact h.placed j1 hj1 b1 hb1

end Heap

namespace Heap

/-! ## Indexed writes and call sequences on the heap -/

/-- `operator[]` resolves an index on a heap object to the block object that
holds the block the value resolves it to, at the same offset. -/
theorem Deque.Reps.locate_eq {T : Type} {m : Mem T} {d : Deque} {dv : BlockDeque.Deque T}
    (h : d.Reps m dv) (a : Nat) (ha : d.content_ = some a) (ind p k : Nat)
    (hl : dv.locate ind = some (p, k)) (vb : BlockDeque.Block T) (hvb : dv.blk p = some vb) :
    ∃ hb, Deque.locate m d ind = some (hb, k) ∧ m.getBlk a p = some hb ∧ hb.Reps m vb := by
  have hh := h
  obtain ⟨e1, e2, e3, e4, _, _, _, _, _, _, _, _, _, _⟩ := hh
  unfold BlockDeque.Deque.locate at hl
  unfold Deque.locate
  simp only [ha, e1, e2, e3, e4]
  rcases h.blk a ha dv.first_elem_ with ⟨_, vn⟩ | ⟨fb, vfb, hfb, hvfb, hrf⟩
  · simp [vn] at hl
  · simp only [hvfb] at hl
    simp only [hfb, hrf.2.2.2.1]
    by_cases c1 : vfb.size_ ≥ ind + 1
    · simp only [c1, if_true, Option.some.injEq, Prod.mk.injEq] at hl ⊢
      obtain ⟨rfl, rfl⟩ := hl
      rw [hvfb] at hvb
      cases hvb
      exact ⟨fb, ⟨rfl, rfl⟩, hfb, hrf⟩
    · simp only [c1, if_false] at hl ⊢
      rcases h.blk a ha dv.last_elem_ with ⟨_, vn⟩ | ⟨lb, vlb, hlb, hvlb, hrl⟩
      · simp [vn] at hl
      · simp only [hvlb] at hl
        simp only [hlb, hrl.2.2.2.1]
        by_cases c2 : sub64 dv.size_ vlb.size_ < ind + 1
        · simp only [c2, if_true, Option.some.injEq, Prod.mk.injEq] at hl ⊢
          obtain ⟨rfl, rfl⟩ := hl
          rw [hvlb] at hvb
          cases hvb
          exact ⟨lb, ⟨rfl, rfl⟩, hlb, hrl⟩
        · simp only [c2, if_false] at hl ⊢
          by_cases c3 : dv.block_cnt_ = 0
          · simp [c3] at hl
          · simp only [c3, if_false, Option.some.injEq, Prod.mk.injEq] at hl ⊢
            obtain ⟨rfl, rfl⟩ := hl
            rcases h.blk a ha
                ((dv.first_elem_ + 1 + (ind - vfb.size_) / block_size_) % dv.block_cnt_)
              with ⟨_, vn⟩ | ⟨b, vb2, hb, hvb2, hrb⟩
            · rw [hvb] at vn; cases vn
            · rw [hvb] at hvb2
              cases hvb2
              simp only [hb]
              exact ⟨b, rfl, rfl, hrb⟩

/-- A write `d[ind] = v` on a heap object follows the write on its value. -/
theorem Deque.assign_sim {T : Type} {m : Mem T} {d : Deque} {dv dv1 : BlockDeque.Deque T}
    (ind : Nat) (v : T) (h : d.Reps m dv) (hv : assignValue dv ind v = some dv1) :
    ∃ m1, Deque.assign m d ind v = some m1 ∧ d.Reps m1 dv1 := by
  have hh := h
  obtain ⟨e1, e2, e3, e4, a, hbs, vbs, h1, h2, h3, h4, h5, h6, h7⟩ := hh
  unfold assignValue at hv
  cases hl : dv.locate ind with
  | none => simp [hl] at hv
  | some pk =>
    obtain ⟨p, k⟩ := pk
    simp only [hl] at hv
    cases hvb : dv.blk p with
    | none => simp [hvb] at hv
    | some vb =>
      simp only [hvb] at hv
      cases hs : BlockDeque.Block.store vb.content_ (vb.first_elem_ + k) v with
      | none => simp [hs] at hv
      | some buf =>
        simp only [hs] at hv
        obtain ⟨hb, q1, q2, q3⟩ := h.locate_eq a h1 ind p k hl vb hvb
        obtain ⟨r1, r2, r3, r4, r5, r6⟩ := q3
        obtain ⟨m1, s1, s2, s3, s4, s5, s6⟩ := storeSlot_sim m hb.start_ _ _ _ v r3 hs
        have hg : hbs[p]? = some hb := by simpa only [Mem.getBlk, h3] using q2
        have hp : p < hbs.length := (List.getElem?_eq_some.mp hg).1
        have hvset := setBlk_eq dv vbs p { vb with content_ := buf } h4 (by omega)
        rw [hvset] at hv
        have hdv1 := (Option.some.inj hv).symm
        refine ⟨m1, ?_, ?_⟩
        · simp only [Deque.assign, q1, Block.GetSet, r5, s1]
        · rw [hdv1]
          refine ⟨e1, e2, e3, e4, a, hbs, vbs.set p { vb with content_ := buf }, h1,
            by omega, by rw [s2]; exact h3, rfl, by rw [List.length_set]; exact h5, ?_, h7⟩
          intro i x vx g1 g2
          by_cases hi : i = p
          · rw [hi] at g1 g2
            rw [hg] at g1
            rw [List.getElem?_set_self (by omega)] at g2
            cases g1
            cases g2
            exact ⟨r1, by omega, s5, r4, r5, r6⟩
          · rw [List.getElem?_set_ne (fun e => hi e.symm)] at g2
            have r := h6 i x vx g1 g2
            have hne : x.start_ ≠ hb.start_ := fun e => hi (h7 i p x hb g1 hg e)
            have hlt := r.2.1
            exact ⟨r.1, by omega, by rw [s6 _ hne]; exact r.2.2.1, r.2.2.2.1, r.2.2.2.2.1,
              r.2.2.2.2.2⟩

/-- One mutating call that meets its precondition, on a heap object holding a
value that satisfies the invariant, returns; the object then holds the value
the call gives on the value, and that value satisfies the invariant. -/
theorem Deque.mutate_sim {T : Type} {m : Mem T} {d : Deque} {dv : BlockDeque.Deque T}
    {bs : List (BlockDeque.Block T)} {seg : Nat → List T} {n : Nat} (fuel : Nat)
    (hf : 2 ≤ fuel) (h : d.Reps m dv) (hrep : dv.Rep bs seg n) (c : Mut T)
    (hok : c.ok dv = true) :
    ∃ m1 d1 dv1 bs1 seg1 n1, Deque.mutate fuel m d c = some (m1, d1) ∧
      c.onValue fuel dv = some dv1 ∧ d1.Reps m1 dv1 ∧ dv1.Rep bs1 seg1 n1 := by
  obtain ⟨g, rfl⟩ : ∃ g, fuel = g + 2 := ⟨fuel - 2, by omega⟩
  cases c with
  | pushBack v =>
    obtain ⟨dv1, bs1, seg1, n1, p1, p2, _⟩ := hrep.pushBack v g
    obtain ⟨m1, d1, q1, q2⟩ := Deque.PushBack_sim v (g + 2) h hrep p1
    exact ⟨m1, d1, dv1, bs1, seg1, n1, q1, p1, q2, p2⟩
  | pushFront v =>
    obtain ⟨dv1, bs1, seg1, n1, p1, p2, _⟩ := hrep.pushFront v g
    obtain ⟨m1, d1, q1, q2⟩ := Deque.PushFront_sim v (g + 2) h hrep p1
    exact ⟨m1, d1, dv1, bs1, seg1, n1, q1, p1, q2, p2⟩
  | popBack =>
    have hs : dv.size_ ≠ 0 := by simpa [Mut.ok, BlockDeque.Deque.Size] using hok
    obtain ⟨dv1, bs1, seg1, n1, p1, p2, _⟩ := hrep.popBack hs
    obtain ⟨m1, d1, q1, q2⟩ := Deque.PopBack_sim h p1
    exact ⟨m1, d1, dv1, bs1, seg1, n1, q1, p1, q2, p2⟩
  | popFront =>
    have hs : dv.size_ ≠ 0 := by simpa [Mut.ok, BlockDeque.Deque.Size] using hok
    obtain ⟨dv1, bs1, seg1, n1, p1, p2, _⟩ := hrep.popFront hs
    obtain ⟨m1, d1, q1, q2⟩ := Deque.PopFront_sim h p1
    exact ⟨m1, d1, dv1, bs1, seg1, n1, q1, p1, q2, p2⟩
  | clear =>
    obtain ⟨dv1, bs1, p1, p2, _⟩ := hrep.clear
    obtain ⟨m1, d1, q1, q2⟩ := Deque.Clear_sim h hrep p1
    exact ⟨m1, d1, dv1, bs1, _, _, q1, p1, q2, p2⟩
  | assign i v =>
    have hi : i < dv.size_ := by simpa [Mut.ok, BlockDeque.Deque.Size] using hok
    obtain ⟨dv1, bs1, seg1, p1, p2, _⟩ := assignValue_rep hrep i hi v
    obtain ⟨m1, q1, q2⟩ := Deque.assign_sim i v h p1
    exact ⟨m1, d, dv1, bs1, seg1, n, by simp only [Deque.mutate, q1, Option.map_some'], p1,
      q2, p2⟩

/-- A sequence of mutating calls, each meeting its precondition, runs to its
end on a heap object holding a value that satisfies the invariant. -/
theorem Deque.mutateAll_sim {T : Type} (fuel : Nat) (hf : 2 ≤ fuel) (cs : List (Mut T)) :
    ∀ (m : Mem T) (d : Deque) (dv : BlockDeque.Deque T),
      d.Reps m dv → (∃ bs seg n, dv.Rep bs seg n) → Mut.allOk fuel cs dv = true →
      ∃ m2 d2 dv2, Deque.mutateAll fuel cs m d = some (m2, d2) ∧ d2.Reps m2 dv2 ∧
        ∃ bs seg n, dv2.Rep bs seg n := by
  induction cs with
  | nil =>
    intro m d dv h hrep _
    exact ⟨m, d, dv, rfl, h, hrep⟩
  | cons c t ih =>
    intro m d dv h hrep hok
    obtain ⟨bs, seg, n, hrep⟩ := hrep
    simp only [Mut.allOk, Bool.and_eq_true] at hok
    obtain ⟨hok1, hok2⟩ := hok
    obtain ⟨m1, d1, dv1, bs1, seg1, n1, q1, q2, q3, q4⟩ :=
      Deque.mutate_sim fuel hf h hrep c hok1
    simp only [q2] at hok2
    obtain ⟨m2, d2, dv2, r1, r2, r3⟩ := ih m1 d1 dv1 q3 ⟨bs1, seg1, n1, q4⟩ hok2
    exact ⟨m2, d2, dv2, by simp only [Deque.mutateAll, q1]; exact r1, r2, r3⟩

end Heap

namespace Heap

/-! ## Deep copy -/

/-- A heap object keeps holding its value in every heap that agrees with the
first one on the cells allocated so far. -/
theorem Deque.Reps.frozen {T : Type} {m m1 : Mem T} {d : Deque} {dv : BlockDeque.Deque T}
    (h : d.Reps m dv) (hf : m.Frozen m.narr m.nbuf m1) : d.Reps m1 dv := by
  obtain ⟨e1, e2, e3, e4, a, hbs, vbs, h1, h2, h3, h4, h5, h6, h7⟩ := h
  obtain ⟨f1, f2, f3, f4⟩ := hf
  refine ⟨e1, e2, e3, e4, a, hbs, vbs, h1, by omega, by rw [f1 a h2]; exact h3, h4, h5, ?_, h7⟩
  intro i x vx g1 g2
  have r := h6 i x vx g1 g2
  exact r.frame f4 (f2 _ r.2.1)

/-- The object built by `Deque::Deque()` holds the default-constructed value. -/
theorem Deque.new_reps {T : Type} (m : Mem T) :
    (Deque.new m).2.Reps (Deque.new m).1 (BlockDeque.Deque.new : BlockDeque.Deque T) := by
  obtain ⟨n1, n2, n3, n4, n5, n6, n7⟩ := newArr_spec m 1
  obtain ⟨b1, b2, b3, b4, b5, b6, b7⟩ := newBlocks_spec 1 m
  refine ⟨rfl, rfl, rfl, rfl, m.narr, (m.newBlocks 1).2, List.replicate 1 BlockDeque.Block.new,
    ?_, ?_, n4, rfl, ?_, ?_, ?_⟩
  · show some (m.newArr 1).2 = some m.narr
    rw [n1]
  · show m.narr < (m.newArr 1).1.narr
    rw [n2]
    omega
  · rw [b4]
    rfl
  · intro i x vx g1 g2
    have hi : i < 1 := by
      have := (List.getElem?_eq_some.mp g1).1
      omega
    have hi0 : i = 0 := by omega
    subst hi0
    rw [b5 0 (by omega)] at g1
    simp only [List.replicate, List.getElem?_cons_zero, Option.some.injEq] at g1 g2
    subst g1
    subst g2
    refine ⟨rfl, ?_, ?_, rfl, rfl, rfl⟩
    · show m.nbuf + 0 < (m.newArr 1).1.nbuf
      rw [n3]
      omega
    · show (m.newArr 1).1.bufs (m.nbuf + 0) = _
      rw [n7 0 (by omega)]
      rfl
  · intro i j x y g1 g2 _
    have hi := (List.getElem?_eq_some.mp g1).1
    have hj := (List.getElem?_eq_some.mp g2).1
    omega

theorem sampleObj_reps : sampleObj.Reps sampleMem sampleFront := by
  refine ⟨rfl, rfl, rfl, rfl, 0,
    [{ size_ := 1, first_elem_ := 0, last_elem_ := 0, start_ := 0, content_ := some 0 }],
    [{ size_ := 1, first_elem_ := 0, last_elem_ := 0,
       content_ := some 1 :: List.replicate 127 none }], rfl, by decide, rfl, rfl, rfl, ?_, ?_⟩
  · intro i x vx g1 g2
    cases i with
    | zero =>
      simp only [List.getElem?_cons_zero, Option.some.injEq] at g1 g2
      subst g1
      subst g2
      exact ⟨rfl, by decide, rfl, rfl, rfl, rfl⟩
    | succ j => simp at g1
  · intro i j x y g1 g2 _
    cases i with
    | zero =>
      cases j with
      | zero => rfl
      | succ k => simp at g2
    | succ k => simp at g1

/-- C8. Deep copy.  Let the heap object `d` hold a reachable deque value.  Copy
construction from `d` returns a new object `c` with the same block count, head
and tail indices and `Size()`, holding the same value in memory of its own, so
that `c[i] == d[i]` for every `i < d.Size()`; copying leaves `d` holding its
value.  Every sequence of pushes, pops, clears and indexed writes that meet
their preconditions, then applied to `c`, runs to its end and leaves `d` holding
its value: every `d[i]` reads as before (`d.Size()` is a field of the object `d`,
which none of these calls takes as an argument). -/
theorem c8_deep_copy {T : Type} (dv : BlockDeque.Deque T) (hr : Reachable dv)
    (m : Mem T) (d : Deque) (hf : m.Fresh) (hd : d.Reps m dv)
    (fuel : Nat) (hfu : 2 ≤ fuel) (cs : List (Mut T))
    (hok : Mut.allOk fuel cs dv = true) :
    ∃ m1 c, Deque.Copy m d = some (m1, c) ∧
      (c.block_cnt_ = d.block_cnt_ ∧ c.first_elem_ = d.first_elem_ ∧
        c.last_elem_ = d.last_elem_ ∧ c.Size = d.Size) ∧
      c.Reps m1 dv ∧ d.Reps m1 dv ∧
      (∀ i, i < d.Size → ∃ v, Deque.index m d i = some v ∧ Deque.index m1 c i = some v ∧
        Deque.index m1 d i = some v) ∧
      ∃ m2 c2, Deque.mutateAll fuel cs m1 c = some (m2, c2) ∧ d.Reps m2 dv ∧
        (∀ i, Deque.index m2 d i = Deque.index m d i) ∧
        ∀ i, i < d.Size → ∃ v, Deque.index m d i = some v ∧ Deque.index m2 d i = some v := by
  obtain ⟨l, hl⟩ := hr.models
  have hmod := hl
  obtain ⟨bs, seg, n, hrep, _⟩ := hmod
  obtain ⟨m1, c, hcopy, hc, hd1, k1, k2, k3, k4⟩ := Deque.Copy_reps hd hrep
  obtain ⟨f1, f2, f3, _⟩ := Deque.Copy_frame hf hcopy
  obtain ⟨m2, c2, dv2, hm, _, _⟩ :=
    Deque.mutateAll_sim fuel hfu cs m1 c dv hc ⟨bs, seg, n, hrep⟩ hok
  obtain ⟨f4, _, _⟩ := Deque.mutateAll_frame fuel cs f2 f3 hm
  have hd2 : d.Reps m2 dv := hd.frozen (Frozen.trans f1 f4)
  have hsz : d.Size = l.length := by
    show d.size_ = _
    rw [hd.1]
    exact hl.size
  have hval : ∀ i, i < d.Size → ∃ v, dv.index i = some v := by
    intro i hi
    have hil : i < l.length := by omega
    exact ⟨l[i], hl.index i hil⟩
  refine ⟨m1, c, hcopy, ⟨k2, k3, k4, k1⟩, hc, hd1, ?_, m2, c2, hm, hd2, ?_, ?_⟩
  · intro i hi
    obtain ⟨v, hv⟩ := hval i hi
    exact ⟨v, by rw [hd.index_value]; exact hv, by rw [hc.index_value]; exact hv,
      by rw [hd1.index_value]; exact hv⟩
  · intro i
    rw [hd2.index_value, hd.index_value]
  · intro i hi
    obtain ⟨v, hv⟩ := hval i hi
    exact ⟨v, by rw [hd.index_value]; exact hv, by rw [hd2.index_value]; exact hv⟩

set_option maxRecDepth 100000 in
/-- C8 at the heap object holding `[1]`: it is copied, and the copy is pushed
to, written to, popped from and cleared; the original still reads `1` at index
0, the copy read `1` there before the calls and is empty after them. -/
theorem c8_deep_copy_witness :
    (∃ m1 c, Deque.Copy sampleMem sampleObj = some (m1, c) ∧
      (c.block_cnt_ = sampleObj.block_cnt_ ∧ c.first_elem_ = sampleObj.first_elem_ ∧
        c.last_elem_ = sampleObj.last_elem_ ∧ c.Size = sampleObj.Size) ∧
      c.Reps m1 sampleFront ∧ sampleObj.Reps m1 sampleFront ∧
      (∀ i, i < sampleObj.Size → ∃ v, Deque.index sampleMem sampleObj i = some v ∧
        Deque.index m1 c i = some v ∧ Deque.index m1 sampleObj i = some v) ∧
      ∃ m2 c2, Deque.mutateAll 2 sampleMuts m1 c = some (m2, c2) ∧
        sampleObj.Reps m2 sampleFront ∧
        (∀ i, Deque.index m2 sampleObj i = Deque.index sampleMem sampleObj i) ∧
        ∀ i, i < sampleObj.Size → ∃ v, Deque.index sampleMem sampleObj i = some v ∧
          Deque.index m2 sampleObj i = some v) ∧
    Deque.index sampleMem sampleObj 0 = some 1 ∧
    Deque.index sampleCopy.1 sampleCopy.2 0 = some 1 ∧
    Deque.index sampleFinal.1 sampleObj 0 = some 1 ∧ sampleFinal.2.Size = 0 :=
  ⟨c8_deep_copy sampleFront
    (Reachable.pushBack 2 BlockDeque.Deque.new sampleFront 1 Reachable.ctor (by rfl))
    sampleMem sampleObj sampleMem_fresh sampleObj_reps 2 (by decide) sampleMuts (by decide),
   by decide, by decide, by decide, by decide⟩

end Heap

end BlockDeque
